import Mathlib

/-!
# JunoDB: pending tracker, replicator, client options, storage configuration

A shallow embedding of

* `internal/cli/tracker.go`  (package `cli`: `PendingTracker`),
* `cmd/dbscanserv/prime/replicate.go` (package `prime`: the replicator worker),
* `pkg/client/option.go` (package `client`: request options), and
* `cmd/storageserv/config/config.go` (package `config`: path and micro-shard
  settings),

together with the properties of these programs.

Conventions of the embedding.

* `time.Time` and `time.Duration` are integers (a number of ticks); `t.After(u)`
  is `u < t`, `t.Add(d)` is `t + d` and `t.Sub(u)` is `t - u`.
* `uint32` sequence numbers are natural numbers; the tracker never does
  arithmetic on them.
* A Go pointer `*PendingRequest` is an address into `PendingTracker.heap`.
  `OnRequestSent` allocates its record at the fresh address `nextAddr`.
* A Go pointer `*RequestContext` is `Option Nat`; `none` is `nil`.
* The Go `error` is a `String`; `glog.Fatal` is `Except.error`.
* `RequestContext.Reply` and `RequestContext.ReplyError` are recorded as events.
-/

namespace Cli

/-- An instant of `time.Time`. -/
abbrev Time := Int

/-- A `time.Duration`. -/
abbrev Duration := Int

/-- Status of a response. Modelled from the spec: `proto.OpStatus` is declared
outside the sources at hand; the spec names `NoError`, `VersionConflict` and
"a set of error statuses", kept here by their numeric code. -/
inductive OpStatus where
  | NoError
  | VersionConflict
  | other (code : Nat)
  deriving DecidableEq, Repr

/-- The message `proto.OperationalMessage`, reduced to the two fields read by
the code at hand: `seq` is what `GetOpaque()` returns (the connection-local
sequence echoed by the server), `opStatus` is what `GetOpStatus()` returns. -/
structure OperationalMessage where
  seq : Nat
  opStatus : OpStatus
  deriving DecidableEq, Repr

/-- The record `PendingRequest` of `tracker.go`. -/
structure PendingRequest where
  reqCtx : Option Nat
  sequence : Nat
  timeSent : Time
  timeToExpire : Time
  deriving DecidableEq, Repr

/-- The Go map `PendingResponseMap`: sequence number to address of the
`PendingRequest`, as an association list. -/
abbrev PendingResponseMap := List (Nat × Nat)

/-- Map read `v, found := m[k]`. -/
def PendingResponseMap.find : PendingResponseMap → Nat → Option Nat
  | [], _ => none
  | (k', v) :: rest, k => if k' = k then some v else PendingResponseMap.find rest k

/-- The Go builtin `delete(m, k)`. -/
def PendingResponseMap.delete (m : PendingResponseMap) (k : Nat) : PendingResponseMap :=
  m.filter (fun kv => decide (kv.1 ≠ k))

/-- Map write `m[k] = v`. -/
def PendingResponseMap.store (m : PendingResponseMap) (k v : Nat) : PendingResponseMap :=
  (k, v) :: m.delete k

/-- Timer of the tracker. Modelled from the spec: `util.TimerWrapper` is declared
outside the sources at hand. The spec describes a single-shot timer that is
either idle or armed; `deadline` is the instant it was last armed for. -/
structure TimerWrapper where
  stopped : Bool
  deadline : Time
  deriving DecidableEq, Repr

/-- Modelled from the spec: `util.NewTimerWrapper`; a new timer is idle. -/
def NewTimerWrapper (_d : Duration) : TimerWrapper :=
  { stopped := true, deadline := 0 }

/-- Modelled from the spec: `TimerWrapper.IsStopped`. -/
def TimerWrapper.IsStopped (t : TimerWrapper) : Bool := t.stopped

/-- Modelled from the spec: `TimerWrapper.Stop`. -/
def TimerWrapper.Stop (t : TimerWrapper) : TimerWrapper :=
  { t with stopped := true }

/-- Modelled from the spec: `TimerWrapper.Reset(d)`, called at instant `now`:
the timer is armed for `now + d`. -/
def TimerWrapper.Reset (_t : TimerWrapper) (now : Time) (d : Duration) : TimerWrapper :=
  { stopped := false, deadline := now + d }

/-- The struct `PendingTracker`, with the memory its pointers refer to:
`heap a` is the `PendingRequest` at address `a`, `nextAddr` the next address
to be allocated. -/
structure PendingTracker where
  mapRequestsSent : PendingResponseMap
  pendingQueue : List Nat
  responseTimer : TimerWrapper
  requestTimeout : Duration
  heap : Nat → PendingRequest
  nextAddr : Nat

/-- The struct `ReaderResponse`: both fields are nilable in Go. -/
structure ReaderResponse where
  response : Option OperationalMessage
  err : Option String
  deriving DecidableEq, Repr

/-- Calls made on request contexts: `ctx.Reply(resp)` and `ctx.ReplyError(err)`. -/
inductive Event where
  | Reply (ctx : Option Nat) (resp : OperationalMessage)
  | ReplyError (ctx : Option Nat) (err : String)
  deriving DecidableEq, Repr

/-- The constructor `newPendingTracker`. -/
def newPendingTracker (requestTimeout : Duration) : PendingTracker :=
  { mapRequestsSent := []
    pendingQueue := []
    responseTimer := NewTimerWrapper requestTimeout
    requestTimeout := requestTimeout
    heap := fun _ => { reqCtx := none, sequence := 0, timeSent := 0, timeToExpire := 0 }
    nextAddr := 0 }

/-- The method `PendingTracker.OnRequestSent`; `now` is the value read from
`time.Now()`. The fatal exit is `Except.error`. -/
def OnRequestSent (p : PendingTracker) (now : Time) (reqCtx : Option Nat) (sequence : Nat) :
    Except String PendingTracker :=
  let pending : PendingRequest :=
    { reqCtx := reqCtx, sequence := sequence, timeSent := now,
      timeToExpire := now + p.requestTimeout }
  let addr := p.nextAddr
  let queue := p.pendingQueue ++ [addr]
  match p.mapRequestsSent.find sequence with
  | some _ => .error "wrong sequence"
  | none =>
    .ok { mapRequestsSent := p.mapRequestsSent.store sequence addr
          pendingQueue := queue
          responseTimer :=
            if p.responseTimer.IsStopped then p.responseTimer.Reset now p.requestTimeout
            else p.responseTimer
          requestTimeout := p.requestTimeout
          heap := Function.update p.heap addr pending
          nextAddr := addr + 1 }

/-- State of the `for i = 0; i < sz; i++` loop of `OnTimeout` when it is left. -/
structure SweepResult where
  i : Nat
  mapRequestsSent : PendingResponseMap
  responseTimer : TimerWrapper
  events : List Event

/-- The loop of `OnTimeout` over `queue[i:]`: the first argument is the part
of the queue not yet visited, `i` the loop index. -/
def sweep (heap : Nat → PendingRequest) (now : Time) :
    List Nat → Nat → PendingResponseMap → TimerWrapper → List Event → SweepResult
  | [], i, m, t, evs => { i := i, mapRequestsSent := m, responseTimer := t, events := evs }
  | a :: rest, i, m, t, evs =>
    let pr := heap a
    match pr.reqCtx with
    | none => sweep heap now rest (i + 1) m t evs
    | some c =>
      if now < pr.timeToExpire then
        { i := i, mapRequestsSent := m
          responseTimer := t.Reset now (pr.timeToExpire - now), events := evs }
      else
        match m.find pr.sequence with
        | some _ =>
          sweep heap now rest (i + 1) (m.delete pr.sequence) t
            (evs ++ [Event.ReplyError (some c) "request timeout"])
        | none => sweep heap now rest (i + 1) m t evs

/-- The method `PendingTracker.OnTimeout`. -/
def OnTimeout (p : PendingTracker) (now : Time) : PendingTracker × List Event :=
  let timer := p.responseTimer.Stop
  let sz := p.pendingQueue.length
  if sz ≠ 0 then
    let queue := p.pendingQueue
    -- p.pendingQueue = p.pendingQueue[:0]
    let r := sweep p.heap now queue 0 p.mapRequestsSent timer []
    ({ p with
        mapRequestsSent := r.mapRequestsSent
        responseTimer := r.responseTimer
        pendingQueue := if r.i ≠ 0 then queue.drop r.i else [] }, r.events)
  else
    ({ p with responseTimer := timer }, [])

/-- The loop `for k, v := range p.mapRequestsSent` of `ClearOnError`: the first
argument lists the entries still to be visited (Go visits them in an
unspecified order; here in the order of the association list), the second is
the map as it stands. -/
def clearLoop (heap : Nat → PendingRequest) (err : String) :
    List (Nat × Nat) → PendingResponseMap → List Event →
      Except String (PendingResponseMap × List Event)
  | [], m, evs => .ok (m, evs)
  | (k, v) :: rest, m, evs =>
    match (heap v).reqCtx with
    | none => .error "nil"
    | some c => clearLoop heap err rest (m.delete k) (evs ++ [Event.ReplyError (some c) err])

/-- The method `PendingTracker.ClearOnError`. -/
def ClearOnError (p : PendingTracker) (err : String) :
    Except String (PendingTracker × List Event) :=
  match clearLoop p.heap err p.mapRequestsSent p.mapRequestsSent [] with
  | .error e => .error e
  | .ok (m, evs) => .ok ({ p with mapRequestsSent := m }, evs)

/-- The method `PendingTracker.OnResonseReceived` (spelled as in the source). -/
def OnResonseReceived (p : PendingTracker) (readerResp : ReaderResponse) :
    Except String (PendingTracker × List Event) :=
  match readerResp.err with
  | none =>
    match readerResp.response with
    | none => .error "both err and response are nil"
    | some resp =>
      let connSequence := resp.seq
      match p.mapRequestsSent.find connSequence with
      | some pending =>
        .ok ({ p with
                mapRequestsSent := p.mapRequestsSent.delete connSequence
                heap := Function.update p.heap pending
                  { p.heap pending with reqCtx := none } },
             [Event.Reply (p.heap pending).reqCtx resp])
      | none => .ok (p, [])
  | some err =>
    match ClearOnError { p with responseTimer := p.responseTimer.Stop } err with
    | .error e => .error e
    | .ok (q, evs) => .ok ({ q with pendingQueue := [] }, evs)

/-- The method `PendingTracker.OnResponseReaderClosed`. -/
def OnResponseReaderClosed (p : PendingTracker) : Except String (PendingTracker × List Event) :=
  ClearOnError { p with responseTimer := p.responseTimer.Stop } "reader closed"

/-- One call on the tracker, as made by the coordinator that owns it. -/
inductive Op where
  | requestSent (now : Time) (reqCtx : Option Nat) (sequence : Nat)
  | timeout (now : Time)
  | responseReceived (readerResp : ReaderResponse)
  | readerClosed
  deriving DecidableEq, Repr

/-- Performs one call. -/
def step (p : PendingTracker) : Op → Except String (PendingTracker × List Event)
  | .requestSent now reqCtx sequence =>
    match OnRequestSent p now reqCtx sequence with
    | .error e => .error e
    | .ok q => .ok (q, [])
  | .timeout now => .ok (OnTimeout p now)
  | .responseReceived rr => OnResonseReceived p rr
  | .readerClosed => OnResponseReaderClosed p

/-- Performs the calls of `ops` in order, from state `p`, collecting the events
after `evs`; stops at the first fatal exit. -/
def runFrom : PendingTracker → List Event → List Op → Except String (PendingTracker × List Event)
  | p, evs, [] => .ok (p, evs)
  | p, evs, op :: ops =>
    match step p op with
    | .error e => .error e
    | .ok (q, evs') => runFrom q (evs ++ evs') ops

/-- Runs `ops` on a new tracker with the given request timeout. -/
def run (requestTimeout : Duration) (ops : List Op) : Except String (PendingTracker × List Event) :=
  runFrom (newPendingTracker requestTimeout) [] ops

/-- Clock readings of the `OnRequestSent` calls of a run, in order. -/
def sentTimes : List Op → List Time
  | [] => []
  | .requestSent now _ _ :: ops => now :: sentTimes ops
  | _ :: ops => sentTimes ops

/-- Instants of all the calls of a run that carry one (`OnRequestSent` and
`OnTimeout`), in order. -/
def timestamps : List Op → List Time
  | [] => []
  | .requestSent now _ _ :: ops => now :: timestamps ops
  | .timeout now :: ops => now :: timestamps ops
  | _ :: ops => timestamps ops

end Cli

namespace Cli

/-- Memory safety of a tracker state: every pointer kept in the map or in the
queue refers to a record that has been allocated. Go guarantees it of every
state; `OnRequestSent` allocates at `nextAddr`. -/
def WellFormed (p : PendingTracker) : Prop :=
  (∀ kv ∈ p.mapRequestsSent, kv.2 < p.nextAddr) ∧ (∀ a ∈ p.pendingQueue, a < p.nextAddr)

/-- The tracker with one request in flight: sequence 1, context 7, sent at
instant 0 with request timeout 10, timer armed for 10. -/
def trackerOne : PendingTracker :=
  { mapRequestsSent := [(1, 0)]
    pendingQueue := [0]
    responseTimer := { stopped := false, deadline := 10 }
    requestTimeout := 10
    heap := Function.update (newPendingTracker 10).heap 0
      { reqCtx := some 7, sequence := 1, timeSent := 0, timeToExpire := 10 }
    nextAddr := 1 }

end Cli

namespace Cli

/-- Whether a call hands the tracker a request context: false only for an
`OnRequestSent` whose `reqCtx` argument is nil. -/
def Op.ctxGiven : Op → Bool
  | .requestSent _ none _ => false
  | _ => true

/-- Invariant of the queue in a run whose `OnRequestSent` calls read the clock
values `past`, in order: the queue holds allocated records, ordered by
`timeSent`, each sent at one of the instants of `past` and expiring one request
timeout `d` later. -/
def QueueInv (d : Duration) (past : List Time) (p : PendingTracker) : Prop :=
  p.requestTimeout = d ∧
  (∀ a ∈ p.pendingQueue, a < p.nextAddr) ∧
  (p.pendingQueue.map (fun a => (p.heap a).timeSent)).Pairwise (· ≤ ·) ∧
  (∀ a ∈ p.pendingQueue, (p.heap a).timeSent ∈ past) ∧
  (∀ a ∈ p.pendingQueue, (p.heap a).timeToExpire = (p.heap a).timeSent + d)

/-- Invariant of the map in a run that hands a context to every
`OnRequestSent`: the map holds allocated records with a non-nil `reqCtx`, no
record under two keys and no key twice. -/
def MapInv (p : PendingTracker) : Prop :=
  (∀ kv ∈ p.mapRequestsSent, kv.2 < p.nextAddr ∧ (p.heap kv.2).reqCtx ≠ none) ∧
  (p.mapRequestsSent.map Prod.snd).Nodup ∧
  (p.mapRequestsSent.map Prod.fst).Nodup

end Cli

/-! ## The replicator worker (`cmd/dbscanserv/prime/replicate.go`) -/

namespace Prime

open Cli (OperationalMessage OpStatus)

/-- Text of a status. Modelled from the spec: `proto.OpStatus.String` is declared
outside the sources at hand; only the fact that it yields a string is used. -/
def statusString : OpStatus → String
  | .NoError => "NoError"
  | .VersionConflict => "VersionConflict"
  | .other code => "OpStatus " ++ toString code

/-- The function `checkResponse`; `none` is the nil error. -/
def checkResponse (_request : OperationalMessage) (response : OperationalMessage) :
    Option String :=
  let status := response.opStatus
  if status = OpStatus.NoError ∨ status = OpStatus.VersionConflict then none
  else some (statusString status)

/-- What one call `processor[k].ProcessRequest(op)` returns: a non-nil error, or
a nil error with the reply. -/
inductive Outcome where
  | failure (err : String)
  | reply (response : OperationalMessage)
  deriving DecidableEq, Repr

/-- What the worker has done for the op at hand, and its failure counter. -/
structure OpRun where
  calls : Nat
  sleeps : Nat
  logged : List String
  sent : List Bool
  count : Nat
  deriving DecidableEq, Repr

/-- The failure exit of the loop body: `count++` on a `uint64`, a log line for
6 of every 1000 failures, `outChan <- false`. -/
def fail (r : OpRun) (err : String) : OpRun :=
  let count := (r.count + 1) % 2 ^ 64
  { r with
      count := count
      logged := if count % 1000 < 6 then r.logged ++ ["Replicate err=" ++ err] else r.logged
      sent := r.sent ++ [false] }

/-- The loop `for i := 0; i < 3; i++` of `processRequest` for one `op`. The
first argument is the number of iterations still allowed, `3 - i`; when it
is 0 the loop condition fails. `ProcessRequest j` is the outcome of the call
number `j` (from 0) made for this op. -/
def retryLoop (ProcessRequest : Nat → Outcome) (op : OperationalMessage) :
    Nat → Nat → OpRun → OpRun
  | 0, _, r => r
  | n + 1, i, r =>
    match ProcessRequest r.calls with
    | .failure err =>
      let r1 := { r with calls := r.calls + 1 }
      if i < 2 then
        retryLoop ProcessRequest op n (i + 1) { r1 with sleeps := r1.sleeps + 1 }
      else fail r1 err
    | .reply reply =>
      let r1 := { r with calls := r.calls + 1 }
      match checkResponse op reply with
      | some err => fail r1 err
      | none => { r1 with sent := r1.sent ++ [true] }

/-- The body of `case op := <-inChan` in `processRequest`: what the worker does
for one op, starting with failure counter `count`. -/
def handleOp (ProcessRequest : Nat → Outcome) (op : OperationalMessage) (count : Nat) : OpRun :=
  retryLoop ProcessRequest op 3 0 { calls := 0, sleeps := 0, logged := [], sent := [], count := count }

end Prime

namespace Prime

open Cli (OperationalMessage OpStatus)

/-- A channel operation of the replicator: `inChan <- op` and `rt := <-outChan`
in `ReplicateRecord`, `op := <-inChan` and `outChan <- b` in the worker. -/
inductive ChanAction where
  | sendIn (op : OperationalMessage)
  | recvOut (rt : Bool)
  | recvIn (op : OperationalMessage)
  | sendOut (b : Bool)
  deriving DecidableEq, Repr

/-- The worker `processRequest(k)` on the ops it takes from `inChan`, in order:
the channel operations it performs. `ProcessRequest j` is the outcome of the
call number `j` (from 0) on `processor[k]`, `calls` the number of calls made so
far and `count` the failure counter. The source loops forever; the list is the
part of `inChan` delivered to this worker. -/
def processRequest (ProcessRequest : Nat → Outcome) :
    List OperationalMessage → Nat → Nat → List ChanAction
  | [], _, _ => []
  | op :: ops, calls, count =>
    let r := handleOp (fun j => ProcessRequest (calls + j)) op count
    ChanAction.recvIn op ::
      (r.sent.map ChanAction.sendOut ++
        processRequest ProcessRequest ops (calls + r.calls) r.count)

/-- A processor of the pool. Modelled from the spec: `cli.Processor`,
`cli.NewProcessor` and `Processor.Start` are declared outside the sources at
hand; kept are the arguments given to the constructor (times in milliseconds)
and whether `Start` and `runtime.SetFinalizer` have been called on it. -/
structure Processor where
  addr : String
  sslEnabled : Bool
  appName : String
  connectTimeout : Nat
  requestTimeout : Nat
  connectRecycleTimeout : Nat
  started : Bool
  finalizerSet : Bool
  deriving DecidableEq, Repr

/-- The package variables of `replicate.go`, and the workers started so far by
`go processRequest(i)` (their slot indexes, in order). `processor` is `none`
for the nil slice; a slot is `none` for a nil pointer. -/
structure Replicator where
  secConfig : Option Nat
  processor : Option (List (Option Processor))
  inChan : List OperationalMessage
  outChan : List Bool
  workers : List Nat
  deriving DecidableEq, Repr

/-- The package variables as initialised at program start. -/
def freshReplicator : Replicator :=
  { secConfig := none, processor := none, inChan := [], outChan := [], workers := [] }

/-- Modelled from the spec: `cli.NewProcessor(endpoint, "dbscan", 500ms, 1000ms, 60s)`
followed by `Start()` and `runtime.SetFinalizer`. -/
def newStartedProcessor (proxyAddr : String) (sslEnabled : Bool) : Processor :=
  { addr := proxyAddr, sslEnabled := sslEnabled, appName := "dbscan"
    connectTimeout := 500, requestTimeout := 1000, connectRecycleTimeout := 60000
    started := true, finalizerSet := true }

/-- The loop `for i := 0; i < numConns; i++` of `InitReplicator`. The first
argument is the number of iterations still to run, `numConns - i`. -/
def initLoop (proxyAddr : String) (sslEnabled : Bool) :
    Nat → Nat → List (Option Processor) → List Nat → List (Option Processor) × List Nat
  | 0, _, pool, workers => (pool, workers)
  | n + 1, i, pool, workers =>
    initLoop proxyAddr sslEnabled n (i + 1)
      (pool.set i (some (newStartedProcessor proxyAddr sslEnabled))) (workers ++ [i])

/-- The function `InitReplicator`; `numConns` is a Go `int`. -/
def InitReplicator (r : Replicator) (proxyAddr : String) (numConns : Int) : Replicator :=
  if proxyAddr.length = 0 then r
  else
    let numConns1 := if numConns ≤ 0 then 1 else numConns
    let numConns2 := if numConns1 > 4 then 4 else numConns1
    let made : List (Option Processor) := List.replicate numConns2.toNat none
    let res := initLoop proxyAddr r.secConfig.isSome numConns2.toNat 0 made r.workers
    { r with processor := some res.1, workers := res.2 }

/-- The function `ReplicateRecord`; `op` is `none` for the nil pointer and `rt`
is the value that `<-outChan` yields if it is reached. Returns the result and
the channel operations performed. -/
def ReplicateRecord (r : Replicator) (op : Option OperationalMessage) (rt : Bool) :
    Bool × List ChanAction :=
  match op, r.processor with
  | none, _ => (false, [])
  | some _, none => (false, [])
  | some o, some _ => (rt, [ChanAction.sendIn o, ChanAction.recvOut rt])

end Prime

/-! ## Client options (`pkg/client/option.go`) -/

namespace Client

/-- The struct `optionData`; `context` is an `IContext` interface value, `none`
when nil. The zero value is `{0, nil, ""}`. -/
structure optionData where
  ttl : Nat
  context : Option Nat
  correlationId : String
  deriving DecidableEq, Repr

/-- The zero value `optionData{}`. -/
def optionData.zero : optionData := { ttl := 0, context := none, correlationId := "" }

/-- What an `interface{}` argument points to: an `optionData` (the argument is a
`*optionData`) or something else. -/
inductive Pointee where
  | optionData (data : optionData)
  | other
  deriving DecidableEq, Repr

/-- The type `IOption`, `func(data interface{})`: a call may change what its
argument points to. -/
abbrev IOption := Pointee → Pointee

/-- The function `WithTTL`. -/
def WithTTL (ttl : Nat) : IOption := fun i =>
  match i with
  | .optionData data => .optionData { data with ttl := ttl }
  | .other => .other

/-- The function `WithCond`. -/
def WithCond (context : Option Nat) : IOption := fun i =>
  match i with
  | .optionData data => .optionData { data with context := context }
  | .other => .other

/-- The function `WithCorrelationId`. -/
def WithCorrelationId (id : String) : IOption := fun i =>
  match i with
  | .optionData data => .optionData { data with correlationId := id }
  | .other => .other

/-- The loop `for _, op := range opts` of `newOptionData`, on the record that
`data` points to. -/
def applyOptions : List IOption → optionData → optionData
  | [], data => data
  | op :: opts, data =>
    match op (.optionData data) with
    | .optionData data' => applyOptions opts data'
    | .other => applyOptions opts data

/-- The function `newOptionData`. -/
def newOptionData (opts : List IOption) : optionData :=
  applyOptions opts optionData.zero

/-- How an option was built: by `WithTTL`, `WithCond` or `WithCorrelationId`. -/
inductive OptionCall where
  | ttl (ttl : Nat)
  | cond (context : Option Nat)
  | correlationId (id : String)
  deriving DecidableEq, Repr

/-- The option a call builds. -/
def OptionCall.build : OptionCall → IOption
  | .ttl t => WithTTL t
  | .cond c => WithCond c
  | .correlationId id => WithCorrelationId id

/-- The argument of a `WithTTL` call. -/
def OptionCall.ttlArg : OptionCall → Option Nat
  | .ttl t => some t
  | _ => none

/-- The argument of a `WithCond` call. -/
def OptionCall.condArg : OptionCall → Option (Option Nat)
  | .cond c => some c
  | _ => none

/-- The argument of a `WithCorrelationId` call. -/
def OptionCall.idArg : OptionCall → Option String
  | .correlationId id => some id
  | _ => none

end Client

namespace Cli

/-- The request context an event is addressed to. -/
def Event.ctx : Event → Option Nat
  | .Reply ctx _ => ctx
  | .ReplyError ctx _ => ctx

/-- Whether `OnTimeout(now)` in state `p` sweeps the head of the queue: the
queue is empty, or its head is answered (`reqCtx` nil) or expired
(`timeToExpire` not after `now`). -/
def sweepsHead (p : PendingTracker) (now : Time) : Bool :=
  match p.pendingQueue with
  | [] => true
  | a :: _ => (p.heap a).reqCtx.isNone || decide ((p.heap a).timeToExpire ≤ now)

/-- A run from `p` in which every `OnRequestSent` is given a request context
and every `OnTimeout` call sweeps the head of the queue it finds. -/
def regularRun : PendingTracker → List Op → Bool
  | _, [] => true
  | p, op :: ops =>
    op.ctxGiven &&
    (match op with
      | .timeout now => sweepsHead p now
      | _ => true) &&
    (match step p op with
      | .ok (q, _) => regularRun q ops
      | .error _ => true)

/-- Invariant that ties the map to the queue and to the timer, in a regular
run with clock values `past`: every request of the map is in the queue, under
the key that is its own sequence; the timer is armed when the map is not
empty; an armed timer has as deadline the expiry of a request sent in the run,
not after the `timeToExpire` of any request of the map. -/
def LinkInv (d : Duration) (past : List Time) (p : PendingTracker) : Prop :=
  (∀ kv ∈ p.mapRequestsSent, kv.2 ∈ p.pendingQueue ∧ (p.heap kv.2).sequence = kv.1) ∧
  (p.mapRequestsSent ≠ [] → p.responseTimer.stopped = false) ∧
  (p.responseTimer.stopped = false →
    (∃ t ∈ past, p.responseTimer.deadline = t + d) ∧
    ∀ kv ∈ p.mapRequestsSent, p.responseTimer.deadline ≤ (p.heap kv.2).timeToExpire)

end Cli

namespace Cli

/-- Whether a call is `OnResponseReaderClosed`. -/
def Op.isReaderClosed : Op → Bool
  | .readerClosed => true
  | _ => false

/-- The contexts handed to the `OnRequestSent` calls of a run, in order. -/
def givenContexts : List Op → List (Option Nat)
  | [] => []
  | .requestSent _ reqCtx _ :: ops => reqCtx :: givenContexts ops
  | _ :: ops => givenContexts ops

/-- Invariant of the queue entries that are not tombstones: the queue holds
allocated records, none twice, and every entry with a non-nil `reqCtx` is
stored in the map under its own sequence. -/
def LiveInv (p : PendingTracker) : Prop :=
  (∀ a ∈ p.pendingQueue, a < p.nextAddr) ∧
  p.pendingQueue.Nodup ∧
  (∀ a ∈ p.pendingQueue, (p.heap a).reqCtx ≠ none →
    p.mapRequestsSent.find (p.heap a).sequence = some a)

end Cli

namespace Cli

/-- Invariant behind "at most one reply per context", for a run that has
handed out the contexts `used` and made the calls `evs` so far: the contexts
already replied to and those of the requests in the map are all different
and all among `used`; the map holds allocated records, none under two keys. -/
def ReplyInv (used : List (Option Nat)) (p : PendingTracker) (evs : List Event) : Prop :=
  LiveInv p ∧
  (∀ kv ∈ p.mapRequestsSent, kv.2 < p.nextAddr) ∧
  (p.mapRequestsSent.map Prod.snd).Nodup ∧
  (evs.map Event.ctx ++ p.mapRequestsSent.map (fun kv => (p.heap kv.2).reqCtx)).Nodup ∧
  (∀ c ∈ evs.map Event.ctx ++ p.mapRequestsSent.map (fun kv => (p.heap kv.2).reqCtx),
    c ∈ used)

end Cli

/-! ## Storage server configuration (`cmd/storageserv/config/config.go`) -/

namespace StorageConfig

/-- `strings.Split(path, "/")` on the characters of a path: the path elements,
empty ones included. -/
def splitSlash : List Char → List (List Char)
  | [] => [[]]
  | c :: cs =>
    if c = '/' then [] :: splitSlash cs
    else
      match splitSlash cs with
      | [] => [[c]]
      | e :: es => (c :: e) :: es

/-- The elements joined by single slashes. -/
def joinSlash : List (List Char) → List Char
  | [] => []
  | [e] => e
  | e :: es => e ++ '/' :: joinSlash es

/-- The scan of `filepath.Clean` over the elements of a path. The second
argument is the output so far, as a stack of elements, last one first. An
empty element (a repeated or trailing slash) and `.` are skipped; `..` removes
the last element when there is one to backtrack over, is dropped at the root
of a rooted path, and is kept otherwise; any other element is appended. -/
def cleanElems (rooted : Bool) : List (List Char) → List (List Char) → List (List Char)
  | [], stack => stack
  | e :: es, stack =>
    if e = [] ∨ e = ['.'] then cleanElems rooted es stack
    else if e = ['.', '.'] then
      match stack with
      | top :: rest =>
        if top ≠ ['.', '.'] then cleanElems rooted es rest
        else if rooted then cleanElems rooted es stack
        else cleanElems rooted es (e :: stack)
      | [] =>
        if rooted then cleanElems rooted es []
        else cleanElems rooted es [e]
    else cleanElems rooted es (e :: stack)

/-- Whether a path begins with a slash. -/
def isRooted (path : String) : Bool := path.data.head? = some '/'

/-- The elements of `filepath.Clean(path)`, in order. -/
def cleanElements (path : String) : List (List Char) :=
  (cleanElems (isRooted path) (splitSlash path.data) []).reverse

/-- The path with the given elements: `/` and the joined elements when rooted,
the joined elements otherwise, `.` when that is empty. -/
def ofElements (rooted : Bool) (elems : List (List Char)) : String :=
  if rooted then String.mk ('/' :: joinSlash elems)
  else if joinSlash elems = [] then "." else String.mk (joinSlash elems)

/-- The Go library function `filepath.Clean` on Unix paths, after its
documentation: the shortest path equivalent to `path` by purely lexical
processing (single separators, no `.` element, no inner `..` element, no `..`
at the start of a rooted path, no trailing slash except for the root, `.` for
the empty result). -/
def Clean (path : String) : String :=
  ofElements (isRooted path) (cleanElements path)

/-- The Go library function `filepath.IsAbs` on Unix: the path begins with a
slash. -/
def IsAbs (path : String) : Bool := isRooted path

/-- The struct `Config`, reduced to the fields read or written by
`validatePathAndFileNames`, `validatePath` and the micro-shard step of
`LoadConfig`. `EtcdCacheDir` is `Etcd.CacheDir`, `DbPaths` lists the
`DB.DbPaths[i].Path`; the `uint32` fields are natural numbers, on which the
code at hand only compares and assigns constants. -/
structure Config where
  RootDir : String
  StateLogDir : String
  PidFileName : String
  EtcdCacheDir : String
  DbPaths : List String
  MicroShardsEnabled : Bool
  NumMicroShards : Nat
  NumMicroShardGroups : Nat
  deriving DecidableEq, Repr

/-- The method `Config.validatePath`. The argument is the `*string`, `none`
when nil; the result is the string it points to after the call. -/
def Config.validatePath (c : Config) (path : Option String) : Option String :=
  match path with
  | none => none
  | some p =>
    if p.length = 0 then some (Clean (c.RootDir ++ "/"))
    else if !IsAbs p then some (Clean (c.RootDir ++ "/" ++ p))
    else some p

/-- The string behind a non-nil `*string` after `validatePath`. -/
def Config.validated (c : Config) (p : String) : String :=
  (c.validatePath (some p)).getD p

/-- The method `Config.validatePathAndFileNames` on `serverConfig`; `exeDir` is
the value of `filepath.Dir(os.Args[0])`. -/
def validatePathAndFileNames (serverConfig : Config) (exeDir : String) : Config :=
  let c1 := if serverConfig.RootDir.length = 0 then { serverConfig with RootDir := exeDir }
    else serverConfig
  let c2 := { c1 with EtcdCacheDir := c1.validated c1.EtcdCacheDir }
  let c3 := { c2 with StateLogDir := c2.validated c2.StateLogDir }
  let c4 := if c3.PidFileName.length = 0 then { c3 with PidFileName := "ss.pid" } else c3
  let c5 := { c4 with PidFileName := c4.validated c4.PidFileName }
  { c5 with DbPaths := c5.DbPaths.map c5.validated }

/-- The micro-shard step of `LoadConfig` (the `if serverConfig.MicroShardsEnabled`
statement). -/
def normalizeMicroShards (serverConfig : Config) : Config :=
  if serverConfig.MicroShardsEnabled then
    let c1 :=
      if serverConfig.NumMicroShardGroups = 0 ∨ serverConfig.NumMicroShardGroups > 256 then
        { serverConfig with NumMicroShardGroups := 8 }
      else serverConfig
    if c1.NumMicroShards = 0 ∨ c1.NumMicroShards > 256 then
      { c1 with NumMicroShards := 256 }
    else c1
  else
    { serverConfig with NumMicroShards := 0, NumMicroShardGroups := 0 }

/-- The elements a relative path appends to the directory it is joined to,
last one first, when the path stays inside that directory; `none` when a `..`
element of the path is met with nothing of the path left to backtrack over. -/
def appendedElems : List (List Char) → List (List Char) → Option (List (List Char))
  | [], t => some t
  | e :: es, t =>
    if e = [] ∨ e = ['.'] then appendedElems es t
    else if e = ['.', '.'] then
      match t with
      | [] => none
      | _ :: rest => appendedElems es rest
    else appendedElems es (e :: t)

end StorageConfig

namespace StorageConfig

/-- A configuration with the given `RootDir` and every other field at its
zero value. -/
def configAt (rootDir : String) : Config :=
  { RootDir := rootDir, StateLogDir := "", PidFileName := "", EtcdCacheDir := "",
    DbPaths := [], MicroShardsEnabled := false, NumMicroShards := 0,
    NumMicroShardGroups := 0 }

end StorageConfig

/-! ## Properties of the pending tracker -/

namespace Cli

/-! ### The association list behind `mapRequestsSent` -/

theorem find_eq_none_iff (m : PendingResponseMap) (k : Nat) :
    m.find k = none ↔ ∀ kv ∈ m, kv.1 ≠ k := by
  induction m with
  | nil => simp [PendingResponseMap.find]
  | cons hd tl ih =>
    obtain ⟨k', v⟩ := hd
    by_cases h : k' = k
    · simp [PendingResponseMap.find, h]
    · simp [PendingResponseMap.find, h, ih]

theorem mem_of_find (m : PendingResponseMap) (k v : Nat) (h : m.find k = some v) :
    (k, v) ∈ m := by
  induction m with
  | nil => simp [PendingResponseMap.find] at h
  | cons hd tl ih =>
    obtain ⟨k', v'⟩ := hd
    by_cases hk : k' = k
    · simp [PendingResponseMap.find, hk] at h
      simp [hk, h]
    · simp [PendingResponseMap.find, hk] at h
      exact List.mem_cons_of_mem _ (ih h)

theorem find_delete (m : PendingResponseMap) (k k' : Nat) :
    (m.delete k).find k' = if k = k' then none else m.find k' := by
  induction m with
  | nil => simp [PendingResponseMap.delete, PendingResponseMap.find]
  | cons hd tl ih =>
    obtain ⟨k0, v⟩ := hd
    simp only [PendingResponseMap.delete] at ih ⊢
    by_cases h0 : k0 = k
    · subst h0
      by_cases h1 : k0 = k'
      · simp [List.filter_cons, h1] at ih ⊢
        simpa [h1] using ih
      · simp [List.filter_cons, h1, PendingResponseMap.find] at ih ⊢
        simpa [h1] using ih
    · by_cases h1 : k = k'
      · subst h1
        simp [List.filter_cons, h0, PendingResponseMap.find] at ih ⊢
        simpa using ih
      · simp [List.filter_cons, h0, h1, PendingResponseMap.find] at ih ⊢
        rw [ih]

theorem find_store (m : PendingResponseMap) (k v k' : Nat) :
    (m.store k v).find k' = if k = k' then some v else m.find k' := by
  unfold PendingResponseMap.store
  by_cases h : k = k'
  · simp [PendingResponseMap.find, h]
  · simp [PendingResponseMap.find, h, find_delete]

theorem mem_delete (m : PendingResponseMap) (k : Nat) (kv : Nat × Nat) :
    kv ∈ m.delete k ↔ kv ∈ m ∧ kv.1 ≠ k := by
  simp [PendingResponseMap.delete, List.mem_filter]

theorem delete_sublist (m : PendingResponseMap) (k : Nat) : (m.delete k).Sublist m :=
  List.filter_sublist m

/-! ### The queue after `OnTimeout` -/

/-- C1. The invariant "every request stored in `mapRequestsSent` is an element
of `pendingQueue`" is lost by the code: after `OnRequestSent(ctx, 1)` at
instant 0 (request timeout 10) and `OnTimeout(5)`, the request registered under
sequence 1 is still in the map, and the queue is empty. -/
theorem C1_map_entry_not_in_queue :
    ∃ s evs, run 10 [.requestSent 0 (some 7) 1, .timeout 5] = .ok (s, evs) ∧
      s.mapRequestsSent.find 1 = some 0 ∧ 0 ∉ s.pendingQueue ∧ s.pendingQueue = [] :=
  ⟨_, _, rfl, by decide, by decide, by decide⟩

/-- C2. An expired request survives `OnTimeout`: the instants 0, 5, 20 are
non-decreasing; after `OnRequestSent(ctx, 1)` at 0 (request timeout 10) and
`OnTimeout(5)`, the call `OnTimeout(20)` replies to nobody and leaves sequence 1
in the map, although its `timeToExpire` is 10. -/
theorem C2_expired_request_stays_in_map :
    ∃ s evs, run 10 [.requestSent 0 (some 7) 1, .timeout 5] = .ok (s, evs) ∧
      (timestamps [.requestSent 0 (some 7) 1, .timeout 5, .timeout 20]).Chain' (· ≤ ·) ∧
      (OnTimeout s 20).1.mapRequestsSent.find 1 = some 0 ∧
      ((OnTimeout s 20).1.heap 0).timeToExpire = 10 ∧
      (OnTimeout s 20).2 = [] :=
  ⟨_, _, rfl, by simp [timestamps], by decide, by decide, by decide⟩

/-- C3. When the head of the queue is a live entry that has not expired,
`OnTimeout` does not leave the queue unchanged but empties it: the state after
`OnRequestSent(ctx, 1)` at instant 0 (request timeout 10) has the queue `[0]`,
whose head has a non-nil `reqCtx` and `timeToExpire` 10 after 5, and after
`OnTimeout(5)` the queue is empty. -/
theorem C3_live_head_empties_queue :
    ∃ s evs, run 10 [.requestSent 0 (some 7) 1] = .ok (s, evs) ∧
      s.pendingQueue = [0] ∧ (s.heap 0).reqCtx = some 7 ∧ 5 < (s.heap 0).timeToExpire ∧
      (OnTimeout s 5).1.pendingQueue = [] :=
  ⟨_, _, rfl, by decide, by decide, by decide, by decide⟩

end Cli

namespace Cli

/-! ### `OnTimeout`: replies and deletions -/

/-- The sweep loop: the entries it replies to, in order, are a sublist
`replied` of the part of the queue it is given; each had a non-nil `reqCtx`,
was not after `now` and had its sequence in the map; the map loses exactly the
sequences of `replied`. -/
theorem sweep_replied (heap : Nat → PendingRequest) (now : Time) (q : List Nat) :
    ∀ (i : Nat) (m : PendingResponseMap) (t : TimerWrapper) (evs : List Event),
    ∃ replied : List Nat, replied.Sublist q ∧
      (sweep heap now q i m t evs).events =
        evs ++ replied.map (fun a => Event.ReplyError (heap a).reqCtx "request timeout") ∧
      (∀ a ∈ replied, (heap a).reqCtx ≠ none ∧ (heap a).timeToExpire ≤ now ∧
        (m.find (heap a).sequence).isSome) ∧
      (replied.map (fun a => (heap a).sequence)).Nodup ∧
      (∀ k, (sweep heap now q i m t evs).mapRequestsSent.find k =
        if k ∈ replied.map (fun a => (heap a).sequence) then none else m.find k) := by
  induction q with
  | nil => intro i m t evs; exact ⟨[], List.Sublist.slnil, by simp [sweep]⟩
  | cons a rest ih =>
    intro i m t evs
    cases hc : (heap a).reqCtx with
    | none =>
      obtain ⟨rep, hsub, hev, hall, hnd, hfind⟩ := ih (i + 1) m t evs
      refine ⟨rep, hsub.cons a, ?_, hall, hnd, ?_⟩
      · simp only [sweep, hc]; exact hev
      · simp only [sweep, hc]; exact hfind
    | some c =>
      by_cases hexp : now < (heap a).timeToExpire
      · exact ⟨[], List.nil_sublist _, by simp [sweep, hc, hexp]⟩
      · cases hf : m.find (heap a).sequence with
        | none =>
          obtain ⟨rep, hsub, hev, hall, hnd, hfind⟩ := ih (i + 1) m t evs
          refine ⟨rep, hsub.cons a, ?_, hall, hnd, ?_⟩
          · simp only [sweep, hc, hexp, hf, if_false]; exact hev
          · simp only [sweep, hc, hexp, hf, if_false]; exact hfind
        | some v =>
          obtain ⟨rep, hsub, hev, hall, hnd, hfind⟩ :=
            ih (i + 1) (m.delete (heap a).sequence) t
              (evs ++ [Event.ReplyError (some c) "request timeout"])
          have hseq : ∀ b ∈ rep, (heap b).sequence ≠ (heap a).sequence := by
            intro b hb heq
            have h3 := (hall b hb).2.2
            rw [find_delete, heq] at h3
            simp at h3
          refine ⟨a :: rep, hsub.cons₂ a, ?_, ?_, ?_, ?_⟩
          · simp only [sweep, hc, hexp, hf, if_false]
            rw [hev]; simp [hc]
          · intro b hb
            rcases List.mem_cons.1 hb with rfl | hb
            · exact ⟨by simp [hc], not_lt.1 hexp, by simp [hf]⟩
            · refine ⟨(hall b hb).1, (hall b hb).2.1, ?_⟩
              have h3 := (hall b hb).2.2
              rw [find_delete] at h3
              by_cases h4 : (heap a).sequence = (heap b).sequence
              · simp [h4] at h3
              · simpa [h4] using h3
          · simp only [List.map_cons, List.nodup_cons, List.mem_map, not_exists, not_and]
            exact ⟨fun b hb => hseq b hb, hnd⟩
          · intro k
            simp only [sweep, hc, hexp, hf, if_false]
            rw [hfind k, find_delete]
            by_cases hk : (heap a).sequence = k
            · simp [hk]
            · have hk' : ¬ k = (heap a).sequence := fun h => hk h.symm
              simp [hk, hk']

/-- The map after the sweep is the map before with some entries removed. -/
theorem sweep_map_sublist (heap : Nat → PendingRequest) (now : Time) (q : List Nat) :
    ∀ (i : Nat) (m : PendingResponseMap) (t : TimerWrapper) (evs : List Event),
      (sweep heap now q i m t evs).mapRequestsSent.Sublist m := by
  induction q with
  | nil => intro i m t evs; simp [sweep]
  | cons a rest ih =>
    intro i m t evs
    cases hc : (heap a).reqCtx with
    | none => simp only [sweep, hc]; exact ih _ _ _ _
    | some c =>
      by_cases hexp : now < (heap a).timeToExpire
      · simp [sweep, hc, hexp]
      · cases hf : m.find (heap a).sequence with
        | none => simp only [sweep, hc, hexp, hf, if_false]; exact ih _ _ _ _
        | some v =>
          simp only [sweep, hc, hexp, hf, if_false]
          exact (ih _ _ _ _).trans (delete_sublist _ _)

/-- C4. `OnTimeout(now)` replies "request timeout" exactly to the entries of a
sublist `replied` of the queue; each of them has a non-nil `reqCtx`, a
`timeToExpire` not after `now` and a sequence that is in `mapRequestsSent` (and
no two of them share a sequence, the first reply having deleted it); the
sequences deleted from the map are exactly those of `replied`, every other
key keeps its entry, and no `PendingRequest` is modified. -/
theorem C4_OnTimeout_replies_and_deletions (p : PendingTracker) (now : Time) :
    ∃ replied : List Nat, replied.Sublist p.pendingQueue ∧
      (OnTimeout p now).2 =
        replied.map (fun a => Event.ReplyError (p.heap a).reqCtx "request timeout") ∧
      (∀ a ∈ replied, (p.heap a).reqCtx ≠ none ∧ (p.heap a).timeToExpire ≤ now ∧
        (p.mapRequestsSent.find (p.heap a).sequence).isSome) ∧
      (replied.map (fun a => (p.heap a).sequence)).Nodup ∧
      (∀ k, (OnTimeout p now).1.mapRequestsSent.find k =
        if k ∈ replied.map (fun a => (p.heap a).sequence) then none
        else p.mapRequestsSent.find k) ∧
      (OnTimeout p now).1.heap = p.heap := by
  by_cases hsz : p.pendingQueue.length = 0
  · refine ⟨[], List.nil_sublist _, ?_⟩
    simp [OnTimeout, hsz]
  · obtain ⟨rep, hsub, hev, hall, hnd, hfind⟩ :=
      sweep_replied p.heap now p.pendingQueue 0 p.mapRequestsSent p.responseTimer.Stop []
    refine ⟨rep, hsub, ?_, hall, hnd, ?_, ?_⟩
    · simp only [OnTimeout, hsz, ne_eq, not_false_eq_true, if_true]
      simpa using hev
    · intro k
      simp only [OnTimeout, hsz, ne_eq, not_false_eq_true, if_true]
      exact hfind k
    · simp only [OnTimeout, hsz, ne_eq, not_false_eq_true, if_true]

end Cli

namespace Cli

/-! ### `OnResonseReceived` without error -/

/-- C5. An error-free response whose sequence is in `mapRequestsSent`, stored
at address `a`: `OnResonseReceived` makes exactly one call, `Reply(resp)` on the
`reqCtx` of that `PendingRequest`; afterwards the sequence is no longer in the
map, the record at `a` has `reqCtx` nil and its other fields as before, every
other key of the map and every other record is as before, and the queue
and the timer are unchanged. -/
theorem C5_response_delivered_once (p : PendingTracker) (resp : OperationalMessage) (a : Nat)
    (h : p.mapRequestsSent.find resp.seq = some a) :
    ∃ q, OnResonseReceived p { response := some resp, err := none } =
        .ok (q, [Event.Reply (p.heap a).reqCtx resp]) ∧
      q.mapRequestsSent.find resp.seq = none ∧
      (∀ k, k ≠ resp.seq → q.mapRequestsSent.find k = p.mapRequestsSent.find k) ∧
      (q.heap a).reqCtx = none ∧
      (q.heap a).sequence = (p.heap a).sequence ∧
      (q.heap a).timeSent = (p.heap a).timeSent ∧
      (q.heap a).timeToExpire = (p.heap a).timeToExpire ∧
      (∀ b, b ≠ a → q.heap b = p.heap b) ∧
      q.pendingQueue = p.pendingQueue ∧
      q.responseTimer = p.responseTimer ∧
      q.requestTimeout = p.requestTimeout := by
  have hres : OnResonseReceived p { response := some resp, err := none } =
      .ok ({ p with
              mapRequestsSent := p.mapRequestsSent.delete resp.seq
              heap := Function.update p.heap a { p.heap a with reqCtx := none } },
           [Event.Reply (p.heap a).reqCtx resp]) := by
    simp only [OnResonseReceived, h]
  refine ⟨_, hres, ?_, ?_, ?_, ?_, ?_, ?_, ?_, rfl, rfl, rfl⟩
  · simp [find_delete]
  · intro k hk
    have hk' : ¬ resp.seq = k := fun e => hk e.symm
    simp [find_delete, hk']
  · simp
  · simp
  · simp
  · simp
  · intro b hb
    simp [Function.update, hb]

/-- C5, at the tracker with sequence 1 in flight and the response to it. -/
theorem C5_response_delivered_once_witness :
    trackerOne.mapRequestsSent.find 1 = some 0 ∧
    ∃ q, OnResonseReceived trackerOne
        { response := some { seq := 1, opStatus := .NoError }, err := none } =
        .ok (q, [Event.Reply (trackerOne.heap 0).reqCtx { seq := 1, opStatus := .NoError }]) ∧
      q.mapRequestsSent.find 1 = none ∧ (q.heap 0).reqCtx = none ∧
      q.pendingQueue = trackerOne.pendingQueue :=
  ⟨by decide, by
    obtain ⟨q, h1, h2, _, h4, _, _, _, _, h5, _⟩ :=
      C5_response_delivered_once trackerOne { seq := 1, opStatus := .NoError } 0 (by decide)
    exact ⟨q, h1, h2, h4, h5⟩⟩

/-- C6. An error-free response whose sequence is not a key of
`mapRequestsSent`: `OnResonseReceived` calls no waiter and returns the state
it was given (map, queue, timer and every record unchanged). -/
theorem C6_unknown_response_dropped (p : PendingTracker) (resp : OperationalMessage)
    (h : p.mapRequestsSent.find resp.seq = none) :
    OnResonseReceived p { response := some resp, err := none } = .ok (p, []) := by
  simp only [OnResonseReceived, h]

/-- C6, at the tracker with sequence 1 in flight and a response to sequence 2. -/
theorem C6_unknown_response_dropped_witness :
    trackerOne.mapRequestsSent.find 2 = none ∧
    OnResonseReceived trackerOne
      { response := some { seq := 2, opStatus := .NoError }, err := none } =
      .ok (trackerOne, []) :=
  ⟨by decide,
    C6_unknown_response_dropped trackerOne { seq := 2, opStatus := .NoError } (by decide)⟩

/-! ### `OnRequestSent` -/

theorem delete_of_find_none (m : PendingResponseMap) (k : Nat) (h : m.find k = none) :
    m.delete k = m := by
  rw [find_eq_none_iff] at h
  simp only [PendingResponseMap.delete]
  rw [List.filter_eq_self]
  intro kv hkv
  simpa using h kv hkv

/-- C8. `OnRequestSent` exits with the fatal "wrong sequence" exactly when the
sequence is already a key of `mapRequestsSent`, and has no other fatal exit.
When the sequence is not a key, it returns a state in which: the map is the
old map plus the sequence, mapped to the address `p.nextAddr` of a new record
`{reqCtx, sequence, now, now + requestTimeout}`; that address is appended at
the end of the old queue; every other key has its old entry and every other
record is as before; in a well-formed state these are the records of all the
old entries of the map and of the queue. -/
theorem C8_OnRequestSent (p : PendingTracker) (now : Time) (reqCtx : Option Nat)
    (sequence : Nat) :
    (OnRequestSent p now reqCtx sequence = .error "wrong sequence" ↔
      (p.mapRequestsSent.find sequence).isSome) ∧
    ((∃ e, OnRequestSent p now reqCtx sequence = .error e) ↔
      (p.mapRequestsSent.find sequence).isSome) ∧
    (p.mapRequestsSent.find sequence = none →
      ∃ q, OnRequestSent p now reqCtx sequence = .ok q ∧
        q.mapRequestsSent = (sequence, p.nextAddr) :: p.mapRequestsSent ∧
        q.mapRequestsSent.find sequence = some p.nextAddr ∧
        q.heap p.nextAddr =
          { reqCtx := reqCtx, sequence := sequence, timeSent := now,
            timeToExpire := now + p.requestTimeout } ∧
        q.pendingQueue = p.pendingQueue ++ [p.nextAddr] ∧
        (∀ k, k ≠ sequence → q.mapRequestsSent.find k = p.mapRequestsSent.find k) ∧
        (∀ a, a ≠ p.nextAddr → q.heap a = p.heap a) ∧
        (WellFormed p →
          (∀ kv ∈ p.mapRequestsSent, q.heap kv.2 = p.heap kv.2) ∧
          (∀ a ∈ p.pendingQueue, q.heap a = p.heap a)) ∧
        q.requestTimeout = p.requestTimeout) := by
  cases hf : p.mapRequestsSent.find sequence with
  | some v =>
    refine ⟨by simp [OnRequestSent, hf], by simp [OnRequestSent, hf], by simp⟩
  | none =>
    refine ⟨by simp [OnRequestSent, hf], by simp [OnRequestSent, hf], fun _ => ?_⟩
    have hres : OnRequestSent p now reqCtx sequence =
        .ok { mapRequestsSent := p.mapRequestsSent.store sequence p.nextAddr
              pendingQueue := p.pendingQueue ++ [p.nextAddr]
              responseTimer :=
                if p.responseTimer.IsStopped then p.responseTimer.Reset now p.requestTimeout
                else p.responseTimer
              requestTimeout := p.requestTimeout
              heap := Function.update p.heap p.nextAddr
                { reqCtx := reqCtx, sequence := sequence, timeSent := now,
                  timeToExpire := now + p.requestTimeout }
              nextAddr := p.nextAddr + 1 } := by
      simp only [OnRequestSent, hf]
    refine ⟨_, hres, ?_, ?_, ?_, rfl, ?_, ?_, ?_, rfl⟩
    · simp [PendingResponseMap.store, delete_of_find_none _ _ hf]
    · simp [find_store]
    · simp
    · intro k hk
      have hk' : ¬ sequence = k := fun e => hk e.symm
      simp [find_store, hk']
    · intro a ha
      simp [Function.update, ha]
    · intro hwf
      constructor
      · intro kv hkv
        have := hwf.1 kv hkv
        simp [Function.update, Nat.ne_of_lt this]
      · intro a ha
        have := hwf.2 a ha
        simp [Function.update, Nat.ne_of_lt this]

/-- C8, at the tracker with sequence 1 in flight: sequence 1 is refused,
sequence 2 is registered at address 1 behind the entry at address 0. -/
theorem C8_OnRequestSent_witness :
    OnRequestSent trackerOne 3 (some 8) 1 = .error "wrong sequence" ∧
    trackerOne.mapRequestsSent.find 2 = none ∧
    ∃ q, OnRequestSent trackerOne 3 (some 8) 2 = .ok q ∧
      q.mapRequestsSent = [(2, 1), (1, 0)] ∧ q.pendingQueue = [0, 1] ∧
      q.heap 1 = { reqCtx := some 8, sequence := 2, timeSent := 3, timeToExpire := 13 } :=
  ⟨(C8_OnRequestSent trackerOne 3 (some 8) 1).1.2 (by decide), by decide, by
    obtain ⟨q, h1, h2, _, h4, h5, _⟩ :=
      (C8_OnRequestSent trackerOne 3 (some 8) 2).2.2 (by decide)
    exact ⟨q, h1, h2, h5, h4⟩⟩

end Cli

/-! ## Properties of the replicator worker -/

namespace Prime

open Cli (OperationalMessage OpStatus)

theorem checkResponse_eq_none_iff (request response : OperationalMessage) :
    checkResponse request response = none ↔
      response.opStatus = OpStatus.NoError ∨ response.opStatus = OpStatus.VersionConflict := by
  unfold checkResponse
  by_cases h : response.opStatus = OpStatus.NoError ∨ response.opStatus = OpStatus.VersionConflict
  · simp [h]
  · simp [h]

/-- The first call that returns without error ends the attempts for the op:
when call `j` (0, 1 or 2) returns a reply and the calls before it returned
errors, the worker makes `j + 1` calls and sends whether the status of the reply
is `NoError` or `VersionConflict`. -/
theorem handleOp_first_reply (ProcessRequest : Nat → Outcome) (op : OperationalMessage)
    (count : Nat) (j : Nat) (response : OperationalMessage) (hj : j < 3)
    (hfail : ∀ i, i < j → ∃ err, ProcessRequest i = Outcome.failure err)
    (hreply : ProcessRequest j = Outcome.reply response) :
    (handleOp ProcessRequest op count).calls = j + 1 ∧
    (handleOp ProcessRequest op count).sent =
      [decide (response.opStatus = OpStatus.NoError ∨
        response.opStatus = OpStatus.VersionConflict)] := by
  have hsent : ∀ r : OpRun,
      (match checkResponse op response with
        | some err => fail r err
        | none => { r with sent := r.sent ++ [true] }).sent =
      r.sent ++ [decide (response.opStatus = OpStatus.NoError ∨
        response.opStatus = OpStatus.VersionConflict)] ∧
      (match checkResponse op response with
        | some err => fail r err
        | none => { r with sent := r.sent ++ [true] }).calls = r.calls := by
    intro r
    cases hc : checkResponse op response with
    | none =>
      have := (checkResponse_eq_none_iff op response).1 hc
      simp [this]
    | some e =>
      have : ¬ (response.opStatus = OpStatus.NoError ∨
          response.opStatus = OpStatus.VersionConflict) := by
        intro h
        rw [(checkResponse_eq_none_iff op response).2 h] at hc
        simp at hc
      simp [fail, this]
  interval_cases j
  · have h := hsent { calls := 0 + 1, sleeps := 0, logged := [], sent := [], count := count }
    simp only [handleOp, retryLoop, hreply]
    exact ⟨h.2, by simpa using h.1⟩
  · obtain ⟨e0, h0⟩ := hfail 0 (by omega)
    have h := hsent
      { calls := 0 + 1 + 1, sleeps := 0 + 1, logged := [], sent := [], count := count }
    simp only [handleOp, retryLoop, h0, hreply, Nat.lt_irrefl, if_true, Nat.zero_lt_succ,
      Nat.zero_add, show (0 : Nat) < 2 by decide]
    exact ⟨h.2, by simpa using h.1⟩
  · obtain ⟨e0, h0⟩ := hfail 0 (by omega)
    obtain ⟨e1, h1⟩ := hfail 1 (by omega)
    have h := hsent
      { calls := 0 + 1 + 1 + 1, sleeps := 0 + 1 + 1, logged := [], sent := [], count := count }
    simp only [handleOp, retryLoop, h0, h1, hreply, if_true, Nat.zero_add,
      show (0 : Nat) < 2 by decide, show (1 : Nat) < 2 by decide]
    exact ⟨h.2, by simpa using h.1⟩

/-- When the three calls all return errors, the worker makes the three of
them and sends `false`. -/
theorem handleOp_all_fail (ProcessRequest : Nat → Outcome) (op : OperationalMessage)
    (count : Nat) (hfail : ∀ i, i < 3 → ∃ err, ProcessRequest i = Outcome.failure err) :
    (handleOp ProcessRequest op count).calls = 3 ∧
    (handleOp ProcessRequest op count).sent = [false] := by
  obtain ⟨e0, h0⟩ := hfail 0 (by omega)
  obtain ⟨e1, h1⟩ := hfail 1 (by omega)
  obtain ⟨e2, h2⟩ := hfail 2 (by omega)
  simp [handleOp, retryLoop, h0, h1, h2, fail]

/-- Either some call among the first three returns a reply, the calls before
it returning errors, or the first three calls all return errors. -/
theorem first_reply_or_all_fail (ProcessRequest : Nat → Outcome) :
    (∃ j response, j < 3 ∧ (∀ i, i < j → ∃ err, ProcessRequest i = Outcome.failure err) ∧
      ProcessRequest j = Outcome.reply response) ∨
    (∀ i, i < 3 → ∃ err, ProcessRequest i = Outcome.failure err) := by
  cases h0 : ProcessRequest 0 with
  | reply r0 => exact Or.inl ⟨0, r0, by omega, fun i hi => absurd hi (by omega), h0⟩
  | failure e0 =>
    cases h1 : ProcessRequest 1 with
    | reply r1 =>
      refine Or.inl ⟨1, r1, by omega, ?_, h1⟩
      intro i hi
      interval_cases i
      exact ⟨e0, h0⟩
    | failure e1 =>
      cases h2 : ProcessRequest 2 with
      | reply r2 =>
        refine Or.inl ⟨2, r2, by omega, ?_, h2⟩
        intro i hi
        interval_cases i
        · exact ⟨e0, h0⟩
        · exact ⟨e1, h1⟩
      | failure e2 =>
        refine Or.inr ?_
        intro i hi
        interval_cases i
        · exact ⟨e0, h0⟩
        · exact ⟨e1, h1⟩
        · exact ⟨e2, h2⟩

/-- C10. For one op and any outcomes of the successive `ProcessRequest` calls,
the worker makes at least one and at most 3 calls; every call but its last
returned an error, and it stops before the third call only on a call that
returned without error; it sends one value on `outChan`, which is `true`
exactly when one of the calls it made returned no error and a response with
status `NoError` or `VersionConflict`, and `false` otherwise. In terms of the
outcomes alone: when call `j` is the first to return without error, the
worker makes `j + 1` calls and sends `true` if the status of that response is
`NoError` or `VersionConflict` and `false` if not; when the three calls all
return errors, it makes the three and sends `false`. -/
theorem C10_at_most_three_calls_true_iff_success (ProcessRequest : Nat → Outcome)
    (op : OperationalMessage) (count : Nat) :
    (handleOp ProcessRequest op count).calls ≤ 3 ∧
    (∃ b, (handleOp ProcessRequest op count).sent = [b] ∧
      (b = true ↔ ∃ j, j < (handleOp ProcessRequest op count).calls ∧
        ∃ response, ProcessRequest j = Outcome.reply response ∧
          (response.opStatus = OpStatus.NoError ∨
            response.opStatus = OpStatus.VersionConflict))) ∧
    1 ≤ (handleOp ProcessRequest op count).calls ∧
    (∀ j, j + 1 < (handleOp ProcessRequest op count).calls →
      ∃ err, ProcessRequest j = Outcome.failure err) ∧
    ((handleOp ProcessRequest op count).calls < 3 →
      ∃ response, ProcessRequest ((handleOp ProcessRequest op count).calls - 1) =
        Outcome.reply response) ∧
    (∀ j response, j < 3 →
      (∀ i, i < j → ∃ err, ProcessRequest i = Outcome.failure err) →
      ProcessRequest j = Outcome.reply response →
      (handleOp ProcessRequest op count).calls = j + 1 ∧
      (handleOp ProcessRequest op count).sent =
        [decide (response.opStatus = OpStatus.NoError ∨
          response.opStatus = OpStatus.VersionConflict)]) ∧
    ((∀ i, i < 3 → ∃ err, ProcessRequest i = Outcome.failure err) →
      (handleOp ProcessRequest op count).calls = 3 ∧
      (handleOp ProcessRequest op count).sent = [false]) := by
  have hA := handleOp_first_reply ProcessRequest op count
  have hB := handleOp_all_fail ProcessRequest op count
  refine ⟨?_, ?_, ?_, ?_, ?_, fun j response hj hf hr => hA j response hj hf hr, hB⟩
  all_goals
    rcases first_reply_or_all_fail ProcessRequest with ⟨j, response, hj, hf, hr⟩ | hall
  · rw [(hA j response hj hf hr).1]; omega
  · rw [(hB hall).1]
  · refine ⟨_, (hA j response hj hf hr).2, ?_⟩
    rw [(hA j response hj hf hr).1]
    constructor
    · intro hb
      exact ⟨j, by omega, response, hr, by simpa using hb⟩
    · rintro ⟨i, hi, response', hr', hs⟩
      have hij : i = j := by
        by_contra hne
        obtain ⟨err, he⟩ := hf i (by omega)
        rw [he] at hr'
        exact absurd hr' (by simp)
      subst hij
      rw [hr] at hr'
      injection hr' with hr'
      subst hr'
      simpa using hs
  · refine ⟨false, (hB hall).2, ?_⟩
    simp only [Bool.false_eq_true, false_iff]
    rintro ⟨i, hi, response', hr', _⟩
    rw [(hB hall).1] at hi
    obtain ⟨err, he⟩ := hall i hi
    rw [he] at hr'
    exact absurd hr' (by simp)
  · rw [(hA j response hj hf hr).1]; omega
  · rw [(hB hall).1]; omega
  · intro i hi
    rw [(hA j response hj hf hr).1] at hi
    exact hf i (by omega)
  · intro i hi
    rw [(hB hall).1] at hi
    exact hall i (by omega)
  · intro _
    rw [(hA j response hj hf hr).1]
    exact ⟨response, by simpa using hr⟩
  · intro hlt
    rw [(hB hall).1] at hlt
    exact absurd hlt (by omega)

/-- C10, on the outcomes error, error, reply with `NoError` (three calls, `true`)
and on a first reply with `VersionConflict` (one call, `true`). -/
theorem C10_at_most_three_calls_true_iff_success_witness :
    ((handleOp (fun i => if i < 2 then Outcome.failure "conn"
        else Outcome.reply { seq := 0, opStatus := OpStatus.NoError })
        { seq := 0, opStatus := OpStatus.NoError } 0).calls = 2 + 1 ∧
      (handleOp (fun i => if i < 2 then Outcome.failure "conn"
        else Outcome.reply { seq := 0, opStatus := OpStatus.NoError })
        { seq := 0, opStatus := OpStatus.NoError } 0).sent = [true]) ∧
    ((handleOp (fun _ => Outcome.reply { seq := 0, opStatus := OpStatus.VersionConflict })
        { seq := 0, opStatus := OpStatus.NoError } 0).calls = 0 + 1 ∧
      (handleOp (fun _ => Outcome.reply { seq := 0, opStatus := OpStatus.VersionConflict })
        { seq := 0, opStatus := OpStatus.NoError } 0).sent = [true]) :=
  ⟨(C10_at_most_three_calls_true_iff_success
      (fun i => if i < 2 then Outcome.failure "conn"
        else Outcome.reply { seq := 0, opStatus := OpStatus.NoError })
      { seq := 0, opStatus := OpStatus.NoError } 0).2.2.2.2.2.1 2
      { seq := 0, opStatus := OpStatus.NoError } (by decide)
      (fun i hi => ⟨"conn", by interval_cases i <;> rfl⟩) rfl,
    (C10_at_most_three_calls_true_iff_success
      (fun _ => Outcome.reply { seq := 0, opStatus := OpStatus.VersionConflict })
      { seq := 0, opStatus := OpStatus.NoError } 0).2.2.2.2.2.1 0
      { seq := 0, opStatus := OpStatus.VersionConflict } (by decide)
      (fun i hi => absurd hi (by omega)) rfl⟩

end Prime

namespace Cli

/-! ### Shape of the result of each call -/

theorem OnRequestSent_ok {p q : PendingTracker} {now : Time} {reqCtx : Option Nat}
    {sequence : Nat} (h : OnRequestSent p now reqCtx sequence = .ok q) :
    p.mapRequestsSent.find sequence = none ∧
    q = { mapRequestsSent := p.mapRequestsSent.store sequence p.nextAddr
          pendingQueue := p.pendingQueue ++ [p.nextAddr]
          responseTimer :=
            if p.responseTimer.IsStopped then p.responseTimer.Reset now p.requestTimeout
            else p.responseTimer
          requestTimeout := p.requestTimeout
          heap := Function.update p.heap p.nextAddr
            { reqCtx := reqCtx, sequence := sequence, timeSent := now,
              timeToExpire := now + p.requestTimeout }
          nextAddr := p.nextAddr + 1 } := by
  cases hf : p.mapRequestsSent.find sequence with
  | some v => simp [OnRequestSent, hf] at h
  | none =>
    simp only [OnRequestSent, hf] at h
    injection h with h
    exact ⟨rfl, h.symm⟩

theorem OnTimeout_frame (p : PendingTracker) (now : Time) :
    (OnTimeout p now).1.heap = p.heap ∧
    (OnTimeout p now).1.nextAddr = p.nextAddr ∧
    (OnTimeout p now).1.requestTimeout = p.requestTimeout ∧
    (OnTimeout p now).1.pendingQueue.Sublist p.pendingQueue ∧
    (OnTimeout p now).1.mapRequestsSent.Sublist p.mapRequestsSent := by
  by_cases hsz : p.pendingQueue.length = 0
  · simp [OnTimeout, hsz]
  · simp only [OnTimeout, hsz, ne_eq, not_false_eq_true, if_true, true_and]
    refine ⟨?_, sweep_map_sublist _ _ _ _ _ _ _⟩
    split
    · exact List.drop_sublist _ _
    · exact List.nil_sublist _

theorem foldl_delete_eq_nil (it : List (Nat × Nat)) :
    ∀ m : PendingResponseMap, (∀ kv ∈ m, kv.1 ∈ it.map Prod.fst) →
      it.foldl (fun (m : PendingResponseMap) kv => m.delete kv.1) m = [] := by
  induction it with
  | nil =>
    intro m hm
    simp only [List.foldl_nil]
    exact List.eq_nil_iff_forall_not_mem.2 (fun kv hkv => by simpa using hm kv hkv)
  | cons hd tl ih =>
    intro m hm
    simp only [List.foldl_cons]
    apply ih
    intro kv hkv
    rw [mem_delete] at hkv
    have := hm kv hkv.1
    simp only [List.map_cons, List.mem_cons] at this
    rcases this with h | h
    · exact absurd h hkv.2
    · exact h

theorem clearLoop_of_nonnil (heap : Nat → PendingRequest) (err : String)
    (it : List (Nat × Nat)) :
    ∀ (m : PendingResponseMap) (evs : List Event),
      (∀ kv ∈ it, (heap kv.2).reqCtx ≠ none) →
      clearLoop heap err it m evs =
        .ok (it.foldl (fun (m : PendingResponseMap) kv => m.delete kv.1) m,
          evs ++ it.map (fun kv => Event.ReplyError (heap kv.2).reqCtx err)) := by
  induction it with
  | nil => intro m evs _; simp [clearLoop]
  | cons hd tl ih =>
    intro m evs h
    obtain ⟨k, v⟩ := hd
    cases hc : (heap v).reqCtx with
    | none => exact absurd hc (h (k, v) (List.mem_cons_self _ _))
    | some c =>
      simp only [clearLoop, hc]
      rw [ih _ _ (fun kv hkv => h kv (List.mem_cons_of_mem _ hkv))]
      simp [hc]

theorem clearLoop_ok_nonnil (heap : Nat → PendingRequest) (err : String)
    (it : List (Nat × Nat)) :
    ∀ (m : PendingResponseMap) (evs : List Event) (r : PendingResponseMap × List Event),
      clearLoop heap err it m evs = .ok r → ∀ kv ∈ it, (heap kv.2).reqCtx ≠ none := by
  induction it with
  | nil => intro m evs r _ kv hkv; simp at hkv
  | cons hd tl ih =>
    intro m evs r h kv hkv
    obtain ⟨k, v⟩ := hd
    cases hc : (heap v).reqCtx with
    | none => simp [clearLoop, hc] at h
    | some c =>
      simp only [clearLoop, hc] at h
      rcases List.mem_cons.1 hkv with rfl | hkv
      · simp [hc]
      · exact ih _ _ _ h kv hkv

theorem ClearOnError_of_nonnil (p : PendingTracker) (err : String)
    (h : ∀ kv ∈ p.mapRequestsSent, (p.heap kv.2).reqCtx ≠ none) :
    ClearOnError p err =
      .ok ({ p with mapRequestsSent := [] },
        p.mapRequestsSent.map (fun kv => Event.ReplyError (p.heap kv.2).reqCtx err)) := by
  unfold ClearOnError
  rw [clearLoop_of_nonnil p.heap err p.mapRequestsSent p.mapRequestsSent [] h]
  rw [foldl_delete_eq_nil p.mapRequestsSent p.mapRequestsSent
    (fun kv hkv => List.mem_map_of_mem Prod.fst hkv)]
  simp

theorem ClearOnError_ok {p q : PendingTracker} {err : String} {evs : List Event}
    (h : ClearOnError p err = .ok (q, evs)) :
    (∀ kv ∈ p.mapRequestsSent, (p.heap kv.2).reqCtx ≠ none) ∧
    q = { p with mapRequestsSent := [] } ∧
    evs = p.mapRequestsSent.map (fun kv => Event.ReplyError (p.heap kv.2).reqCtx err) := by
  have hn : ∀ kv ∈ p.mapRequestsSent, (p.heap kv.2).reqCtx ≠ none := by
    unfold ClearOnError at h
    cases hc : clearLoop p.heap err p.mapRequestsSent p.mapRequestsSent [] with
    | error e => simp [hc] at h
    | ok r => exact clearLoop_ok_nonnil _ _ _ _ _ r hc
  rw [ClearOnError_of_nonnil p err hn] at h
  injection h with h
  injection h with h1 h2
  exact ⟨hn, h1.symm, h2.symm⟩

end Cli

namespace Cli

/-! ### The queue is ordered by `timeSent` -/

/-- A call that keeps the request timeout and the allocator, removes entries
from the queue and leaves the times of every record as they are keeps the
queue invariant. -/
theorem QueueInv_of_frame {d : Duration} {past : List Time} {p q : PendingTracker}
    (hinv : QueueInv d past p) (ht : q.requestTimeout = p.requestTimeout)
    (hn : q.nextAddr = p.nextAddr) (hq : q.pendingQueue.Sublist p.pendingQueue)
    (hts : ∀ a, (q.heap a).timeSent = (p.heap a).timeSent)
    (hte : ∀ a, (q.heap a).timeToExpire = (p.heap a).timeToExpire) :
    QueueInv d past q := by
  obtain ⟨h0, h1, h2, h3, h4⟩ := hinv
  refine ⟨ht.trans h0, ?_, ?_, ?_, ?_⟩
  · intro a ha; rw [hn]; exact h1 a (hq.subset ha)
  · have : q.pendingQueue.map (fun a => (q.heap a).timeSent) =
        q.pendingQueue.map (fun a => (p.heap a).timeSent) :=
      List.map_congr_left (fun a _ => hts a)
    rw [this]
    exact h2.sublist (hq.map _)
  · intro a ha; rw [hts]; exact h3 a (hq.subset ha)
  · intro a ha; rw [hts, hte]; exact h4 a (hq.subset ha)

theorem sentTimes_cons (op : Op) (ops : List Op) :
    sentTimes (op :: ops) = sentTimes [op] ++ sentTimes ops := by
  cases op <;> simp [sentTimes]

theorem QueueInv_step {d : Duration} {past : List Time} {p q : PendingTracker} {op : Op}
    {evs : List Event} (hinv : QueueInv d past p)
    (hclock : ∀ t ∈ past, ∀ t' ∈ sentTimes [op], t ≤ t')
    (h : step p op = .ok (q, evs)) : QueueInv d (past ++ sentTimes [op]) q := by
  cases op with
  | requestSent now reqCtx sequence =>
    simp only [step] at h
    cases hs : OnRequestSent p now reqCtx sequence with
    | error e => simp [hs] at h
    | ok q' =>
      simp only [hs] at h
      injection h with h
      injection h with h _
      subst h
      obtain ⟨_, hq⟩ := OnRequestSent_ok hs
      obtain ⟨h0, h1, h2, h3, h4⟩ := hinv
      have hold : ∀ a ∈ p.pendingQueue, q'.heap a = p.heap a := by
        intro a ha
        rw [hq]
        simp [Function.update, Nat.ne_of_lt (h1 a ha)]
      have hnew : q'.heap p.nextAddr =
          { reqCtx := reqCtx, sequence := sequence, timeSent := now,
            timeToExpire := now + p.requestTimeout } := by
        rw [hq]; simp
      have hqueue : q'.pendingQueue = p.pendingQueue ++ [p.nextAddr] := by rw [hq]
      refine ⟨by rw [hq]; exact h0, ?_, ?_, ?_, ?_⟩
      · intro a ha
        rw [hqueue] at ha
        have hna : q'.nextAddr = p.nextAddr + 1 := by rw [hq]
        rw [hna]
        rcases List.mem_append.1 ha with ha | ha
        · exact Nat.lt_succ_of_lt (h1 a ha)
        · simp at ha; omega
      · rw [hqueue, List.map_append]
        have : p.pendingQueue.map (fun a => (q'.heap a).timeSent) =
            p.pendingQueue.map (fun a => (p.heap a).timeSent) :=
          List.map_congr_left (fun a ha => by rw [hold a ha])
        rw [this, List.pairwise_append]
        refine ⟨h2, by simp, ?_⟩
        intro x hx y hy
        simp only [List.map_cons, List.map_nil, List.mem_singleton] at hy
        rw [hy, hnew]
        obtain ⟨a, ha, rfl⟩ := List.mem_map.1 hx
        exact hclock _ (h3 a ha) now (by simp [sentTimes])
      · intro a ha
        rw [hqueue] at ha
        rcases List.mem_append.1 ha with ha | ha
        · rw [hold a ha]; exact List.mem_append_left _ (h3 a ha)
        · simp only [List.mem_singleton] at ha
          rw [ha, hnew]; simp [sentTimes]
      · intro a ha
        rw [hqueue] at ha
        rcases List.mem_append.1 ha with ha | ha
        · rw [hold a ha]; exact h4 a ha
        · simp only [List.mem_singleton] at ha
          rw [ha, hnew, h0]
  | timeout now =>
    simp only [step] at h
    injection h with h
    have h1 : q = (OnTimeout p now).1 := by rw [h]
    obtain ⟨f1, f2, f3, f4, _⟩ := OnTimeout_frame p now
    simp only [sentTimes, List.append_nil]
    rw [h1]
    exact QueueInv_of_frame hinv f3 f2 f4 (fun a => by rw [f1]) (fun a => by rw [f1])
  | responseReceived rr =>
    simp only [sentTimes, List.append_nil]
    simp only [step, OnResonseReceived] at h
    cases he : rr.err with
    | none =>
      cases hr : rr.response with
      | none => simp [he, hr] at h
      | some resp =>
        cases hf : p.mapRequestsSent.find resp.seq with
        | none =>
          simp only [he, hr, hf] at h
          injection h with h
          injection h with h _
          rw [← h]; exact hinv
        | some a =>
          simp only [he, hr, hf] at h
          injection h with h
          injection h with h _
          rw [← h]
          refine QueueInv_of_frame hinv rfl rfl (List.Sublist.refl _) ?_ ?_
          · intro b
            by_cases hb : b = a
            · subst hb; simp
            · simp [Function.update, hb]
          · intro b
            by_cases hb : b = a
            · subst hb; simp
            · simp [Function.update, hb]
    | some err =>
      simp only [he] at h
      cases hc : ClearOnError { p with responseTimer := p.responseTimer.Stop } err with
      | error e => simp [hc] at h
      | ok r =>
        obtain ⟨q', evs'⟩ := r
        simp only [hc] at h
        injection h with h
        injection h with h _
        obtain ⟨_, hq', _⟩ := ClearOnError_ok hc
        rw [← h, hq']
        exact QueueInv_of_frame hinv rfl rfl (List.nil_sublist _) (fun _ => rfl) (fun _ => rfl)
  | readerClosed =>
    simp only [sentTimes, List.append_nil]
    simp only [step, OnResponseReaderClosed] at h
    obtain ⟨_, hq', _⟩ := ClearOnError_ok h
    rw [hq']
    exact QueueInv_of_frame hinv rfl rfl (List.Sublist.refl _) (fun _ => rfl) (fun _ => rfl)

theorem QueueInv_runFrom (d : Duration) (ops : List Op) :
    ∀ (past : List Time) (p : PendingTracker) (evs : List Event) (s : PendingTracker)
      (evs' : List Event),
      QueueInv d past p → (past ++ sentTimes ops).Pairwise (· ≤ ·) →
      runFrom p evs ops = .ok (s, evs') → QueueInv d (past ++ sentTimes ops) s := by
  induction ops with
  | nil =>
    intro past p evs s evs' hinv _ h
    simp only [runFrom] at h
    injection h with h
    injection h with h _
    simpa [sentTimes, ← h] using hinv
  | cons op ops ih =>
    intro past p evs s evs' hinv hsorted h
    simp only [runFrom] at h
    cases hs : step p op with
    | error e => simp [hs] at h
    | ok r =>
      obtain ⟨q, e⟩ := r
      simp only [hs] at h
      rw [sentTimes_cons, ← List.append_assoc] at hsorted ⊢
      have hclock : ∀ t ∈ past, ∀ t' ∈ sentTimes [op], t ≤ t' := by
        have := (List.pairwise_append.1 (List.pairwise_append.1 hsorted).1).2.2
        exact this
      exact ih _ q _ s evs' (QueueInv_step hinv hclock hs) hsorted h

theorem QueueInv_new (d : Duration) : QueueInv d [] (newPendingTracker d) := by
  simp [QueueInv, newPendingTracker]

/-- C9. In every state reached from `newPendingTracker` by a run (one that
meets no fatal exit) in which the clock values read by the successive
`OnRequestSent` calls are non-decreasing, any two consecutive entries `a`, `b`
of `pendingQueue` satisfy `a.timeSent ≤ b.timeSent` and
`a.timeToExpire ≤ b.timeToExpire`. -/
theorem C9_queue_sorted_by_timeSent (d : Duration) (ops : List Op) (s : PendingTracker)
    (evs : List Event) (hrun : run d ops = .ok (s, evs))
    (hclock : (sentTimes ops).Chain' (· ≤ ·)) :
    s.pendingQueue.Chain' (fun a b =>
      (s.heap a).timeSent ≤ (s.heap b).timeSent ∧
      (s.heap a).timeToExpire ≤ (s.heap b).timeToExpire) := by
  have hsorted : ([] ++ sentTimes ops).Pairwise (· ≤ ·) := by
    simpa using List.chain'_iff_pairwise.1 hclock
  obtain ⟨_, _, h2, _, h4⟩ :=
    QueueInv_runFrom d ops [] (newPendingTracker d) [] s evs (QueueInv_new d) hsorted hrun
  rw [List.pairwise_map] at h2
  apply List.Pairwise.chain'
  refine h2.imp_of_mem ?_
  intro a b ha hb hab
  refine ⟨hab, ?_⟩
  rw [h4 a ha, h4 b hb]
  exact add_le_add_right hab d

/-- C9, on the run that sends sequence 1 at instant 0 and sequence 2 at
instant 3 with request timeout 10. -/
theorem C9_queue_sorted_by_timeSent_witness :
    ∃ s evs, run 10 [.requestSent 0 (some 7) 1, .requestSent 3 (some 8) 2] = .ok (s, evs) ∧
      (sentTimes [.requestSent 0 (some 7) 1, .requestSent 3 (some 8) 2]).Chain' (· ≤ ·) ∧
      s.pendingQueue = [0, 1] ∧
      s.pendingQueue.Chain' (fun a b =>
        (s.heap a).timeSent ≤ (s.heap b).timeSent ∧
        (s.heap a).timeToExpire ≤ (s.heap b).timeToExpire) :=
  ⟨_, _, rfl, by simp [sentTimes], by decide,
    C9_queue_sorted_by_timeSent 10 [.requestSent 0 (some 7) 1, .requestSent 3 (some 8) 2] _ _ rfl
      (by simp [sentTimes])⟩

end Cli

namespace Cli

/-! ### Failing every pending request -/

/-- A call that keeps the allocator, removes entries from the map and leaves
the `reqCtx` of the records still in the map as they are keeps the map
invariant. -/
theorem MapInv_of_frame {p q : PendingTracker} (hinv : MapInv p)
    (hn : q.nextAddr = p.nextAddr) (hm : q.mapRequestsSent.Sublist p.mapRequestsSent)
    (hctx : ∀ kv ∈ q.mapRequestsSent, (q.heap kv.2).reqCtx = (p.heap kv.2).reqCtx) :
    MapInv q := by
  obtain ⟨h1, h2, h3⟩ := hinv
  refine ⟨?_, h2.sublist (hm.map _), h3.sublist (hm.map _)⟩
  intro kv hkv
  rw [hn, hctx kv hkv]
  exact h1 kv (hm.subset hkv)

theorem MapInv_step {p q : PendingTracker} {op : Op} {evs : List Event} (hinv : MapInv p)
    (hop : op.ctxGiven = true) (h : step p op = .ok (q, evs)) : MapInv q := by
  cases op with
  | requestSent now reqCtx sequence =>
    cases reqCtx with
    | none => simp [Op.ctxGiven] at hop
    | some c =>
      simp only [step] at h
      cases hs : OnRequestSent p now (some c) sequence with
      | error e => simp [hs] at h
      | ok q' =>
        simp only [hs] at h
        injection h with h
        injection h with h _
        subst h
        obtain ⟨hf, hq⟩ := OnRequestSent_ok hs
        obtain ⟨h1, h2, h3⟩ := hinv
        have hmap : q'.mapRequestsSent = (sequence, p.nextAddr) :: p.mapRequestsSent := by
          rw [hq]; simp [PendingResponseMap.store, delete_of_find_none _ _ hf]
        have hna : q'.nextAddr = p.nextAddr + 1 := by rw [hq]
        have hheap : q'.heap = Function.update p.heap p.nextAddr
            { reqCtx := some c, sequence := sequence, timeSent := now,
              timeToExpire := now + p.requestTimeout } := by rw [hq]
        refine ⟨?_, ?_, ?_⟩
        · intro kv hkv
          rw [hmap] at hkv
          rw [hna, hheap]
          rcases List.mem_cons.1 hkv with rfl | hkv
          · simp
          · have := (h1 kv hkv).1
            refine ⟨Nat.lt_succ_of_lt this, ?_⟩
            simp only [Function.update, Nat.ne_of_lt this, dite_false]
            exact (h1 kv hkv).2
        · rw [hmap, List.map_cons, List.nodup_cons]
          refine ⟨?_, h2⟩
          intro hmem
          obtain ⟨kv, hkv, he⟩ := List.mem_map.1 hmem
          have := (h1 kv hkv).1
          simp only at he
          omega
        · rw [hmap, List.map_cons, List.nodup_cons]
          refine ⟨?_, h3⟩
          intro hmem
          obtain ⟨kv, hkv, he⟩ := List.mem_map.1 hmem
          exact (find_eq_none_iff _ _).1 hf kv hkv he
  | timeout now =>
    simp only [step] at h
    injection h with h
    have h1 : q = (OnTimeout p now).1 := by rw [h]
    obtain ⟨f1, f2, _, _, f5⟩ := OnTimeout_frame p now
    rw [h1]
    exact MapInv_of_frame hinv f2 f5 (fun kv _ => by rw [f1])
  | responseReceived rr =>
    simp only [step, OnResonseReceived] at h
    cases he : rr.err with
    | none =>
      cases hr : rr.response with
      | none => simp [he, hr] at h
      | some resp =>
        cases hf : p.mapRequestsSent.find resp.seq with
        | none =>
          simp only [he, hr, hf] at h
          injection h with h
          injection h with h _
          rw [← h]; exact hinv
        | some a =>
          simp only [he, hr, hf] at h
          injection h with h
          injection h with h _
          rw [← h]
          refine MapInv_of_frame hinv rfl (delete_sublist _ _) ?_
          intro kv hkv
          have hkv' := (mem_delete _ _ _).1 hkv
          have hne : kv.2 ≠ a := by
            intro hEq
            have hmem := mem_of_find _ _ _ hf
            have := List.inj_on_of_nodup_map hinv.2.1 hkv'.1 hmem (by simpa using hEq)
            exact hkv'.2 (by rw [this])
          simp [Function.update, hne]
    | some err =>
      simp only [he] at h
      cases hc : ClearOnError { p with responseTimer := p.responseTimer.Stop } err with
      | error e => simp [hc] at h
      | ok r =>
        obtain ⟨q', evs'⟩ := r
        simp only [hc] at h
        injection h with h
        injection h with h _
        obtain ⟨_, hq', _⟩ := ClearOnError_ok hc
        rw [← h, hq']
        exact MapInv_of_frame hinv rfl (List.nil_sublist _) (fun kv hkv => by simp at hkv)
  | readerClosed =>
    simp only [step, OnResponseReaderClosed] at h
    obtain ⟨_, hq', _⟩ := ClearOnError_ok h
    rw [hq']
    exact MapInv_of_frame hinv rfl (List.nil_sublist _) (fun kv hkv => by simp at hkv)

theorem MapInv_runFrom (ops : List Op) :
    ∀ (p : PendingTracker) (evs : List Event) (s : PendingTracker) (evs' : List Event),
      MapInv p → (∀ op ∈ ops, op.ctxGiven = true) →
      runFrom p evs ops = .ok (s, evs') → MapInv s := by
  induction ops with
  | nil =>
    intro p evs s evs' hinv _ h
    simp only [runFrom] at h
    injection h with h
    injection h with h _
    rw [← h]; exact hinv
  | cons op ops ih =>
    intro p evs s evs' hinv hctx h
    simp only [runFrom] at h
    cases hs : step p op with
    | error e => simp [hs] at h
    | ok r =>
      obtain ⟨q, e⟩ := r
      simp only [hs] at h
      exact ih q _ s evs' (MapInv_step hinv (hctx op (List.mem_cons_self _ _)) hs)
        (fun o ho => hctx o (List.mem_cons_of_mem _ ho)) h

theorem MapInv_new (d : Duration) : MapInv (newPendingTracker d) := by
  simp [MapInv, newPendingTracker]

/-- C7, as stated, fails: `OnRequestSent(nil, 1)` is accepted, and in the state
it leaves an error response makes `ClearOnError` take its `glog.Fatal("nil")`
exit: nothing is delivered and the map and the queue are not cleared. -/
theorem C7_nil_context_is_fatal :
    ∃ s evs, run 10 [.requestSent 0 none 1] = .ok (s, evs) ∧
      OnResonseReceived s { response := none, err := some "EOF" } = .error "nil" :=
  ⟨_, _, rfl, rfl⟩

/-- C7, amended. In every state reached from `newPendingTracker` by a run (one
that meets no fatal exit) whose `OnRequestSent` calls are all given a non-nil
`reqCtx`, and for every response with a non-nil `err`: `OnResonseReceived`
returns normally; its calls are one `ReplyError(err)` per entry of
`mapRequestsSent`, on the (non-nil) `reqCtx` of that entry, the entries being
distinct records; afterwards the map and the queue are empty and the timer is
stopped. -/
theorem C7_error_response_fails_all_pending (d : Duration) (ops : List Op)
    (s : PendingTracker) (evs : List Event) (hrun : run d ops = .ok (s, evs))
    (hctx : ∀ op ∈ ops, op.ctxGiven = true)
    (rr : ReaderResponse) (err : String) (herr : rr.err = some err) :
    ∃ q evs', OnResonseReceived s rr = .ok (q, evs') ∧
      evs'.Perm (s.mapRequestsSent.map
        (fun kv => Event.ReplyError (s.heap kv.2).reqCtx err)) ∧
      (∀ kv ∈ s.mapRequestsSent, (s.heap kv.2).reqCtx ≠ none) ∧
      (s.mapRequestsSent.map Prod.snd).Nodup ∧
      q.mapRequestsSent = [] ∧ q.pendingQueue = [] ∧ q.responseTimer.IsStopped = true := by
  have hinv : MapInv s :=
    MapInv_runFrom ops (newPendingTracker d) [] s evs (MapInv_new d) hctx hrun
  have hn : ∀ kv ∈ s.mapRequestsSent, (s.heap kv.2).reqCtx ≠ none :=
    fun kv hkv => (hinv.1 kv hkv).2
  have hc := ClearOnError_of_nonnil { s with responseTimer := s.responseTimer.Stop } err hn
  have hres : OnResonseReceived s rr =
      .ok ({ s with responseTimer := s.responseTimer.Stop, mapRequestsSent := [],
                    pendingQueue := [] },
        s.mapRequestsSent.map (fun kv => Event.ReplyError (s.heap kv.2).reqCtx err)) := by
    simp only [OnResonseReceived, herr, hc]
  exact ⟨_, _, hres, List.Perm.refl _, hn, hinv.2.1, rfl, rfl, rfl⟩

/-- C7 amended, on the run that sends sequences 1 and 2 with contexts 7 and 8:
the error "EOF" is delivered once to each. -/
theorem C7_error_response_fails_all_pending_witness :
    ∃ s evs, run 10 [.requestSent 0 (some 7) 1, .requestSent 3 (some 8) 2] = .ok (s, evs) ∧
      (∀ op ∈ [Op.requestSent 0 (some 7) 1, Op.requestSent 3 (some 8) 2],
        op.ctxGiven = true) ∧
      ∃ q evs', OnResonseReceived s { response := none, err := some "EOF" } = .ok (q, evs') ∧
        evs'.Perm [Event.ReplyError (some 8) "EOF", Event.ReplyError (some 7) "EOF"] ∧
        q.mapRequestsSent = [] ∧ q.pendingQueue = [] ∧ q.responseTimer.IsStopped = true :=
  ⟨_, _, rfl, by decide, by
    obtain ⟨q, evs', h1, h2, _, _, h5, h6, h7⟩ :=
      C7_error_response_fails_all_pending 10
        [.requestSent 0 (some 7) 1, .requestSent 3 (some 8) 2] _ _ rfl (by decide)
        { response := none, err := some "EOF" } "EOF" rfl
    exact ⟨q, evs', h1, h2, h5, h6, h7⟩⟩

end Cli

namespace Cli

/-! ### The queue kept by `OnTimeout`, in general -/

theorem drop_length_takeWhile_eq_dropWhile (f : Nat → Bool) (l : List Nat) :
    l.drop (l.takeWhile f).length = l.dropWhile f := by
  induction l with
  | nil => simp
  | cons a rest ih =>
    cases hf : f a with
    | true => simp [List.takeWhile_cons, List.dropWhile_cons, hf, ih]
    | false => simp [List.takeWhile_cons, List.dropWhile_cons, hf]

/-- The sweep loop is left with `i` advanced over the leading entries that
are answered (`reqCtx` nil) or expired (`timeToExpire` not after `now`). -/
theorem sweep_index (heap : Nat → PendingRequest) (now : Time) (q : List Nat) :
    ∀ (i : Nat) (m : PendingResponseMap) (t : TimerWrapper) (evs : List Event),
      (sweep heap now q i m t evs).i = i + (q.takeWhile (fun a =>
        decide ((heap a).reqCtx = none ∨ (heap a).timeToExpire ≤ now))).length := by
  induction q with
  | nil => intro i m t evs; simp [sweep]
  | cons a rest ih =>
    intro i m t evs
    cases hc : (heap a).reqCtx with
    | none =>
      simp only [sweep, hc, List.takeWhile_cons, true_or, decide_True, if_true,
        List.length_cons]
      rw [ih]; omega
    | some c =>
      by_cases hexp : now < (heap a).timeToExpire
      · have : ¬ (heap a).timeToExpire ≤ now := not_le.2 hexp
        simp [sweep, hc, hexp, List.takeWhile_cons, this]
      · have hle : (heap a).timeToExpire ≤ now := not_lt.1 hexp
        cases hf : m.find (heap a).sequence with
        | none =>
          simp only [sweep, hc, hexp, hf, if_false, List.takeWhile_cons, hle, or_true,
            decide_True, if_true, List.length_cons]
          rw [ih]; omega
        | some v =>
          simp only [sweep, hc, hexp, hf, if_false, List.takeWhile_cons, hle, or_true,
            decide_True, if_true, List.length_cons]
          rw [ih]; omega

/-- What `OnTimeout(now)` leaves in the queue. When the head of the queue is
answered or expired, the queue loses its leading run of answered or expired
entries and starts at the first live entry that expires after `now`. When the
head is itself live and expires after `now`, the queue is left empty. -/
theorem OnTimeout_pendingQueue (p : PendingTracker) (now : Time) :
    (OnTimeout p now).1.pendingQueue =
      match p.pendingQueue with
      | [] => []
      | a :: rest =>
        if (p.heap a).reqCtx = none ∨ (p.heap a).timeToExpire ≤ now then
          (a :: rest).dropWhile (fun a =>
            decide ((p.heap a).reqCtx = none ∨ (p.heap a).timeToExpire ≤ now))
        else [] := by
  cases hq : p.pendingQueue with
  | nil => simp [OnTimeout, hq]
  | cons a rest =>
    have hsz : (a :: rest).length ≠ 0 := by simp
    simp only [OnTimeout, hq, hsz, ne_eq, not_false_eq_true, if_true]
    rw [sweep_index, Nat.zero_add, drop_length_takeWhile_eq_dropWhile]
    by_cases h : (p.heap a).reqCtx = none ∨ (p.heap a).timeToExpire ≤ now
    · simp [List.takeWhile_cons, h]
    · simp [List.takeWhile_cons, h]

end Cli

/-! ## More properties of the replicator -/

namespace Prime

open Cli (OperationalMessage OpStatus)

/-- For one op the worker sends one value on `outChan`. -/
theorem handleOp_sent (ProcessRequest : Nat → Outcome) (op : OperationalMessage) (count : Nat) :
    ∃ b, (handleOp ProcessRequest op count).sent = [b] := by
  cases h0 : ProcessRequest 0 with
  | reply r0 =>
    cases hc : checkResponse op r0 with
    | none => exact ⟨true, by simp [handleOp, retryLoop, h0, hc]⟩
    | some e => exact ⟨false, by simp [handleOp, retryLoop, h0, hc, fail]⟩
  | failure e0 =>
    cases h1 : ProcessRequest 1 with
    | reply r1 =>
      cases hc : checkResponse op r1 with
      | none => exact ⟨true, by simp [handleOp, retryLoop, h0, h1, hc]⟩
      | some e => exact ⟨false, by simp [handleOp, retryLoop, h0, h1, hc, fail]⟩
    | failure e1 =>
      cases h2 : ProcessRequest 2 with
      | reply r2 =>
        cases hc : checkResponse op r2 with
        | none => exact ⟨true, by simp [handleOp, retryLoop, h0, h1, h2, hc]⟩
        | some e => exact ⟨false, by simp [handleOp, retryLoop, h0, h1, h2, hc, fail]⟩
      | failure e2 => exact ⟨false, by simp [handleOp, retryLoop, h0, h1, h2, fail]⟩

/-- C11. For every op the worker takes from `inChan`, whatever the outcomes of
the `ProcessRequest` calls, it sends exactly one boolean on `outChan` and
then goes on to the next op: the channel operations of the worker on
`op :: ops` are the receive of `op`, one send, and then those of the worker
on `ops`; over a whole list of ops they are one receive and one send per op,
in turn. -/
theorem C11_one_boolean_per_op (ProcessRequest : Nat → Outcome) :
    (∀ (op : OperationalMessage) (ops : List OperationalMessage) (calls count : Nat),
      ∃ b calls' count',
        processRequest ProcessRequest (op :: ops) calls count =
          ChanAction.recvIn op :: ChanAction.sendOut b ::
            processRequest ProcessRequest ops calls' count') ∧
    (∀ (ops : List OperationalMessage) (calls count : Nat),
      ∃ bs : List Bool, bs.length = ops.length ∧
        processRequest ProcessRequest ops calls count =
          (List.zipWith (fun op b => [ChanAction.recvIn op, ChanAction.sendOut b]) ops bs).flatten) := by
  have step : ∀ (op : OperationalMessage) (ops : List OperationalMessage) (calls count : Nat),
      ∃ b calls' count',
        processRequest ProcessRequest (op :: ops) calls count =
          ChanAction.recvIn op :: ChanAction.sendOut b ::
            processRequest ProcessRequest ops calls' count' := by
    intro op ops calls count
    obtain ⟨b, hb⟩ := handleOp_sent (fun j => ProcessRequest (calls + j)) op count
    exact ⟨b, calls + (handleOp (fun j => ProcessRequest (calls + j)) op count).calls,
      (handleOp (fun j => ProcessRequest (calls + j)) op count).count,
      by simp [processRequest, hb]⟩
  refine ⟨step, ?_⟩
  intro ops
  induction ops with
  | nil => intro calls count; exact ⟨[], rfl, by simp [processRequest]⟩
  | cons op ops ih =>
    intro calls count
    obtain ⟨b, calls', count', h⟩ := step op ops calls count
    obtain ⟨bs, hlen, hbs⟩ := ih calls' count'
    exact ⟨b :: bs, by simp [hlen], by rw [h, hbs]; simp⟩

/-- C12, as stated, fails: when the first call returns a reply with an error
status, the worker makes no further call and sends `false` at once. -/
theorem C12_bad_status_is_not_retried :
    (handleOp (fun _ => Outcome.reply { seq := 0, opStatus := OpStatus.other 3 })
        { seq := 0, opStatus := OpStatus.NoError } 0).calls = 1 ∧
    (handleOp (fun _ => Outcome.reply { seq := 0, opStatus := OpStatus.other 3 })
        { seq := 0, opStatus := OpStatus.NoError } 0).sent = [false] := by
  decide

/-- C12, amended. When call number `j` (0, 1 or 2, the calls before it having
returned errors and so been retried) returns without error but with a
response whose status is neither `NoError` nor `VersionConflict`, the worker
does not retry: that call is its last for the op, `j + 1` calls in all, and it
sends `false`. -/
theorem C12_bad_status_ends_the_attempts (ProcessRequest : Nat → Outcome)
    (op : OperationalMessage) (count : Nat) (j : Nat) (response : OperationalMessage)
    (hj : j < 3) (hfail : ∀ i, i < j → ∃ err, ProcessRequest i = Outcome.failure err)
    (hreply : ProcessRequest j = Outcome.reply response)
    (hstatus : ¬ (response.opStatus = OpStatus.NoError ∨
      response.opStatus = OpStatus.VersionConflict)) :
    (handleOp ProcessRequest op count).calls = j + 1 ∧
    (handleOp ProcessRequest op count).sent = [false] := by
  have hc : ∃ e, checkResponse op response = some e := by
    cases h : checkResponse op response with
    | none => exact absurd ((checkResponse_eq_none_iff op response).1 h) hstatus
    | some e => exact ⟨e, rfl⟩
  obtain ⟨e, hc⟩ := hc
  interval_cases j
  · simp [handleOp, retryLoop, hreply, hc, fail]
  · obtain ⟨e0, h0⟩ := hfail 0 (by omega)
    simp [handleOp, retryLoop, h0, hreply, hc, fail]
  · obtain ⟨e0, h0⟩ := hfail 0 (by omega)
    obtain ⟨e1, h1⟩ := hfail 1 (by omega)
    simp [handleOp, retryLoop, h0, h1, hreply, hc, fail]

/-- C12 amended, on an error followed by a reply with an error status: two
calls, then `false`. -/
theorem C12_bad_status_ends_the_attempts_witness :
    (handleOp (fun i => if i = 0 then Outcome.failure "timeout"
        else Outcome.reply { seq := 0, opStatus := OpStatus.other 3 })
        { seq := 0, opStatus := OpStatus.NoError } 0).calls = 1 + 1 ∧
    (handleOp (fun i => if i = 0 then Outcome.failure "timeout"
        else Outcome.reply { seq := 0, opStatus := OpStatus.other 3 })
        { seq := 0, opStatus := OpStatus.NoError } 0).sent = [false] :=
  C12_bad_status_ends_the_attempts _ _ 0 1 { seq := 0, opStatus := OpStatus.other 3 }
    (by decide) (fun i hi => ⟨"timeout", by interval_cases i; rfl⟩) rfl (by decide)

/-- C13. `checkResponse` returns nil exactly when the status of the response
is `NoError` or `VersionConflict`, returns a non-nil error for every other
status, and its result is the same for every request. -/
theorem C13_checkResponse (request response : OperationalMessage) :
    (checkResponse request response = none ↔
      (response.opStatus = OpStatus.NoError ∨
        response.opStatus = OpStatus.VersionConflict)) ∧
    (¬ (response.opStatus = OpStatus.NoError ∨
        response.opStatus = OpStatus.VersionConflict) →
      ∃ err, checkResponse request response = some err) ∧
    (∀ request', checkResponse request' response = checkResponse request response) := by
  refine ⟨?_, ?_, fun _ => rfl⟩
  · unfold checkResponse
    by_cases h : response.opStatus = OpStatus.NoError ∨
        response.opStatus = OpStatus.VersionConflict
    · simp [h]
    · simp [h]
  · intro h
    exact ⟨statusString response.opStatus, by simp [checkResponse, h]⟩

/-- C13, on a response with status `VersionConflict` and one with an error
status. -/
theorem C13_checkResponse_witness :
    checkResponse { seq := 1, opStatus := OpStatus.NoError }
      { seq := 1, opStatus := OpStatus.VersionConflict } = none ∧
    ∃ err, checkResponse { seq := 1, opStatus := OpStatus.NoError }
      { seq := 1, opStatus := OpStatus.other 3 } = some err :=
  ⟨(C13_checkResponse _ { seq := 1, opStatus := OpStatus.VersionConflict }).1.2 (by decide),
    (C13_checkResponse { seq := 1, opStatus := OpStatus.NoError }
      { seq := 1, opStatus := OpStatus.other 3 }).2.1 (by decide)⟩

theorem set_replicate_append {α : Type} (x y : α) (n : Nat) :
    ∀ i : Nat, (List.replicate i x ++ List.replicate (n + 1) y).set i x =
      List.replicate (i + 1) x ++ List.replicate n y := by
  intro i
  induction i with
  | zero => simp [List.replicate_succ]
  | succ i ih =>
    have : List.replicate (i + 1) x ++ List.replicate (n + 1) y =
        x :: (List.replicate i x ++ List.replicate (n + 1) y) := by
      simp [List.replicate_succ]
    rw [this, List.set_cons_succ, ih]
    simp [List.replicate_succ]

/-- The pool loop fills the slots `i, ..., i + n - 1` and starts a worker for
each of them, in order. -/
theorem initLoop_fills (proxyAddr : String) (sslEnabled : Bool) (n : Nat) :
    ∀ (i : Nat) (workers : List Nat),
      initLoop proxyAddr sslEnabled n i
        (List.replicate i (some (newStartedProcessor proxyAddr sslEnabled)) ++
          List.replicate n none) workers =
      (List.replicate (i + n) (some (newStartedProcessor proxyAddr sslEnabled)),
        workers ++ List.range' i n) := by
  induction n with
  | zero => intro i workers; simp [initLoop]
  | succ n ih =>
    intro i workers
    simp only [initLoop]
    rw [set_replicate_append, ih (i + 1) (workers ++ [i])]
    simp [List.range'_succ, Nat.add_assoc, Nat.add_comm 1 n]

/-- C14. For a non-empty `proxyAddr` and any `numConns`, with
`N = min (max numConns 1) 4`: after `InitReplicator` the pool has exactly `N`
slots, each holding a started processor for `proxyAddr`, and the workers
started by the call are exactly those of the slots `0, ..., N - 1`, one each;
`N` is 1 when `numConns ≤ 0` and 4 when `numConns > 4`. -/
theorem C14_pool_size_clamped (r : Replicator) (proxyAddr : String) (numConns : Int)
    (haddr : proxyAddr.length ≠ 0) :
    (InitReplicator r proxyAddr numConns).processor =
      some (List.replicate (min (max numConns 1) 4).toNat
        (some (newStartedProcessor proxyAddr r.secConfig.isSome))) ∧
    (InitReplicator r proxyAddr numConns).workers =
      r.workers ++ List.range (min (max numConns 1) 4).toNat ∧
    (numConns ≤ 0 → (min (max numConns 1) 4).toNat = 1) ∧
    (numConns > 4 → (min (max numConns 1) 4).toNat = 4) ∧
    1 ≤ (min (max numConns 1) 4).toNat ∧ (min (max numConns 1) 4).toNat ≤ 4 := by
  have hclamp : (if (if numConns ≤ 0 then 1 else numConns) > 4 then 4
      else (if numConns ≤ 0 then 1 else numConns)) = min (max numConns 1) 4 := by
    by_cases h1 : numConns ≤ 0
    · simp only [h1, if_true]
      have : max numConns 1 = 1 := by omega
      rw [this]; decide
    · simp only [h1, if_false]
      have hm : max numConns 1 = numConns := by omega
      rw [hm]
      by_cases h2 : numConns > 4
      · simp only [h2, if_true]; omega
      · simp only [h2, if_false]; omega
  have hfill := initLoop_fills proxyAddr r.secConfig.isSome
    (min (max numConns 1) 4).toNat 0 r.workers
  simp only [List.replicate_zero, List.nil_append, Nat.zero_add] at hfill
  refine ⟨?_, ?_, ?_, ?_, ?_, ?_⟩
  · simp only [InitReplicator, haddr, if_false, hclamp, hfill]
  · simp only [InitReplicator, haddr, if_false, hclamp, hfill, List.range_eq_range']
  · intro h; have : max numConns 1 = 1 := by omega
    rw [this]; decide
  · intro h; omega
  · omega
  · omega

/-- C14, for `numConns = 7`: four processors, workers 0 to 3. -/
theorem C14_pool_size_clamped_witness :
    "proxy:8080".length ≠ 0 ∧
    (InitReplicator freshReplicator "proxy:8080" 7).processor =
      some (List.replicate (min (max (7 : Int) 1) 4).toNat
        (some (newStartedProcessor "proxy:8080" freshReplicator.secConfig.isSome))) ∧
    (InitReplicator freshReplicator "proxy:8080" 7).workers = [0, 1, 2, 3] :=
  ⟨by decide,
    (C14_pool_size_clamped freshReplicator "proxy:8080" 7 (by decide)).1,
    by
      have h := (C14_pool_size_clamped freshReplicator "proxy:8080" 7 (by decide)).2.1
      rw [h]; decide⟩

/-- C15. `InitReplicator` with an empty `proxyAddr` returns the replicator
state it was given; `ReplicateRecord` returns `false` and performs no channel
operation when `op` is nil or the pool is nil; so on the initial state, after
`InitReplicator("", n)`, `ReplicateRecord` returns `false` for every op. -/
theorem C15_uninitialised_replicator :
    (∀ (r : Replicator) (proxyAddr : String) (numConns : Int),
      proxyAddr.length = 0 → InitReplicator r proxyAddr numConns = r) ∧
    (∀ (r : Replicator) (op : Option OperationalMessage) (rt : Bool),
      op = none ∨ r.processor = none → ReplicateRecord r op rt = (false, [])) ∧
    (∀ (numConns : Int) (op : Option OperationalMessage) (rt : Bool),
      ReplicateRecord (InitReplicator freshReplicator "" numConns) op rt = (false, [])) := by
  refine ⟨?_, ?_, ?_⟩
  · intro r proxyAddr numConns h
    simp [InitReplicator, h]
  · intro r op rt h
    cases op with
    | none => simp [ReplicateRecord]
    | some o =>
      rcases h with h | h
      · simp at h
      · simp [ReplicateRecord, h]
  · intro numConns op rt
    have : InitReplicator freshReplicator "" numConns = freshReplicator := by
      simp [InitReplicator]
    rw [this]
    cases op <;> simp [ReplicateRecord, freshReplicator]

/-- C15, on the initial state with `numConns = 2` and a non-nil op. -/
theorem C15_uninitialised_replicator_witness :
    "".length = 0 ∧ InitReplicator freshReplicator "" 2 = freshReplicator ∧
    ReplicateRecord freshReplicator (some { seq := 1, opStatus := OpStatus.NoError }) true =
      (false, []) :=
  ⟨by decide, C15_uninitialised_replicator.1 freshReplicator "" 2 (by decide),
    C15_uninitialised_replicator.2.1 freshReplicator _ true (Or.inr rfl)⟩

end Prime

/-! ## Properties of the client options -/

namespace Client

theorem getLast?_cons_getD {α : Type} (t : α) (l : List α) (x : α) :
    ((t :: l).getLast?).getD x = (l.getLast?).getD t := by
  cases l with
  | nil => simp
  | cons a l =>
    rw [List.getLast?_cons_cons]
    cases h : (a :: l).getLast? with
    | none => simp at h
    | some v => rfl

/-- The loop of `newOptionData` on options built by the three constructors,
from any record `data`: each field ends with the argument of the last option
that sets it, or with its value in `data` when none does. -/
theorem applyOptions_build (calls : List OptionCall) :
    ∀ data : optionData,
      applyOptions (calls.map OptionCall.build) data =
        { ttl := ((calls.filterMap OptionCall.ttlArg).getLast?).getD data.ttl
          context := ((calls.filterMap OptionCall.condArg).getLast?).getD data.context
          correlationId :=
            ((calls.filterMap OptionCall.idArg).getLast?).getD data.correlationId } := by
  induction calls with
  | nil => intro data; simp [applyOptions]
  | cons c cs ih =>
    intro data
    cases c with
    | ttl t =>
      simp only [List.map_cons, applyOptions, OptionCall.build, WithTTL, ih,
        List.filterMap_cons, OptionCall.ttlArg, OptionCall.condArg, OptionCall.idArg,
        getLast?_cons_getD]
    | cond c =>
      simp only [List.map_cons, applyOptions, OptionCall.build, WithCond, ih,
        List.filterMap_cons, OptionCall.ttlArg, OptionCall.condArg, OptionCall.idArg,
        getLast?_cons_getD]
    | correlationId id =>
      simp only [List.map_cons, applyOptions, OptionCall.build, WithCorrelationId, ih,
        List.filterMap_cons, OptionCall.ttlArg, OptionCall.condArg, OptionCall.idArg,
        getLast?_cons_getD]

/-- C19. For every list of options built by `WithTTL`, `WithCond` and
`WithCorrelationId`, `newOptionData` applies them in list order (an option
appended to the list is applied to the result of the options before it) and
returns a record in which each of `ttl`, `context` and `correlationId` is the
argument of the last option of the list that sets that field, and the zero
value when no option sets it; each option changes only its own field. -/
theorem C19_newOptionData_last_option_wins (calls : List OptionCall) :
    newOptionData (calls.map OptionCall.build) =
      { ttl := ((calls.filterMap OptionCall.ttlArg).getLast?).getD 0
        context := ((calls.filterMap OptionCall.condArg).getLast?).getD none
        correlationId := ((calls.filterMap OptionCall.idArg).getLast?).getD "" } ∧
    (∀ c : OptionCall,
      OptionCall.build c
          (Pointee.optionData (newOptionData (calls.map OptionCall.build))) =
        Pointee.optionData (newOptionData ((calls ++ [c]).map OptionCall.build))) ∧
    (∀ (data : optionData) (ttl : Nat),
      WithTTL ttl (Pointee.optionData data) = Pointee.optionData { data with ttl := ttl }) ∧
    (∀ (data : optionData) (context : Option Nat),
      WithCond context (Pointee.optionData data) =
        Pointee.optionData { data with context := context }) ∧
    (∀ (data : optionData) (id : String),
      WithCorrelationId id (Pointee.optionData data) =
        Pointee.optionData { data with correlationId := id }) := by
  refine ⟨?_, ?_, fun _ _ => rfl, fun _ _ => rfl, fun _ _ => rfl⟩
  · simp [newOptionData, applyOptions_build, optionData.zero]
  · intro c
    simp only [newOptionData, applyOptions_build, List.filterMap_append, optionData.zero]
    cases c with
    | ttl t =>
      simp [OptionCall.build, WithTTL, OptionCall.ttlArg, OptionCall.condArg, OptionCall.idArg]
    | cond c =>
      simp [OptionCall.build, WithCond, OptionCall.ttlArg, OptionCall.condArg,
        OptionCall.idArg]
    | correlationId id =>
      simp [OptionCall.build, WithCorrelationId, OptionCall.ttlArg, OptionCall.condArg,
        OptionCall.idArg]

end Client

/-! ## The map, the queue and the timer together -/

namespace Cli

theorem sweep_find_none (heap : Nat → PendingRequest) (now : Time) (q : List Nat) (i : Nat)
    (m : PendingResponseMap) (t : TimerWrapper) (evs : List Event) (k : Nat)
    (h : m.find k = none) : (sweep heap now q i m t evs).mapRequestsSent.find k = none := by
  rw [find_eq_none_iff] at h ⊢
  intro kv hkv
  exact h kv ((sweep_map_sublist heap now q i m t evs).subset hkv)

/-- After the sweep no live entry it has passed has its sequence in the map. -/
theorem sweep_swept_absent (heap : Nat → PendingRequest) (now : Time) (q : List Nat) :
    ∀ (i : Nat) (m : PendingResponseMap) (t : TimerWrapper) (evs : List Event),
      ∀ a ∈ q.takeWhile (fun a =>
          decide ((heap a).reqCtx = none ∨ (heap a).timeToExpire ≤ now)),
        (heap a).reqCtx ≠ none →
        (sweep heap now q i m t evs).mapRequestsSent.find (heap a).sequence = none := by
  induction q with
  | nil => intro i m t evs a ha; simp at ha
  | cons b rest ih =>
    intro i m t evs a ha hlive
    cases hc : (heap b).reqCtx with
    | none =>
      simp only [List.takeWhile_cons, hc, true_or, decide_True, if_true,
        List.mem_cons] at ha
      simp only [sweep, hc]
      rcases ha with rfl | ha
      · exact absurd hc hlive
      · exact ih _ _ _ _ a ha hlive
    | some c =>
      by_cases hexp : now < (heap b).timeToExpire
      · have : ¬ (heap b).timeToExpire ≤ now := not_le.2 hexp
        simp [List.takeWhile_cons, hc, this] at ha
      · have hle : (heap b).timeToExpire ≤ now := not_lt.1 hexp
        simp only [List.takeWhile_cons, hle, or_true, decide_True, if_true,
          List.mem_cons] at ha
        cases hf : m.find (heap b).sequence with
        | none =>
          simp only [sweep, hc, hexp, hf, if_false]
          rcases ha with rfl | ha
          · exact sweep_find_none _ _ _ _ _ _ _ _ hf
          · exact ih _ _ _ _ a ha hlive
        | some v =>
          simp only [sweep, hc, hexp, hf, if_false]
          rcases ha with rfl | ha
          · exact sweep_find_none _ _ _ _ _ _ _ _ (by simp [find_delete])
          · exact ih _ _ _ _ a ha hlive

/-- The timer after the sweep: re-armed for the expiry of the first entry that
is live and not expired, untouched when there is none. -/
theorem sweep_timer (heap : Nat → PendingRequest) (now : Time) (q : List Nat) :
    ∀ (i : Nat) (m : PendingResponseMap) (t : TimerWrapper) (evs : List Event),
      (sweep heap now q i m t evs).responseTimer =
        match q.dropWhile (fun a =>
          decide ((heap a).reqCtx = none ∨ (heap a).timeToExpire ≤ now)) with
        | [] => t
        | e :: _ => t.Reset now ((heap e).timeToExpire - now) := by
  induction q with
  | nil => intro i m t evs; simp [sweep]
  | cons b rest ih =>
    intro i m t evs
    cases hc : (heap b).reqCtx with
    | none =>
      simp only [sweep, hc, List.dropWhile_cons, true_or, decide_True, if_true]
      exact ih _ _ _ _
    | some c =>
      by_cases hexp : now < (heap b).timeToExpire
      · have : ¬ (heap b).timeToExpire ≤ now := not_le.2 hexp
        simp [sweep, hc, hexp, List.dropWhile_cons, this]
      · have hle : (heap b).timeToExpire ≤ now := not_lt.1 hexp
        cases hf : m.find (heap b).sequence with
        | none =>
          simp only [sweep, hc, hexp, hf, if_false, List.dropWhile_cons, hle, or_true,
            decide_True, if_true]
          exact ih _ _ _ _
        | some v =>
          simp only [sweep, hc, hexp, hf, if_false, List.dropWhile_cons, hle, or_true,
            decide_True, if_true]
          exact ih _ _ _ _

/-- `OnTimeout` in a state whose queue head is swept: queue, map and timer of
the result. -/
theorem OnTimeout_of_sweepsHead (p : PendingTracker) (now : Time)
    (h : sweepsHead p now = true) :
    (OnTimeout p now).1.pendingQueue =
      p.pendingQueue.dropWhile (fun a =>
        decide ((p.heap a).reqCtx = none ∨ (p.heap a).timeToExpire ≤ now)) ∧
    (OnTimeout p now).1.responseTimer =
      (match p.pendingQueue.dropWhile (fun a =>
          decide ((p.heap a).reqCtx = none ∨ (p.heap a).timeToExpire ≤ now)) with
        | [] => p.responseTimer.Stop
        | e :: _ => p.responseTimer.Stop.Reset now ((p.heap e).timeToExpire - now)) ∧
    (∀ a ∈ p.pendingQueue.takeWhile (fun a =>
          decide ((p.heap a).reqCtx = none ∨ (p.heap a).timeToExpire ≤ now)),
        (p.heap a).reqCtx ≠ none →
        (OnTimeout p now).1.mapRequestsSent.find (p.heap a).sequence = none) := by
  cases hq : p.pendingQueue with
  | nil => simp [OnTimeout, hq]
  | cons a rest =>
    have hhead : (p.heap a).reqCtx = none ∨ (p.heap a).timeToExpire ≤ now := by
      simp only [sweepsHead, hq, Bool.or_eq_true, decide_eq_true_eq] at h
      rcases h with h | h
      · left; simpa using h
      · right; exact h
    refine ⟨?_, ?_, ?_⟩
    · rw [OnTimeout_pendingQueue, hq]
      simp [hhead]
    · have hsz : (a :: rest).length ≠ 0 := by simp
      simp only [OnTimeout, hq, hsz, ne_eq, not_false_eq_true, if_true]
      exact sweep_timer _ _ _ _ _ _ _
    · have hsz : (a :: rest).length ≠ 0 := by simp
      simp only [OnTimeout, hq, hsz, ne_eq, not_false_eq_true, if_true]
      exact sweep_swept_absent _ _ _ _ _ _ _

end Cli

namespace Cli

/-- A state with an empty map and a stopped timer satisfies the link
invariant. -/
theorem LinkInv_of_empty_stopped {d : Duration} {past : List Time} {q : PendingTracker}
    (hm : q.mapRequestsSent = []) (ht : q.responseTimer.stopped = true) :
    LinkInv d past q := by
  refine ⟨?_, ?_, ?_⟩
  · intro kv hkv; rw [hm] at hkv; simp at hkv
  · intro h; exact absurd hm h
  · intro h; rw [ht] at h; simp at h

theorem LinkInv_step {d : Duration} {past : List Time} {p q : PendingTracker} {op : Op}
    {evs : List Event} (hmap : MapInv p) (hqueue : QueueInv d past p)
    (hlink : LinkInv d past p)
    (hclock : ∀ t ∈ past, ∀ t' ∈ sentTimes [op], t ≤ t')
    (hsw : ∀ now, op = .timeout now → sweepsHead p now = true)
    (h : step p op = .ok (q, evs)) : LinkInv d (past ++ sentTimes [op]) q := by
  obtain ⟨l1, l2, l3⟩ := hlink
  cases op with
  | requestSent now reqCtx sequence =>
    simp only [step] at h
    cases hs : OnRequestSent p now reqCtx sequence with
    | error e => simp [hs] at h
    | ok q' =>
      simp only [hs] at h
      injection h with h
      injection h with h _
      subst h
      obtain ⟨hf, hq⟩ := OnRequestSent_ok hs
      have hmapeq : q'.mapRequestsSent = (sequence, p.nextAddr) :: p.mapRequestsSent := by
        rw [hq]; simp [PendingResponseMap.store, delete_of_find_none _ _ hf]
      have hqueueeq : q'.pendingQueue = p.pendingQueue ++ [p.nextAddr] := by rw [hq]
      have hnew : q'.heap p.nextAddr =
          { reqCtx := reqCtx, sequence := sequence, timeSent := now,
            timeToExpire := now + p.requestTimeout } := by
        rw [hq]; simp
      have hold : ∀ kv ∈ p.mapRequestsSent, q'.heap kv.2 = p.heap kv.2 := by
        intro kv hkv
        rw [hq]
        simp [Function.update, Nat.ne_of_lt (hmap.1 kv hkv).1]
      have htimer : q'.responseTimer =
          if p.responseTimer.IsStopped then p.responseTimer.Reset now p.requestTimeout
          else p.responseTimer := by rw [hq]
      have hd : p.requestTimeout = d := hqueue.1
      have hnowmem : now ∈ past ++ sentTimes [Op.requestSent now reqCtx sequence] := by
        simp [sentTimes]
      refine ⟨?_, ?_, ?_⟩
      · intro kv hkv
        rw [hmapeq] at hkv
        rw [hqueueeq]
        rcases List.mem_cons.1 hkv with rfl | hkv
        · exact ⟨by simp, by rw [hnew]⟩
        · rw [hold kv hkv]
          exact ⟨List.mem_append_left _ (l1 kv hkv).1, (l1 kv hkv).2⟩
      · intro _
        rw [htimer]
        cases hst : p.responseTimer.stopped with
        | true => simp [TimerWrapper.IsStopped, hst, TimerWrapper.Reset]
        | false => simp [TimerWrapper.IsStopped, hst]
      · intro _
        cases hst : p.responseTimer.stopped with
        | true =>
          have hempty : p.mapRequestsSent = [] := by
            by_contra hne
            have := l2 hne
            rw [hst] at this
            simp at this
          have hdl : q'.responseTimer.deadline = now + d := by
            rw [htimer]; simp [TimerWrapper.IsStopped, hst, TimerWrapper.Reset, hd]
          refine ⟨⟨now, hnowmem, hdl⟩, ?_⟩
          intro kv hkv
          rw [hmapeq, hempty] at hkv
          simp only [List.mem_singleton] at hkv
          rw [hkv, hdl]
          simp only
          rw [hnew, hd]
        | false =>
          have hsame : q'.responseTimer = p.responseTimer := by
            rw [htimer]; simp [TimerWrapper.IsStopped, hst]
          obtain ⟨⟨t, ht, hdl⟩, hle⟩ := l3 hst
          rw [hsame]
          refine ⟨⟨t, List.mem_append_left _ ht, hdl⟩, ?_⟩
          intro kv hkv
          rw [hmapeq] at hkv
          rcases List.mem_cons.1 hkv with rfl | hkv
          · simp only
            rw [hnew, hdl, hd]
            have := hclock t ht now (by simp [sentTimes])
            simpa using this
          · rw [hold kv hkv]; exact hle kv hkv
  | timeout now =>
    simp only [step] at h
    injection h with h
    have hq : q = (OnTimeout p now).1 := by rw [h]
    simp only [sentTimes, List.append_nil]
    obtain ⟨f1, _, _, _, f5⟩ := OnTimeout_frame p now
    obtain ⟨g1, g2, g3⟩ := OnTimeout_of_sweepsHead p now (hsw now rfl)
    obtain ⟨_, _, q2, q3, q4⟩ := hqueue
    rw [hq]
    -- every request left in the map sits in the part of the queue that is kept
    have hkept : ∀ kv ∈ (OnTimeout p now).1.mapRequestsSent,
        kv.2 ∈ p.pendingQueue.dropWhile (fun a =>
          decide ((p.heap a).reqCtx = none ∨ (p.heap a).timeToExpire ≤ now)) := by
      intro kv hkv
      have hkvp := f5.subset hkv
      have hin := (l1 kv hkvp).1
      rw [← List.takeWhile_append_dropWhile (fun a =>
          decide ((p.heap a).reqCtx = none ∨ (p.heap a).timeToExpire ≤ now))
          p.pendingQueue] at hin
      rcases List.mem_append.1 hin with hin | hin
      · exfalso
        have := g3 kv.2 hin (hmap.1 kv hkvp).2
        rw [(l1 kv hkvp).2] at this
        exact (find_eq_none_iff _ _).1 this kv hkv rfl
      · exact hin
    refine ⟨?_, ?_, ?_⟩
    · intro kv hkv
      rw [g1, f1]
      exact ⟨hkept kv hkv, (l1 kv (f5.subset hkv)).2⟩
    · intro hne
      obtain ⟨kv, hkv⟩ := List.exists_mem_of_ne_nil _ hne
      have := hkept kv hkv
      rw [g2]
      cases hdw : p.pendingQueue.dropWhile (fun a =>
          decide ((p.heap a).reqCtx = none ∨ (p.heap a).timeToExpire ≤ now)) with
      | nil => rw [hdw] at this; simp at this
      | cons e rest => simp [TimerWrapper.Reset]
    · intro hst
      rw [g2] at hst ⊢
      cases hdw : p.pendingQueue.dropWhile (fun a =>
          decide ((p.heap a).reqCtx = none ∨ (p.heap a).timeToExpire ≤ now)) with
      | nil => rw [hdw] at hst; simp [TimerWrapper.Stop] at hst
      | cons e rest =>
        have hsub : (e :: rest).Sublist p.pendingQueue := by
          rw [← hdw]; exact List.dropWhile_sublist _
        have he : e ∈ p.pendingQueue := hsub.subset (List.mem_cons_self _ _)
        have hdl : (p.responseTimer.Stop.Reset now ((p.heap e).timeToExpire - now)).deadline =
            (p.heap e).timeToExpire := by
          simp [TimerWrapper.Reset]
        simp only [hdl]
        refine ⟨⟨(p.heap e).timeSent, q3 e he, q4 e he⟩, ?_⟩
        intro kv hkv
        have hmem := hkept kv hkv
        rw [hdw] at hmem
        rw [f1]
        rcases List.mem_cons.1 hmem with heq | hmem
        · rw [heq]
        · have hpw : ((e :: rest).map (fun a => (p.heap a).timeSent)).Pairwise (· ≤ ·) :=
            q2.sublist (hsub.map _)
          rw [List.map_cons, List.pairwise_cons] at hpw
          have hts := hpw.1 _ (List.mem_map_of_mem (fun a => (p.heap a).timeSent) hmem)
          rw [q4 e he, q4 kv.2 (hsub.subset (List.mem_cons_of_mem _ hmem))]
          exact add_le_add_right hts d
  | responseReceived rr =>
    simp only [sentTimes, List.append_nil]
    simp only [step, OnResonseReceived] at h
    cases he : rr.err with
    | none =>
      cases hr : rr.response with
      | none => simp [he, hr] at h
      | some resp =>
        cases hf : p.mapRequestsSent.find resp.seq with
        | none =>
          simp only [he, hr, hf] at h
          injection h with h
          injection h with h _
          rw [← h]; exact ⟨l1, l2, l3⟩
        | some a =>
          simp only [he, hr, hf] at h
          injection h with h
          injection h with h _
          rw [← h]
          have hseq : ∀ b, ((Function.update p.heap a
              { p.heap a with reqCtx := none }) b).sequence = (p.heap b).sequence := by
            intro b
            by_cases hb : b = a
            · subst hb; simp
            · simp [Function.update, hb]
          have hte : ∀ b, ((Function.update p.heap a
              { p.heap a with reqCtx := none }) b).timeToExpire = (p.heap b).timeToExpire := by
            intro b
            by_cases hb : b = a
            · subst hb; simp
            · simp [Function.update, hb]
          refine ⟨?_, ?_, ?_⟩
          · intro kv hkv
            have hkvp := (delete_sublist _ _).subset hkv
            exact ⟨(l1 kv hkvp).1, by simp only; rw [hseq]; exact (l1 kv hkvp).2⟩
          · intro hne
            apply l2
            intro hnil
            apply hne
            simp [PendingResponseMap.delete, hnil]
          · intro hst
            obtain ⟨hex, hle⟩ := l3 hst
            refine ⟨hex, ?_⟩
            intro kv hkv
            simp only
            rw [hte]
            exact hle kv ((delete_sublist _ _).subset hkv)
    | some err =>
      simp only [he] at h
      cases hc : ClearOnError { p with responseTimer := p.responseTimer.Stop } err with
      | error e => simp [hc] at h
      | ok r =>
        obtain ⟨q', evs'⟩ := r
        simp only [hc] at h
        injection h with h
        injection h with h _
        obtain ⟨_, hq', _⟩ := ClearOnError_ok hc
        rw [← h, hq']
        exact LinkInv_of_empty_stopped rfl rfl
  | readerClosed =>
    simp only [sentTimes, List.append_nil]
    simp only [step, OnResponseReaderClosed] at h
    obtain ⟨_, hq', _⟩ := ClearOnError_ok h
    rw [hq']
    exact LinkInv_of_empty_stopped rfl rfl

end Cli

namespace Cli

theorem LinkInv_new (d : Duration) : LinkInv d [] (newPendingTracker d) :=
  LinkInv_of_empty_stopped rfl rfl

/-- The three invariants hold along every regular run with a non-decreasing
clock. -/
theorem invariants_runFrom (d : Duration) (ops : List Op) :
    ∀ (past : List Time) (p : PendingTracker) (evs : List Event) (s : PendingTracker)
      (evs' : List Event),
      MapInv p → QueueInv d past p → LinkInv d past p →
      (past ++ sentTimes ops).Pairwise (· ≤ ·) → regularRun p ops = true →
      runFrom p evs ops = .ok (s, evs') →
      MapInv s ∧ QueueInv d (past ++ sentTimes ops) s ∧
        LinkInv d (past ++ sentTimes ops) s := by
  induction ops with
  | nil =>
    intro past p evs s evs' hm hq hl _ _ h
    simp only [runFrom] at h
    injection h with h
    injection h with h _
    subst h
    simpa [sentTimes] using ⟨hm, hq, hl⟩
  | cons op ops ih =>
    intro past p evs s evs' hm hq hl hsorted hreg h
    simp only [runFrom] at h
    cases hs : step p op with
    | error e => simp [hs] at h
    | ok r =>
      obtain ⟨q, e⟩ := r
      simp only [hs] at h
      simp only [regularRun, hs, Bool.and_eq_true] at hreg
      obtain ⟨⟨hctx, hhead⟩, hrest⟩ := hreg
      rw [sentTimes_cons, ← List.append_assoc] at hsorted ⊢
      have hclock : ∀ t ∈ past, ∀ t' ∈ sentTimes [op], t ≤ t' :=
        (List.pairwise_append.1 (List.pairwise_append.1 hsorted).1).2.2
      have hsw : ∀ now, op = .timeout now → sweepsHead p now = true := by
        intro now hop
        subst hop
        simpa using hhead
      exact ih _ q _ s evs' (MapInv_step hm hctx hs) (QueueInv_step hq hclock hs)
        (LinkInv_step hm hq hl hclock hsw hs) hsorted hrest h

/-- C16. The timer is left armed when the map becomes empty, and is then not
re-armed for the earliest request. After `OnRequestSent(ctx 7, 1)` at instant 0
(request timeout 10) and the delivery of the response to sequence 1, the map
is empty and the timer is still armed. After a further `OnRequestSent(ctx 8, 2)`
at instant 5, the map holds only that request, which expires at 15, and the
timer is armed for 10, the expiry of the delivered request. And after
`OnRequestSent`, `OnTimeout(5)`, `OnTimeout(20)` the map still holds sequence 1
and the timer is stopped. -/
theorem C16_timer_armed_with_empty_map :
    (∃ s evs, run 10 [.requestSent 0 (some 7) 1,
        .responseReceived { response := some { seq := 1, opStatus := .NoError }, err := none }]
        = .ok (s, evs) ∧
      s.mapRequestsSent = [] ∧ s.responseTimer.IsStopped = false) ∧
    (∃ s evs, run 10 [.requestSent 0 (some 7) 1,
        .responseReceived { response := some { seq := 1, opStatus := .NoError }, err := none },
        .requestSent 5 (some 8) 2] = .ok (s, evs) ∧
      s.mapRequestsSent = [(2, 1)] ∧ (s.heap 1).timeToExpire = 15 ∧
      s.responseTimer.IsStopped = false ∧ s.responseTimer.deadline = 10) ∧
    (∃ s evs, run 10 [.requestSent 0 (some 7) 1, .timeout 5, .timeout 20] = .ok (s, evs) ∧
      s.mapRequestsSent = [(1, 0)] ∧ s.responseTimer.IsStopped = true) :=
  ⟨⟨_, _, rfl, by decide, by decide⟩, ⟨_, _, rfl, by decide, by decide, by decide, by decide⟩,
    ⟨_, _, rfl, by decide, by decide⟩⟩

/-- Timer and map in regular runs. In every state reached from
`newPendingTracker` by a run (one that meets no fatal exit) in which every `OnRequestSent` is given a non-nil
`reqCtx` and reads a non-decreasing clock, and no `OnTimeout` call finds a live
unexpired request at the head of the queue: when `mapRequestsSent` is not
empty, the timer is armed and its deadline is not after the `timeToExpire` of
any request of the map. -/
theorem timer_armed_while_map_nonempty (d : Duration) (ops : List Op)
    (s : PendingTracker) (evs : List Event) (hrun : run d ops = .ok (s, evs))
    (hreg : regularRun (newPendingTracker d) ops = true)
    (hclock : (sentTimes ops).Chain' (· ≤ ·))
    (hne : s.mapRequestsSent ≠ []) :
    s.responseTimer.IsStopped = false ∧
    ∀ kv ∈ s.mapRequestsSent, s.responseTimer.deadline ≤ (s.heap kv.2).timeToExpire := by
  have hsorted : ([] ++ sentTimes ops).Pairwise (· ≤ ·) := by
    simpa using List.chain'_iff_pairwise.1 hclock
  obtain ⟨_, _, _, l2, l3⟩ :=
    invariants_runFrom d ops [] (newPendingTracker d) [] s evs (MapInv_new d) (QueueInv_new d)
      (LinkInv_new d) hsorted hreg hrun
  exact ⟨l2 hne, (l3 (l2 hne)).2⟩

/-- Example of a regular run: the one that sends sequences 1 and 2 at instants 0 and 3
and sweeps at instant 10: sequence 2 is left, the timer is armed for 13. -/
theorem timer_armed_while_map_nonempty_example :
    ∃ s evs, run 10 [.requestSent 0 (some 7) 1, .requestSent 3 (some 8) 2, .timeout 10]
        = .ok (s, evs) ∧
      regularRun (newPendingTracker 10)
        [.requestSent 0 (some 7) 1, .requestSent 3 (some 8) 2, .timeout 10] = true ∧
      s.mapRequestsSent = [(2, 1)] ∧ s.responseTimer.deadline = 13 ∧
      s.responseTimer.IsStopped = false ∧
      ∀ kv ∈ s.mapRequestsSent, s.responseTimer.deadline ≤ (s.heap kv.2).timeToExpire :=
  ⟨_, _, rfl, by decide, by decide, by decide,
    timer_armed_while_map_nonempty 10
      [.requestSent 0 (some 7) 1, .requestSent 3 (some 8) 2, .timeout 10] _ _ rfl
      (by decide) (by simp [sentTimes]) (by decide)⟩

end Cli

/-! ## Completed requests -/

namespace Cli

/-- C17. The `reqCtx` of a request is not cleared when the request completes
with an error: after `OnTimeout` has delivered "request timeout" to context 7,
after the error branch of `OnResonseReceived` has delivered "EOF" to it, and
after `OnResponseReaderClosed` has delivered "reader closed" to it, the
`reqCtx` of the request is still set. -/
theorem C17_reqCtx_kept_after_error_delivery :
    (∃ s evs, run 10 [.requestSent 0 (some 7) 1, .timeout 10] = .ok (s, evs) ∧
      evs = [Event.ReplyError (some 7) "request timeout"] ∧ (s.heap 0).reqCtx = some 7) ∧
    (∃ s evs, run 10 [.requestSent 0 (some 7) 1,
        .responseReceived { response := none, err := some "EOF" }] = .ok (s, evs) ∧
      evs = [Event.ReplyError (some 7) "EOF"] ∧ (s.heap 0).reqCtx = some 7) ∧
    (∃ s evs, run 10 [.requestSent 0 (some 7) 1, .readerClosed] = .ok (s, evs) ∧
      evs = [Event.ReplyError (some 7) "reader closed"] ∧ (s.heap 0).reqCtx = some 7) :=
  ⟨⟨_, _, rfl, by decide, by decide⟩, ⟨_, _, rfl, by decide, by decide⟩,
    ⟨_, _, rfl, by decide, by decide⟩⟩

/-- What each call does to `reqCtx`. The `reqCtx` of a `PendingRequest` is the given context when
`OnRequestSent` registers it, and is nil after `OnResonseReceived` has delivered
a response to it. `OnTimeout` and the error branch of `OnResonseReceived`
deliver their error without modifying any `PendingRequest`, so the `reqCtx` of
the requests they fail stays set; they delete the sequence of each such
request from `mapRequestsSent` (the error branch empties the map and the
queue). -/
theorem reqCtx_set_then_cleared_by_response (p : PendingTracker) :
    (∀ (now : Time) (reqCtx : Option Nat) (sequence : Nat) (q : PendingTracker),
      OnRequestSent p now reqCtx sequence = .ok q →
        q.mapRequestsSent.find sequence = some p.nextAddr ∧
        (q.heap p.nextAddr).reqCtx = reqCtx) ∧
    (∀ (resp : OperationalMessage) (a : Nat), p.mapRequestsSent.find resp.seq = some a →
      ∃ q, OnResonseReceived p { response := some resp, err := none } =
          .ok (q, [Event.Reply (p.heap a).reqCtx resp]) ∧
        (q.heap a).reqCtx = none) ∧
    (∀ now : Time, (OnTimeout p now).1.heap = p.heap ∧
      ∃ replied : List Nat, replied.Sublist p.pendingQueue ∧
        (OnTimeout p now).2 =
          replied.map (fun a => Event.ReplyError (p.heap a).reqCtx "request timeout") ∧
        ∀ a ∈ replied, ((OnTimeout p now).1.heap a).reqCtx ≠ none ∧
          (OnTimeout p now).1.mapRequestsSent.find (p.heap a).sequence = none) ∧
    (∀ (rr : ReaderResponse) (err : String) (q : PendingTracker) (evs : List Event),
      rr.err = some err → OnResonseReceived p rr = .ok (q, evs) →
        q.heap = p.heap ∧ q.mapRequestsSent = [] ∧ q.pendingQueue = [] ∧
        evs = p.mapRequestsSent.map (fun kv => Event.ReplyError (p.heap kv.2).reqCtx err) ∧
        ∀ kv ∈ p.mapRequestsSent, (q.heap kv.2).reqCtx ≠ none) := by
  refine ⟨?_, ?_, ?_, ?_⟩
  · intro now reqCtx sequence q h
    obtain ⟨_, hq⟩ := OnRequestSent_ok h
    rw [hq]
    exact ⟨by simp [find_store], by simp⟩
  · intro resp a h
    have hres : OnResonseReceived p { response := some resp, err := none } =
        .ok ({ p with
                mapRequestsSent := p.mapRequestsSent.delete resp.seq
                heap := Function.update p.heap a { p.heap a with reqCtx := none } },
             [Event.Reply (p.heap a).reqCtx resp]) := by
      simp only [OnResonseReceived, h]
    exact ⟨_, hres, by simp⟩
  · intro now
    obtain ⟨f1, _⟩ := OnTimeout_frame p now
    refine ⟨f1, ?_⟩
    by_cases hsz : p.pendingQueue.length = 0
    · exact ⟨[], List.nil_sublist _, by simp [OnTimeout, hsz], by simp⟩
    · obtain ⟨rep, hsub, hev, hall, _, hfind⟩ :=
        sweep_replied p.heap now p.pendingQueue 0 p.mapRequestsSent p.responseTimer.Stop []
      refine ⟨rep, hsub, ?_, ?_⟩
      · simp only [OnTimeout, hsz, ne_eq, not_false_eq_true, if_true]
        simpa using hev
      · intro a ha
        rw [f1]
        refine ⟨(hall a ha).1, ?_⟩
        simp only [OnTimeout, hsz, ne_eq, not_false_eq_true, if_true]
        rw [hfind]
        simp only [List.mem_map, ite_eq_left_iff, not_exists, not_and]
        intro hno
        exact absurd rfl (hno a ha)
  · intro rr err q evs herr h
    simp only [OnResonseReceived, herr] at h
    cases hc : ClearOnError { p with responseTimer := p.responseTimer.Stop } err with
    | error e => simp [hc] at h
    | ok r =>
      obtain ⟨q', evs'⟩ := r
      simp only [hc] at h
      injection h with h
      injection h with h1 h2
      obtain ⟨hn, hq', hevs⟩ := ClearOnError_ok hc
      subst h1 h2
      rw [hq']
      exact ⟨rfl, rfl, rfl, hevs, hn⟩

/-- Example at the tracker with sequence 1 in flight: the response clears
`reqCtx`; a sweep at instant 10 replies to the request and leaves its `reqCtx`
set. -/
theorem reqCtx_set_then_cleared_by_response_example :
    trackerOne.mapRequestsSent.find 1 = some 0 ∧
    (∃ q, OnResonseReceived trackerOne
        { response := some { seq := 1, opStatus := .NoError }, err := none } =
        .ok (q, [Event.Reply (trackerOne.heap 0).reqCtx { seq := 1, opStatus := .NoError }]) ∧
      (q.heap 0).reqCtx = none) ∧
    (OnTimeout trackerOne 10).1.heap = trackerOne.heap :=
  ⟨by decide,
    (reqCtx_set_then_cleared_by_response trackerOne).2.1
      { seq := 1, opStatus := .NoError } 0 (by decide),
    ((reqCtx_set_then_cleared_by_response trackerOne).2.2.1 10).1⟩

/-- C18. After `OnRequestSent(ctx 7, 1)` and `OnResponseReaderClosed`, the queue
still holds the request, its `reqCtx` is non-nil, and its sequence 1 is not in
`mapRequestsSent`: a queue entry that is absent from the map and is not a
tombstone. -/
theorem C18_live_queue_entry_not_in_map :
    ∃ s evs, run 10 [.requestSent 0 (some 7) 1, .readerClosed] = .ok (s, evs) ∧
      s.pendingQueue = [0] ∧ (s.heap 0).reqCtx = some 7 ∧ (s.heap 0).sequence = 1 ∧
      s.mapRequestsSent.find 1 = none :=
  ⟨_, _, rfl, by decide, by decide, by decide, by decide⟩

/-- C20. Context 7 receives two replies: `OnRequestSent(ctx 7, 1)` at instant 0
(request timeout 10), `OnResponseReaderClosed` (first reply, "reader closed"),
`OnRequestSent(ctx 8, 1)` at instant 3 (sequence 1 has left the map) and
`OnTimeout(11)` (second reply, "request timeout", while context 8 gets none
and its request is deleted from the map). -/
theorem C20_context_replied_twice :
    ∃ s evs, run 10 [.requestSent 0 (some 7) 1, .readerClosed, .requestSent 3 (some 8) 1,
        .timeout 11] = .ok (s, evs) ∧
      evs = [Event.ReplyError (some 7) "reader closed",
        Event.ReplyError (some 7) "request timeout"] ∧
      (evs.filter (fun e => decide (e.ctx = some 7))).length = 2 ∧
      s.mapRequestsSent = [] ∧ s.pendingQueue = [1] :=
  ⟨_, _, rfl, by decide, by decide, by decide, by decide⟩

end Cli

/-! ## Runs without `OnResponseReaderClosed` -/

namespace Cli

theorem find_filter_keys (m : PendingResponseMap) (S : List Nat) (k : Nat) :
    PendingResponseMap.find (m.filter (fun kv => decide (kv.1 ∉ S))) k =
      if k ∈ S then none else m.find k := by
  induction m with
  | nil => simp [PendingResponseMap.find]
  | cons hd tl ih =>
    obtain ⟨k0, v⟩ := hd
    by_cases h0 : k0 ∈ S
    · simp only [List.filter_cons, h0, not_true_eq_false, decide_False, Bool.false_eq_true,
        if_false, ih, PendingResponseMap.find]
      by_cases hk : k0 = k
      · subst hk; simp [h0]
      · simp [hk]
    · simp only [List.filter_cons, h0, not_false_eq_true, decide_True, if_true,
        PendingResponseMap.find, ih]
      by_cases hk : k0 = k
      · subst hk; simp [h0]
      · simp [hk]

/-- The sweep loop, with the entries it replies to located in the part of
the queue it passes, and the map it leaves given as a list. -/
theorem sweep_replied_prefix (heap : Nat → PendingRequest) (now : Time) (q : List Nat) :
    ∀ (i : Nat) (m : PendingResponseMap) (t : TimerWrapper) (evs : List Event),
    ∃ replied : List Nat,
      replied.Sublist (q.takeWhile (fun a =>
        decide ((heap a).reqCtx = none ∨ (heap a).timeToExpire ≤ now))) ∧
      (sweep heap now q i m t evs).events =
        evs ++ replied.map (fun a => Event.ReplyError (heap a).reqCtx "request timeout") ∧
      (sweep heap now q i m t evs).mapRequestsSent =
        m.filter (fun kv => decide (kv.1 ∉ replied.map (fun a => (heap a).sequence))) ∧
      (∀ a ∈ replied, (heap a).reqCtx ≠ none ∧ (m.find (heap a).sequence).isSome) ∧
      (replied.map (fun a => (heap a).sequence)).Nodup := by
  induction q with
  | nil => intro i m t evs; exact ⟨[], by simp [sweep]⟩
  | cons a rest ih =>
    intro i m t evs
    cases hc : (heap a).reqCtx with
    | none =>
      obtain ⟨rep, hsub, hev, hmap, hall, hnd⟩ := ih (i + 1) m t evs
      refine ⟨rep, ?_, ?_, ?_, hall, hnd⟩
      · simp only [List.takeWhile_cons, hc, true_or, decide_True, if_true]
        exact hsub.cons a
      · simp only [sweep, hc]; exact hev
      · simp only [sweep, hc]; exact hmap
    | some c =>
      by_cases hexp : now < (heap a).timeToExpire
      · exact ⟨[], List.nil_sublist _, by simp [sweep, hc, hexp]⟩
      · have hle : (heap a).timeToExpire ≤ now := not_lt.1 hexp
        cases hf : m.find (heap a).sequence with
        | none =>
          obtain ⟨rep, hsub, hev, hmap, hall, hnd⟩ := ih (i + 1) m t evs
          refine ⟨rep, ?_, ?_, ?_, hall, hnd⟩
          · simp only [List.takeWhile_cons, hle, or_true, decide_True, if_true]
            exact hsub.cons a
          · simp only [sweep, hc, hexp, hf, if_false]; exact hev
          · simp only [sweep, hc, hexp, hf, if_false]; exact hmap
        | some v =>
          obtain ⟨rep, hsub, hev, hmap, hall, hnd⟩ :=
            ih (i + 1) (m.delete (heap a).sequence) t
              (evs ++ [Event.ReplyError (some c) "request timeout"])
          have hseq : ∀ b ∈ rep, (heap b).sequence ≠ (heap a).sequence := by
            intro b hb heq
            have h3 := (hall b hb).2
            rw [find_delete, heq] at h3
            simp at h3
          refine ⟨a :: rep, ?_, ?_, ?_, ?_, ?_⟩
          · simp only [List.takeWhile_cons, hle, or_true, decide_True, if_true]
            exact hsub.cons₂ a
          · simp only [sweep, hc, hexp, hf, if_false]
            rw [hev]; simp [hc]
          · simp only [sweep, hc, hexp, hf, if_false]
            rw [hmap]
            simp only [PendingResponseMap.delete, List.filter_filter, List.map_cons,
              List.mem_cons, not_or]
            apply List.filter_congr
            intro kv _
            by_cases h1 : kv.1 = (heap a).sequence
            · simp [h1]
            · simp [h1]
          · intro b hb
            rcases List.mem_cons.1 hb with rfl | hb
            · exact ⟨by simp [hc], by simp [hf]⟩
            · refine ⟨(hall b hb).1, ?_⟩
              have h3 := (hall b hb).2
              rw [find_delete] at h3
              by_cases h4 : (heap a).sequence = (heap b).sequence
              · simp [h4] at h3
              · simpa [h4] using h3
          · simp only [List.map_cons, List.nodup_cons, List.mem_map, not_exists, not_and]
            exact ⟨fun b hb => hseq b hb, hnd⟩

/-- `OnTimeout`, with the replied entries located in the swept part of the
queue. -/
theorem OnTimeout_replied_prefix (p : PendingTracker) (now : Time) :
    ∃ replied : List Nat,
      replied.Sublist (p.pendingQueue.takeWhile (fun a =>
        decide ((p.heap a).reqCtx = none ∨ (p.heap a).timeToExpire ≤ now))) ∧
      (OnTimeout p now).2 =
        replied.map (fun a => Event.ReplyError (p.heap a).reqCtx "request timeout") ∧
      (OnTimeout p now).1.mapRequestsSent =
        p.mapRequestsSent.filter
          (fun kv => decide (kv.1 ∉ replied.map (fun a => (p.heap a).sequence))) ∧
      (∀ a ∈ replied, (p.heap a).reqCtx ≠ none ∧
        (p.mapRequestsSent.find (p.heap a).sequence).isSome) ∧
      (replied.map (fun a => (p.heap a).sequence)).Nodup ∧
      (OnTimeout p now).1.pendingQueue.Sublist (p.pendingQueue.dropWhile (fun a =>
        decide ((p.heap a).reqCtx = none ∨ (p.heap a).timeToExpire ≤ now))) := by
  have hqueue : (OnTimeout p now).1.pendingQueue.Sublist (p.pendingQueue.dropWhile (fun a =>
      decide ((p.heap a).reqCtx = none ∨ (p.heap a).timeToExpire ≤ now))) := by
    rw [OnTimeout_pendingQueue]
    cases hq : p.pendingQueue with
    | nil => simp
    | cons a rest =>
      simp only
      split
      · exact List.Sublist.refl _
      · exact List.nil_sublist _
  by_cases hsz : p.pendingQueue.length = 0
  · refine ⟨[], List.nil_sublist _, ?_, ?_, by simp, by simp, hqueue⟩
    · simp [OnTimeout, hsz]
    · simp [OnTimeout, hsz]
  · obtain ⟨rep, hsub, hev, hmap, hall, hnd⟩ :=
      sweep_replied_prefix p.heap now p.pendingQueue 0 p.mapRequestsSent
        p.responseTimer.Stop []
    refine ⟨rep, hsub, ?_, ?_, hall, hnd, hqueue⟩
    · simp only [OnTimeout, hsz, ne_eq, not_false_eq_true, if_true]
      simpa using hev
    · simp only [OnTimeout, hsz, ne_eq, not_false_eq_true, if_true]
      exact hmap

/-- A property kept by every call allowed by `P` holds after every run of
allowed calls. -/
theorem runFrom_preserves (I : PendingTracker → Prop) (P : Op → Prop)
    (hstep : ∀ (p q : PendingTracker) (op : Op) (evs : List Event),
      I p → P op → step p op = .ok (q, evs) → I q) (ops : List Op) :
    ∀ (p : PendingTracker) (evs : List Event) (s : PendingTracker) (evs' : List Event),
      I p → (∀ op ∈ ops, P op) → runFrom p evs ops = .ok (s, evs') → I s := by
  induction ops with
  | nil =>
    intro p evs s evs' hI _ h
    simp only [runFrom] at h
    injection h with h
    injection h with h _
    rw [← h]; exact hI
  | cons op ops ih =>
    intro p evs s evs' hI hP h
    simp only [runFrom] at h
    cases hs : step p op with
    | error e => simp [hs] at h
    | ok r =>
      obtain ⟨q, e⟩ := r
      simp only [hs] at h
      exact ih q _ s evs' (hstep p q op e hI (hP op (List.mem_cons_self _ _)) hs)
        (fun o ho => hP o (List.mem_cons_of_mem _ ho)) h

theorem LiveInv_step (p q : PendingTracker) (op : Op) (evs : List Event)
    (hinv : LiveInv p) (hop : op.isReaderClosed = false) (h : step p op = .ok (q, evs)) :
    LiveInv q := by
  obtain ⟨k1, k2, k3⟩ := hinv
  cases op with
  | requestSent now reqCtx sequence =>
    simp only [step] at h
    cases hs : OnRequestSent p now reqCtx sequence with
    | error e => simp [hs] at h
    | ok q' =>
      simp only [hs] at h
      injection h with h
      injection h with h _
      subst h
      obtain ⟨hf, hq⟩ := OnRequestSent_ok hs
      have hqueueeq : q'.pendingQueue = p.pendingQueue ++ [p.nextAddr] := by rw [hq]
      have hna : q'.nextAddr = p.nextAddr + 1 := by rw [hq]
      have hmapeq : q'.mapRequestsSent = p.mapRequestsSent.store sequence p.nextAddr := by
        rw [hq]
      have hnew : q'.heap p.nextAddr =
          { reqCtx := reqCtx, sequence := sequence, timeSent := now,
            timeToExpire := now + p.requestTimeout } := by
        rw [hq]; simp
      have hold : ∀ a ∈ p.pendingQueue, q'.heap a = p.heap a := by
        intro a ha
        rw [hq]
        simp [Function.update, Nat.ne_of_lt (k1 a ha)]
      refine ⟨?_, ?_, ?_⟩
      · intro a ha
        rw [hqueueeq] at ha
        rw [hna]
        rcases List.mem_append.1 ha with ha | ha
        · exact Nat.lt_succ_of_lt (k1 a ha)
        · simp at ha; omega
      · rw [hqueueeq, List.nodup_append]
        refine ⟨k2, List.nodup_singleton _, ?_⟩
        intro a ha hb
        simp only [List.mem_singleton] at hb
        have := k1 a ha
        omega
      · intro a ha hlive
        rw [hqueueeq] at ha
        rw [hmapeq, find_store]
        rcases List.mem_append.1 ha with ha | ha
        · rw [hold a ha] at hlive ⊢
          have hfa := k3 a ha hlive
          have hne : ¬ sequence = (p.heap a).sequence := by
            intro heq
            rw [← heq, hf] at hfa
            simp at hfa
          simp [hne, hfa]
        · simp only [List.mem_singleton] at ha
          rw [ha, hnew]
          simp
  | timeout now =>
    simp only [step] at h
    injection h with h
    have hq : q = (OnTimeout p now).1 := by rw [h]
    obtain ⟨f1, f2, _, f4, _⟩ := OnTimeout_frame p now
    obtain ⟨rep, hsub, _, hmap, hall, _, hqueue⟩ := OnTimeout_replied_prefix p now
    rw [hq]
    refine ⟨?_, k2.sublist f4, ?_⟩
    · intro a ha; rw [f2]; exact k1 a (f4.subset ha)
    · intro a ha hlive
      rw [f1] at hlive ⊢
      have hfa := k3 a (f4.subset ha) hlive
      rw [hmap, find_filter_keys]
      have hnot : (p.heap a).sequence ∉ rep.map (fun a => (p.heap a).sequence) := by
        intro hmem
        obtain ⟨b, hb, hbseq⟩ := List.mem_map.1 hmem
        have hbtake := hsub.subset hb
        have hbq : b ∈ p.pendingQueue :=
          (List.takeWhile_sublist _).subset hbtake
        have hfb := k3 b hbq (hall b hb).1
        rw [hbseq, hfa] at hfb
        injection hfb with hab
        have hnd := k2
        rw [← List.takeWhile_append_dropWhile (fun a =>
          decide ((p.heap a).reqCtx = none ∨ (p.heap a).timeToExpire ≤ now))
          p.pendingQueue] at hnd
        have hdisj := (List.nodup_append.1 hnd).2.2
        exact hdisj hbtake (by rw [← hab]; exact hqueue.subset ha)
      simp [hnot, hfa]
  | responseReceived rr =>
    simp only [step, OnResonseReceived] at h
    cases he : rr.err with
    | none =>
      cases hr : rr.response with
      | none => simp [he, hr] at h
      | some resp =>
        cases hf : p.mapRequestsSent.find resp.seq with
        | none =>
          simp only [he, hr, hf] at h
          injection h with h
          injection h with h _
          rw [← h]; exact ⟨k1, k2, k3⟩
        | some a0 =>
          simp only [he, hr, hf] at h
          injection h with h
          injection h with h _
          rw [← h]
          refine ⟨k1, k2, ?_⟩
          intro a ha hlive
          have hne : a ≠ a0 := by
            intro heq
            subst heq
            simp at hlive
          simp only [Function.update, hne, dite_false] at hlive ⊢
          have hfa := k3 a ha hlive
          rw [find_delete]
          have hseq : ¬ resp.seq = (p.heap a).sequence := by
            intro heq
            rw [← heq, hf] at hfa
            injection hfa with hfa
            exact hne hfa.symm
          simp [hseq, hfa]
    | some err =>
      simp only [he] at h
      cases hc : ClearOnError { p with responseTimer := p.responseTimer.Stop } err with
      | error e => simp [hc] at h
      | ok r =>
        obtain ⟨q', evs'⟩ := r
        simp only [hc] at h
        injection h with h
        injection h with h _
        obtain ⟨_, hq', _⟩ := ClearOnError_ok hc
        rw [← h, hq']
        exact ⟨by simp, by simp, by simp⟩
  | readerClosed => simp [Op.isReaderClosed] at hop

theorem LiveInv_new (d : Duration) : LiveInv (newPendingTracker d) := by
  simp [LiveInv, newPendingTracker]

/-- As long as `OnResponseReaderClosed` is not called, in
every state reached from `newPendingTracker` by `OnRequestSent`,
`OnResonseReceived` and `OnTimeout` calls, every queue entry whose `reqCtx` is
non-nil is stored in `mapRequestsSent` under its own sequence. -/
theorem live_queue_entries_in_map (d : Duration) (ops : List Op) (s : PendingTracker)
    (evs : List Event) (hrun : run d ops = .ok (s, evs))
    (hops : ∀ op ∈ ops, op.isReaderClosed = false) :
    ∀ a ∈ s.pendingQueue, (s.heap a).reqCtx ≠ none →
      s.mapRequestsSent.find (s.heap a).sequence = some a :=
  (runFrom_preserves LiveInv (fun op => op.isReaderClosed = false) LiveInv_step ops
    (newPendingTracker d) [] s evs (LiveInv_new d) hops hrun).2.2

end Cli

namespace Cli

theorem nodup_append_of_subset {α : Type} {R M X : List α} (h : (R ++ M).Nodup)
    (hX : X.Nodup) (hsub : ∀ x ∈ X, x ∈ M) : (R ++ X).Nodup := by
  rw [List.nodup_append] at h ⊢
  refine ⟨h.1, hX, ?_⟩
  intro a ha hx
  exact h.2.2 ha (hsub a hx)

/-- Distinct entries of the map have distinct contexts when the contexts of
the map are all different. -/
theorem nodup_map_of_subset {α β : Type} {m L : List α} {g : α → β}
    (hm : (m.map g).Nodup) (hL : L.Nodup) (hsub : ∀ x ∈ L, x ∈ m) :
    (L.map g).Nodup ∧ ∀ c ∈ L.map g, c ∈ m.map g := by
  refine ⟨List.Nodup.map_on ?_ hL, ?_⟩
  · intro x hx y hy hxy
    exact List.inj_on_of_nodup_map hm (hsub x hx) (hsub y hy) hxy
  · intro c hc
    obtain ⟨x, hx, rfl⟩ := List.mem_map.1 hc
    exact List.mem_map_of_mem g (hsub x hx)

theorem givenContexts_cons (op : Op) (ops : List Op) :
    givenContexts (op :: ops) = givenContexts [op] ++ givenContexts ops := by
  cases op <;> simp [givenContexts]

theorem ReplyInv_step {used : List (Option Nat)} {p q : PendingTracker} {op : Op}
    {evs e : List Event} (hinv : ReplyInv used p evs) (hop : op.isReaderClosed = false)
    (hfresh : ∀ c ∈ givenContexts [op], c ∉ used)
    (h : step p op = .ok (q, e)) : ReplyInv (used ++ givenContexts [op]) q (evs ++ e) := by
  obtain ⟨hlive, r1, r2, r3, r4⟩ := hinv
  have hlive' : LiveInv q := LiveInv_step p q op e hlive hop h
  refine ⟨hlive', ?_⟩
  cases op with
  | requestSent now reqCtx sequence =>
    simp only [step] at h
    cases hs : OnRequestSent p now reqCtx sequence with
    | error e' => simp [hs] at h
    | ok q' =>
      simp only [hs] at h
      injection h with h
      injection h with h1 h2
      subst h1 h2
      obtain ⟨hf, hq⟩ := OnRequestSent_ok hs
      have hmapeq : q'.mapRequestsSent = (sequence, p.nextAddr) :: p.mapRequestsSent := by
        rw [hq]; simp [PendingResponseMap.store, delete_of_find_none _ _ hf]
      have hna : q'.nextAddr = p.nextAddr + 1 := by rw [hq]
      have hnew : q'.heap p.nextAddr =
          { reqCtx := reqCtx, sequence := sequence, timeSent := now,
            timeToExpire := now + p.requestTimeout } := by
        rw [hq]; simp
      have hold : ∀ kv ∈ p.mapRequestsSent, q'.heap kv.2 = p.heap kv.2 := by
        intro kv hkv
        rw [hq]
        simp [Function.update, Nat.ne_of_lt (r1 kv hkv)]
      have hctxs : q'.mapRequestsSent.map (fun kv => (q'.heap kv.2).reqCtx) =
          reqCtx :: p.mapRequestsSent.map (fun kv => (p.heap kv.2).reqCtx) := by
        rw [hmapeq, List.map_cons]
        simp only [hnew]
        congr 1
        exact List.map_congr_left (fun kv hkv => by rw [hold kv hkv])
      have hnotused : reqCtx ∉ used := hfresh reqCtx (by simp [givenContexts])
      refine ⟨?_, ?_, ?_, ?_⟩
      · intro kv hkv
        rw [hmapeq] at hkv
        rw [hna]
        rcases List.mem_cons.1 hkv with rfl | hkv
        · simp
        · exact Nat.lt_succ_of_lt (r1 kv hkv)
      · rw [hmapeq, List.map_cons, List.nodup_cons]
        refine ⟨?_, r2⟩
        intro hmem
        obtain ⟨kv, hkv, he⟩ := List.mem_map.1 hmem
        have := r1 kv hkv
        simp only at he
        omega
      · rw [List.append_nil, hctxs, List.nodup_middle, List.nodup_cons]
        exact ⟨fun hmem => hnotused (r4 _ hmem), r3⟩
      · intro c hc
        rw [List.append_nil, hctxs] at hc
        simp only [givenContexts, List.mem_append, List.mem_cons, List.mem_singleton] at hc ⊢
        rcases hc with hc | hc | hc
        · left; exact r4 c (List.mem_append_left _ hc)
        · right; simp [hc]
        · left; exact r4 c (List.mem_append_right _ hc)
  | timeout now =>
    simp only [step] at h
    injection h with h
    have hq : q = (OnTimeout p now).1 := by rw [h]
    have he : e = (OnTimeout p now).2 := by rw [h]
    obtain ⟨f1, f2, _, _, f5⟩ := OnTimeout_frame p now
    obtain ⟨rep, hsub, hev, hmap, hall, hnd, _⟩ := OnTimeout_replied_prefix p now
    have hmapNodup : p.mapRequestsSent.Nodup := List.Nodup.of_map Prod.snd r2
    -- the entries replied to, as entries of the map, followed by the entries left
    have hL : (rep.map (fun b => ((p.heap b).sequence, b)) ++
        (OnTimeout p now).1.mapRequestsSent).Nodup := by
      rw [List.nodup_append]
      refine ⟨?_, hmapNodup.sublist f5, ?_⟩
      · apply List.Nodup.of_map Prod.fst
        rw [List.map_map]
        exact hnd
      · intro x hx hx'
        obtain ⟨b, hb, rfl⟩ := List.mem_map.1 hx
        rw [hmap, List.mem_filter] at hx'
        have := hx'.2
        simp only [decide_eq_true_eq] at this
        exact this (List.mem_map_of_mem (fun a => (p.heap a).sequence) hb)
    have hLsub : ∀ x ∈ rep.map (fun b => ((p.heap b).sequence, b)) ++
        (OnTimeout p now).1.mapRequestsSent, x ∈ p.mapRequestsSent := by
      intro x hx
      rcases List.mem_append.1 hx with hx | hx
      · obtain ⟨b, hb, rfl⟩ := List.mem_map.1 hx
        have hbq : b ∈ p.pendingQueue :=
          (List.takeWhile_sublist _).subset (hsub.subset hb)
        exact mem_of_find _ _ _ (hlive.2.2 b hbq (hall b hb).1)
      · exact f5.subset hx
    have hM : (p.mapRequestsSent.map (fun kv => (p.heap kv.2).reqCtx)).Nodup :=
      (List.nodup_append.1 r3).2.1
    obtain ⟨n1, n2⟩ := nodup_map_of_subset hM hL hLsub
    have hshape : (evs ++ e).map Event.ctx ++
        q.mapRequestsSent.map (fun kv => (q.heap kv.2).reqCtx) =
        evs.map Event.ctx ++
          (rep.map (fun b => ((p.heap b).sequence, b)) ++
            (OnTimeout p now).1.mapRequestsSent).map (fun kv => (p.heap kv.2).reqCtx) := by
      rw [hq, he, hev, f1]
      simp [List.map_append, List.map_map, Function.comp, Event.ctx]
    refine ⟨?_, ?_, ?_, ?_⟩
    · intro kv hkv
      rw [hq] at hkv ⊢
      rw [f2]
      exact r1 kv (f5.subset hkv)
    · rw [hq]
      exact r2.sublist (f5.map _)
    · rw [hshape]
      exact nodup_append_of_subset r3 n1 n2
    · intro c hc
      rw [hshape] at hc
      simp only [givenContexts, List.append_nil]
      rcases List.mem_append.1 hc with hc | hc
      · exact r4 c (List.mem_append_left _ hc)
      · exact r4 c (List.mem_append_right _ (n2 c hc))
  | responseReceived rr =>
    simp only [givenContexts, List.append_nil]
    simp only [step, OnResonseReceived] at h
    cases herr : rr.err with
    | none =>
      cases hr : rr.response with
      | none => simp [herr, hr] at h
      | some resp =>
        cases hf : p.mapRequestsSent.find resp.seq with
        | none =>
          simp only [herr, hr, hf] at h
          injection h with h
          injection h with h1 h2
          subst h1 h2
          rw [List.append_nil]
          exact ⟨r1, r2, r3, r4⟩
        | some a0 =>
          simp only [herr, hr, hf] at h
          injection h with h
          injection h with h1 h2
          subst h1 h2
          have hmem0 : (resp.seq, a0) ∈ p.mapRequestsSent := mem_of_find _ _ _ hf
          have hmapNodup : p.mapRequestsSent.Nodup := List.Nodup.of_map Prod.snd r2
          have hother : ∀ kv ∈ p.mapRequestsSent.delete resp.seq, kv.2 ≠ a0 := by
            intro kv hkv hEq
            have hkv' := (mem_delete _ _ _).1 hkv
            have := List.inj_on_of_nodup_map r2 hkv'.1 hmem0 (by simpa using hEq)
            exact hkv'.2 (by rw [this])
          have hL : ((resp.seq, a0) :: p.mapRequestsSent.delete resp.seq).Nodup := by
            rw [List.nodup_cons]
            refine ⟨?_, hmapNodup.sublist (delete_sublist _ _)⟩
            intro hmem
            exact ((mem_delete _ _ _).1 hmem).2 rfl
          have hLsub : ∀ x ∈ (resp.seq, a0) :: p.mapRequestsSent.delete resp.seq,
              x ∈ p.mapRequestsSent := by
            intro x hx
            rcases List.mem_cons.1 hx with rfl | hx
            · exact hmem0
            · exact (delete_sublist _ _).subset hx
          have hM : (p.mapRequestsSent.map (fun kv => (p.heap kv.2).reqCtx)).Nodup :=
            (List.nodup_append.1 r3).2.1
          obtain ⟨n1, n2⟩ := nodup_map_of_subset hM hL hLsub
          have hshape : (evs ++ [Event.Reply (p.heap a0).reqCtx resp]).map Event.ctx ++
              (p.mapRequestsSent.delete resp.seq).map
                (fun kv => ((Function.update p.heap a0
                  { p.heap a0 with reqCtx := none }) kv.2).reqCtx) =
              evs.map Event.ctx ++
                ((resp.seq, a0) :: p.mapRequestsSent.delete resp.seq).map
                  (fun kv => (p.heap kv.2).reqCtx) := by
            have : (p.mapRequestsSent.delete resp.seq).map
                (fun kv => ((Function.update p.heap a0
                  { p.heap a0 with reqCtx := none }) kv.2).reqCtx) =
                (p.mapRequestsSent.delete resp.seq).map (fun kv => (p.heap kv.2).reqCtx) :=
              List.map_congr_left (fun kv hkv => by
                simp [Function.update, hother kv hkv])
            rw [this]
            simp [Event.ctx]
          refine ⟨?_, ?_, ?_, ?_⟩
          · intro kv hkv
            exact r1 kv ((delete_sublist _ _).subset hkv)
          · exact r2.sublist ((delete_sublist _ _).map _)
          · rw [hshape]
            exact nodup_append_of_subset r3 n1 n2
          · intro c hc
            rw [hshape] at hc
            rcases List.mem_append.1 hc with hc | hc
            · exact r4 c (List.mem_append_left _ hc)
            · exact r4 c (List.mem_append_right _ (n2 c hc))
    | some err =>
      simp only [herr] at h
      cases hc : ClearOnError { p with responseTimer := p.responseTimer.Stop } err with
      | error e' => simp [hc] at h
      | ok r =>
        obtain ⟨q', evs'⟩ := r
        simp only [hc] at h
        injection h with h
        injection h with h1 h2
        obtain ⟨_, hq', hevs⟩ := ClearOnError_ok hc
        subst h1 h2
        rw [hq', hevs]
        have hshape : (evs ++ p.mapRequestsSent.map
            (fun kv => Event.ReplyError (p.heap kv.2).reqCtx err)).map Event.ctx =
            evs.map Event.ctx ++ p.mapRequestsSent.map (fun kv => (p.heap kv.2).reqCtx) := by
          simp [List.map_append, List.map_map, Function.comp, Event.ctx]
        refine ⟨by simp, by simp, ?_, ?_⟩
        · simp only [List.map_nil, List.append_nil]
          rw [hshape]; exact r3
        · intro c hc
          simp only [List.map_nil, List.append_nil] at hc
          rw [hshape] at hc
          exact r4 c hc
  | readerClosed => simp [Op.isReaderClosed] at hop

theorem ReplyInv_runFrom (ops : List Op) :
    ∀ (used : List (Option Nat)) (p : PendingTracker) (evs : List Event) (s : PendingTracker)
      (evs' : List Event),
      ReplyInv used p evs → (used ++ givenContexts ops).Nodup →
      (∀ op ∈ ops, op.isReaderClosed = false) →
      runFrom p evs ops = .ok (s, evs') → ReplyInv (used ++ givenContexts ops) s evs' := by
  induction ops with
  | nil =>
    intro used p evs s evs' hinv _ _ h
    simp only [runFrom] at h
    injection h with h
    injection h with h1 h2
    subst h1 h2
    simpa [givenContexts] using hinv
  | cons op ops ih =>
    intro used p evs s evs' hinv hnd hops h
    simp only [runFrom] at h
    cases hs : step p op with
    | error e => simp [hs] at h
    | ok r =>
      obtain ⟨q, e⟩ := r
      simp only [hs] at h
      rw [givenContexts_cons, ← List.append_assoc] at hnd ⊢
      have hfresh : ∀ c ∈ givenContexts [op], c ∉ used := by
        intro c hc hu
        exact (List.nodup_append.1 (List.nodup_append.1 hnd).1).2.2 hu hc
      exact ih _ q _ s evs'
        (ReplyInv_step hinv (hops op (List.mem_cons_self _ _)) hfresh hs) hnd
        (fun o ho => hops o (List.mem_cons_of_mem _ ho)) h

theorem ReplyInv_new (d : Duration) : ReplyInv [] (newPendingTracker d) [] := by
  refine ⟨LiveInv_new d, ?_, ?_, ?_, ?_⟩ <;> simp [newPendingTracker]

/-- As long as `OnResponseReaderClosed` is not called, in
a run of `OnRequestSent`, `OnResonseReceived` and `OnTimeout` calls from
`newPendingTracker` in which the `OnRequestSent` calls are given pairwise
different contexts, no context is replied to twice. -/
theorem replies_at_most_once (d : Duration) (ops : List Op) (s : PendingTracker)
    (evs : List Event) (hrun : run d ops = .ok (s, evs))
    (hops : ∀ op ∈ ops, op.isReaderClosed = false)
    (hctx : (givenContexts ops).Nodup) :
    (evs.map Event.ctx).Nodup := by
  have h := ReplyInv_runFrom ops [] (newPendingTracker d) [] s evs (ReplyInv_new d)
    (by simpa using hctx) hops hrun
  exact (List.nodup_append.1 h.2.2.2.1).1

end Cli

/-! ## Request contexts are never nil -/

namespace Cli

/-- With the map invariant, a call given a request context does not take the
`glog.Fatal("nil")` exit, and every reply it makes is addressed to a non-nil
context. -/
theorem step_of_MapInv {p : PendingTracker} {op : Op} (hinv : MapInv p) :
    step p op ≠ .error "nil" ∧
    ∀ q evs, step p op = .ok (q, evs) → ∀ e ∈ evs, e.ctx ≠ none := by
  have hn : ∀ kv ∈ p.mapRequestsSent, (p.heap kv.2).reqCtx ≠ none :=
    fun kv hkv => (hinv.1 kv hkv).2
  cases op with
  | requestSent now reqCtx sequence =>
    constructor
    · simp only [step]
      cases hf : p.mapRequestsSent.find sequence with
      | none => simp [OnRequestSent, hf]
      | some v => simp [OnRequestSent, hf]
    · intro q evs h
      simp only [step] at h
      cases hs : OnRequestSent p now reqCtx sequence with
      | error e => simp [hs] at h
      | ok q' =>
        simp only [hs] at h
        injection h with h
        injection h with _ h2
        rw [← h2]; simp
  | timeout now =>
    constructor
    · simp [step]
    · intro q evs h
      simp only [step] at h
      injection h with h
      have he : evs = (OnTimeout p now).2 := by rw [h]
      obtain ⟨rep, _, hev, _, hall, _⟩ := OnTimeout_replied_prefix p now
      intro e hmem
      rw [he, hev] at hmem
      obtain ⟨a, ha, rfl⟩ := List.mem_map.1 hmem
      exact (hall a ha).1
  | responseReceived rr =>
    cases herr : rr.err with
    | none =>
      cases hr : rr.response with
      | none => simp [step, OnResonseReceived, herr, hr]
      | some resp =>
        cases hf : p.mapRequestsSent.find resp.seq with
        | none =>
          constructor
          · simp [step, OnResonseReceived, herr, hr, hf]
          · intro q evs h
            simp only [step, OnResonseReceived, herr, hr, hf] at h
            injection h with h
            injection h with _ h2
            rw [← h2]; simp
        | some a =>
          constructor
          · simp [step, OnResonseReceived, herr, hr, hf]
          · intro q evs h
            simp only [step, OnResonseReceived, herr, hr, hf] at h
            injection h with h
            injection h with _ h2
            rw [← h2]
            intro e hmem
            simp only [List.mem_singleton] at hmem
            rw [hmem]
            exact hn (resp.seq, a) (mem_of_find _ _ _ hf)
    | some err =>
      have hc := ClearOnError_of_nonnil { p with responseTimer := p.responseTimer.Stop } err hn
      constructor
      · simp [step, OnResonseReceived, herr, hc]
      · intro q evs h
        simp only [step, OnResonseReceived, herr, hc] at h
        injection h with h
        injection h with _ h2
        rw [← h2]
        intro e hmem
        obtain ⟨kv, hkv, rfl⟩ := List.mem_map.1 hmem
        exact hn kv hkv
  | readerClosed =>
    have hc := ClearOnError_of_nonnil { p with responseTimer := p.responseTimer.Stop }
      "reader closed" hn
    constructor
    · simp [step, OnResponseReaderClosed, hc]
    · intro q evs h
      simp only [step, OnResponseReaderClosed, hc] at h
      injection h with h
      injection h with _ h2
      rw [← h2]
      intro e hmem
      obtain ⟨kv, hkv, rfl⟩ := List.mem_map.1 hmem
      exact hn kv hkv

theorem runFrom_of_MapInv (ops : List Op) :
    ∀ (p : PendingTracker) (evs : List Event),
      MapInv p → (∀ op ∈ ops, op.ctxGiven = true) → (∀ e ∈ evs, e.ctx ≠ none) →
      runFrom p evs ops ≠ .error "nil" ∧
      ∀ s evs', runFrom p evs ops = .ok (s, evs') → ∀ e ∈ evs', e.ctx ≠ none := by
  induction ops with
  | nil =>
    intro p evs _ _ hev
    constructor
    · simp [runFrom]
    · intro s evs' h
      simp only [runFrom] at h
      injection h with h
      injection h with _ h2
      rw [← h2]; exact hev
  | cons op ops ih =>
    intro p evs hinv hctx hev
    obtain ⟨s1, s2⟩ := @step_of_MapInv p op hinv
    cases hs : step p op with
    | error e =>
      constructor
      · simp only [runFrom, hs]
        intro h
        injection h with h
        exact s1 (by rw [hs, h])
      · intro s evs' h
        simp [runFrom, hs] at h
    | ok r =>
      obtain ⟨q, e⟩ := r
      have hq : MapInv q := MapInv_step hinv (hctx op (List.mem_cons_self _ _)) hs
      have hev' : ∀ x ∈ evs ++ e, x.ctx ≠ none := by
        intro x hx
        rcases List.mem_append.1 hx with hx | hx
        · exact hev x hx
        · exact s2 q e hs x hx
      have := ih q (evs ++ e) hq (fun o ho => hctx o (List.mem_cons_of_mem _ ho)) hev'
      simpa only [runFrom, hs] using this

/-- C21. In a run from `newPendingTracker` in which every `OnRequestSent` is
given a non-nil `reqCtx`: the run never takes the `glog.Fatal("nil")` exit of
`ClearOnError`; every `Reply` and `ReplyError` made in it (by
`OnResonseReceived`, `OnTimeout` and `ClearOnError`) is on a non-nil
`reqCtx`; and in the state it reaches every `PendingRequest` of
`mapRequestsSent` has a non-nil `reqCtx`, so that `ClearOnError` returns
normally there. -/
theorem C21_map_contexts_never_nil (d : Duration) (ops : List Op)
    (hctx : ∀ op ∈ ops, op.ctxGiven = true) :
    run d ops ≠ .error "nil" ∧
    ∀ s evs, run d ops = .ok (s, evs) →
      (∀ kv ∈ s.mapRequestsSent, (s.heap kv.2).reqCtx ≠ none) ∧
      (∀ e ∈ evs, e.ctx ≠ none) ∧
      (∀ err, ∃ q evs', ClearOnError s err = .ok (q, evs')) := by
  obtain ⟨h1, h2⟩ := runFrom_of_MapInv ops (newPendingTracker d) [] (MapInv_new d) hctx
    (by simp)
  refine ⟨h1, ?_⟩
  intro s evs hrun
  have hinv : MapInv s :=
    MapInv_runFrom ops (newPendingTracker d) [] s evs (MapInv_new d) hctx hrun
  have hn : ∀ kv ∈ s.mapRequestsSent, (s.heap kv.2).reqCtx ≠ none :=
    fun kv hkv => (hinv.1 kv hkv).2
  exact ⟨hn, h2 s evs hrun, fun err => ⟨_, _, ClearOnError_of_nonnil s err hn⟩⟩

/-- C21, on the run that sends sequences 1 and 2 with contexts 7 and 8 and
sweeps at instant 10. -/
theorem C21_map_contexts_never_nil_witness :
    (∀ op ∈ [Op.requestSent 0 (some 7) 1, Op.requestSent 3 (some 8) 2, Op.timeout 10],
      op.ctxGiven = true) ∧
    ∃ s evs, run 10 [.requestSent 0 (some 7) 1, .requestSent 3 (some 8) 2, .timeout 10]
        = .ok (s, evs) ∧
      evs = [Event.ReplyError (some 7) "request timeout"] ∧
      (∀ kv ∈ s.mapRequestsSent, (s.heap kv.2).reqCtx ≠ none) ∧
      (∀ e ∈ evs, e.ctx ≠ none) :=
  ⟨by decide, _, _, rfl, by decide,
    ((C21_map_contexts_never_nil 10
      [.requestSent 0 (some 7) 1, .requestSent 3 (some 8) 2, .timeout 10] (by decide)).2
      _ _ rfl).1,
    ((C21_map_contexts_never_nil 10
      [.requestSent 0 (some 7) 1, .requestSent 3 (some 8) 2, .timeout 10] (by decide)).2
      _ _ rfl).2.1⟩

end Cli

/-! ## Properties of the storage server configuration -/

namespace StorageConfig

/-- C23. The micro-shard step of `LoadConfig` does not change
`MicroShardsEnabled`. When the flag is true, afterwards
`1 ≤ NumMicroShardGroups ≤ 256` and `1 ≤ NumMicroShards ≤ 256`: a value
already in `[1, 256]` is kept, and a value of 0 or above 256 becomes the
default, 8 groups and 256 shards. When the flag is false, both are 0
afterwards. -/
theorem C23_micro_shard_normalisation (c : Config) :
    (normalizeMicroShards c).MicroShardsEnabled = c.MicroShardsEnabled ∧
    (c.MicroShardsEnabled = true →
      (1 ≤ (normalizeMicroShards c).NumMicroShardGroups ∧
        (normalizeMicroShards c).NumMicroShardGroups ≤ 256) ∧
      (1 ≤ (normalizeMicroShards c).NumMicroShards ∧
        (normalizeMicroShards c).NumMicroShards ≤ 256) ∧
      (1 ≤ c.NumMicroShardGroups ∧ c.NumMicroShardGroups ≤ 256 →
        (normalizeMicroShards c).NumMicroShardGroups = c.NumMicroShardGroups) ∧
      (c.NumMicroShardGroups = 0 ∨ 256 < c.NumMicroShardGroups →
        (normalizeMicroShards c).NumMicroShardGroups = 8) ∧
      (1 ≤ c.NumMicroShards ∧ c.NumMicroShards ≤ 256 →
        (normalizeMicroShards c).NumMicroShards = c.NumMicroShards) ∧
      (c.NumMicroShards = 0 ∨ 256 < c.NumMicroShards →
        (normalizeMicroShards c).NumMicroShards = 256)) ∧
    (c.MicroShardsEnabled = false →
      (normalizeMicroShards c).NumMicroShards = 0 ∧
      (normalizeMicroShards c).NumMicroShardGroups = 0) := by
  refine ⟨?_, ?_, ?_⟩
  · unfold normalizeMicroShards
    split
    · dsimp only
      split <;> split <;> simp_all
    · rfl
  · intro hen
    have hg : (normalizeMicroShards c).NumMicroShardGroups =
        if c.NumMicroShardGroups = 0 ∨ c.NumMicroShardGroups > 256 then 8
        else c.NumMicroShardGroups := by
      unfold normalizeMicroShards
      simp only [hen, if_true]
      split <;> split <;> simp_all
    have hs : (normalizeMicroShards c).NumMicroShards =
        if c.NumMicroShards = 0 ∨ c.NumMicroShards > 256 then 256
        else c.NumMicroShards := by
      unfold normalizeMicroShards
      simp only [hen, if_true]
      split <;> split <;> simp_all
    rw [hg, hs]
    refine ⟨?_, ?_, ?_, ?_, ?_, ?_⟩
    · split <;> omega
    · split <;> omega
    · intro h; rw [if_neg (by omega)]
    · intro h; rw [if_pos (by omega)]
    · intro h; rw [if_neg (by omega)]
    · intro h; rw [if_pos (by omega)]
  · intro hdis
    simp [normalizeMicroShards, hdis]

/-- C23, on a configuration with micro-shards enabled, 300 shards and 5
groups: 256 shards and 5 groups afterwards. -/
theorem C23_micro_shard_normalisation_witness :
    (normalizeMicroShards
      { RootDir := "/juno", StateLogDir := "", PidFileName := "", EtcdCacheDir := "",
        DbPaths := [], MicroShardsEnabled := true, NumMicroShards := 300,
        NumMicroShardGroups := 5 }).NumMicroShards = 256 ∧
    (normalizeMicroShards
      { RootDir := "/juno", StateLogDir := "", PidFileName := "", EtcdCacheDir := "",
        DbPaths := [], MicroShardsEnabled := true, NumMicroShards := 300,
        NumMicroShardGroups := 5 }).NumMicroShardGroups = 5 :=
  ⟨((C23_micro_shard_normalisation _).2.1 rfl).2.2.2.2.2 (Or.inr (by decide)),
    ((C23_micro_shard_normalisation _).2.1 rfl).2.2.1 ⟨by decide, by decide⟩⟩

end StorageConfig

namespace StorageConfig

theorem splitSlash_ne_nil (l : List Char) : splitSlash l ≠ [] := by
  cases l with
  | nil => simp [splitSlash]
  | cons c cs =>
    by_cases hc : c = '/'
    · simp [splitSlash, hc]
    · simp only [splitSlash, hc, if_false]
      split <;> simp

theorem splitSlash_append (l r : List Char) :
    splitSlash (l ++ '/' :: r) = splitSlash l ++ splitSlash r := by
  induction l with
  | nil => simp [splitSlash]
  | cons c cs ih =>
    by_cases hc : c = '/'
    · simp [splitSlash, hc, ih]
    · simp only [List.cons_append, splitSlash, hc, if_false]
      have ih' : splitSlash (cs.append ('/' :: r)) = splitSlash cs ++ splitSlash r := ih
      rw [ih']
      cases hs : splitSlash cs with
      | nil => exact absurd hs (splitSlash_ne_nil cs)
      | cons e es => simp

theorem cleanElems_append (rooted : Bool) (xs ys : List (List Char)) :
    ∀ st, cleanElems rooted (xs ++ ys) st = cleanElems rooted ys (cleanElems rooted xs st) := by
  induction xs with
  | nil => intro st; simp [cleanElems]
  | cons e es ih =>
    intro st
    simp only [List.cons_append, cleanElems]
    split
    · exact ih _
    · split
      · cases st with
        | nil => simp only []; split <;> exact ih _
        | cons top rest =>
          simp only []
          split
          · exact ih _
          · split <;> exact ih _
      · exact ih _

/-- Elements that stay inside the directory they are appended to are put on
top of its elements by the scan of `Clean`. -/
theorem cleanElems_appended (rooted : Bool) (cs : List (List Char)) :
    ∀ (t t' s : List (List Char)), appendedElems cs t = some t' →
      (∀ e ∈ t, e ≠ ['.', '.']) →
      cleanElems rooted cs (t ++ s) = t' ++ s := by
  induction cs with
  | nil =>
    intro t t' s h _
    simp only [appendedElems] at h
    injection h with h
    simp [cleanElems, h]
  | cons e es ih =>
    intro t t' s h ht
    simp only [appendedElems] at h
    simp only [cleanElems]
    by_cases h1 : e = [] ∨ e = ['.']
    · simp only [h1, if_true] at h ⊢
      exact ih t t' s h ht
    · simp only [h1, if_false] at h ⊢
      by_cases h2 : e = ['.', '.']
      · simp only [h2, if_true] at h ⊢
        cases t with
        | nil => simp at h
        | cons top rest =>
          simp only [] at h
          have htop : top ≠ ['.', '.'] := ht top (List.mem_cons_self _ _)
          simp only [List.cons_append, ne_eq, htop, not_false_eq_true, if_true]
          exact ih rest t' s h (fun x hx => ht x (List.mem_cons_of_mem _ hx))
      · simp only [h2, if_false] at h ⊢
        have := ih (e :: t) t' s h (by
          intro x hx
          rcases List.mem_cons.1 hx with rfl | hx
          · exact h2
          · exact ht x hx)
        simpa using this

theorem data_join (R p : String) : (R ++ "/" ++ p).data = R.data ++ '/' :: p.data := by
  simp [String.data_append]

theorem isRooted_append (R s : String) (hR : R ≠ "") : isRooted (R ++ s) = isRooted R := by
  have hd : R.data ≠ [] := by
    intro h
    apply hR
    exact String.ext h
  unfold isRooted
  rw [String.data_append]
  cases hdata : R.data with
  | nil => exact absurd hdata hd
  | cons a l => simp

/-- For a non-empty `R`, cleaning `R/` gives the cleaned `R`. -/
theorem Clean_trailing_slash (R : String) (hR : R ≠ "") : Clean (R ++ "/") = Clean R := by
  unfold Clean cleanElements
  rw [isRooted_append R "/" hR]
  have hdata : (R ++ "/").data = R.data ++ '/' :: [] := by simp [String.data_append]
  rw [hdata, splitSlash_append, cleanElems_append]
  simp [splitSlash, cleanElems]

/-- For a non-empty `R` and a path `p` that stays inside, the elements of the
cleaned `R/p` are those of the cleaned `R` followed by those that `p`
appends. -/
theorem Clean_join (R p : String) (t : List (List Char)) (hR : R ≠ "")
    (ht : appendedElems (splitSlash p.data) [] = some t) :
    Clean (R ++ "/" ++ p) = ofElements (isRooted R) (cleanElements R ++ t.reverse) := by
  unfold Clean cleanElements
  have hroot : isRooted (R ++ "/" ++ p) = isRooted R := by
    rw [String.append_assoc]
    exact isRooted_append R _ hR
  rw [hroot, data_join, splitSlash_append, cleanElems_append]
  have := cleanElems_appended (isRooted R) (splitSlash p.data) [] t
    (cleanElems (isRooted R) (splitSlash R.data) []) ht (by simp)
  simp only [List.nil_append] at this
  rw [this]
  simp

theorem joinSlash_append (a b : List (List Char)) (ha : a ≠ []) (hb : b ≠ []) :
    joinSlash (a ++ b) = joinSlash a ++ '/' :: joinSlash b := by
  induction a with
  | nil => exact absurd rfl ha
  | cons e es ih =>
    cases es with
    | nil =>
      cases b with
      | nil => exact absurd rfl hb
      | cons b0 bs => simp [joinSlash]
    | cons e2 es2 =>
      have := ih (by simp)
      simp only [List.cons_append] at this ⊢
      simp [joinSlash, this]

end StorageConfig

namespace StorageConfig

theorem cleanElems_nonempty (rooted : Bool) (cs : List (List Char)) :
    ∀ st : List (List Char), (∀ e ∈ st, e ≠ []) →
      ∀ e ∈ cleanElems rooted cs st, e ≠ [] := by
  induction cs with
  | nil => intro st h; simpa [cleanElems] using h
  | cons e es ih =>
    intro st h
    simp only [cleanElems]
    by_cases h1 : e = [] ∨ e = ['.']
    · simp only [h1, if_true]; exact ih st h
    · simp only [h1, if_false]
      have hne : e ≠ [] := fun h0 => h1 (Or.inl h0)
      have hpush : ∀ x ∈ e :: st, x ≠ [] := by
        intro x hx
        rcases List.mem_cons.1 hx with rfl | hx
        · exact hne
        · exact h x hx
      by_cases h2 : e = ['.', '.']
      · simp only [h2, if_true]
        cases st with
        | nil =>
          simp only []
          split
          · exact ih [] (by simp)
          · exact ih _ (by simp)
        | cons top rest =>
          simp only []
          split
          · exact ih rest (fun x hx => h x (List.mem_cons_of_mem _ hx))
          · split
            · exact ih _ h
            · exact ih _ (by rw [← h2]; exact hpush)
      · simp only [h2, if_false]
        exact ih _ hpush

theorem appendedElems_nonempty (cs : List (List Char)) :
    ∀ t t' : List (List Char), appendedElems cs t = some t' → (∀ e ∈ t, e ≠ []) →
      ∀ e ∈ t', e ≠ [] := by
  induction cs with
  | nil =>
    intro t t' h ht
    simp only [appendedElems] at h
    injection h with h
    rw [← h]; exact ht
  | cons e es ih =>
    intro t t' h ht
    simp only [appendedElems] at h
    by_cases h1 : e = [] ∨ e = ['.']
    · simp only [h1, if_true] at h
      exact ih t t' h ht
    · simp only [h1, if_false] at h
      by_cases h2 : e = ['.', '.']
      · simp only [h2, if_true] at h
        cases t with
        | nil => simp at h
        | cons top rest =>
          simp only [] at h
          exact ih rest t' h (fun x hx => ht x (List.mem_cons_of_mem _ hx))
      · simp only [h2, if_false] at h
        refine ih (e :: t) t' h ?_
        intro x hx
        rcases List.mem_cons.1 hx with rfl | hx
        · exact fun h0 => h1 (Or.inl h0)
        · exact ht x hx

theorem joinSlash_ne_nil (l : List (List Char)) (hl : l ≠ []) (h : ∀ e ∈ l, e ≠ []) :
    joinSlash l ≠ [] := by
  cases l with
  | nil => exact absurd rfl hl
  | cons e es =>
    have he : e ≠ [] := h e (List.mem_cons_self _ _)
    cases es with
    | nil => simpa [joinSlash] using he
    | cons e2 es2 => simp [joinSlash, he]

theorem length_eq_zero_iff (p : String) : p.length = 0 ↔ p = "" := by
  constructor
  · intro h
    apply String.ext
    have : p.data.length = 0 := h
    exact List.length_eq_zero.1 this
  · intro h; rw [h]; rfl

end StorageConfig

namespace StorageConfig

/-- C22. A relative path is not kept under `RootDir`: with `RootDir = "/root"`
the relative path `../x` is set to `/x`, whose only element is `x`, while the
cleaned `RootDir` is `/root`, with the element `root`. -/
theorem C22_relative_path_leaves_RootDir :
    IsAbs "../x" = false ∧
    (configAt "/root").validatePath (some "../x") = some "/x" ∧
    Clean (configAt "/root").RootDir = "/root" ∧
    cleanElements "/x" = [['x']] ∧
    cleanElements (configAt "/root").RootDir = [['r', 'o', 'o', 't']] := by
  decide

/-- Paths that stay inside. For every `Config` with a non-empty `RootDir` and every path
`p`, `validatePath` leaves `p` unchanged when it is a non-empty absolute
path, sets it to the cleaned `RootDir` when it is empty and, when `p` is
relative and stays inside (each `..` element of `p` has an earlier element of
`p` to cancel), sets it to the path whose elements are those of the cleaned
`RootDir` followed by those `p` appends: the cleaned `RootDir` itself when `p`
appends nothing; the cleaned `RootDir`, a slash and the appended elements
when the cleaned `RootDir` names a directory; `/` and the appended elements
when it is `/`; the appended elements when it is `.`. -/
theorem validatePath_under_RootDir (c : Config) (p : String) (hR : c.RootDir ≠ "") :
    (p ≠ "" → IsAbs p = true → c.validatePath (some p) = some p) ∧
    (p = "" → c.validatePath (some p) = some (Clean c.RootDir)) ∧
    (p ≠ "" → IsAbs p = false →
      ∀ t, appendedElems (splitSlash p.data) [] = some t →
        c.validatePath (some p) =
          some (ofElements (isRooted c.RootDir) (cleanElements c.RootDir ++ t.reverse)) ∧
        (t = [] → c.validatePath (some p) = some (Clean c.RootDir)) ∧
        (t ≠ [] → cleanElements c.RootDir ≠ [] →
          c.validatePath (some p) =
            some (Clean c.RootDir ++ "/" ++ String.mk (joinSlash t.reverse))) ∧
        (t ≠ [] → cleanElements c.RootDir = [] → isRooted c.RootDir = true →
          Clean c.RootDir = "/" ∧
          c.validatePath (some p) = some ("/" ++ String.mk (joinSlash t.reverse))) ∧
        (t ≠ [] → cleanElements c.RootDir = [] → isRooted c.RootDir = false →
          Clean c.RootDir = "." ∧
          c.validatePath (some p) = some (String.mk (joinSlash t.reverse)))) := by
  refine ⟨?_, ?_, ?_⟩
  · intro hp habs
    have hlen : ¬ p.length = 0 := fun h => hp ((length_eq_zero_iff p).1 h)
    simp [Config.validatePath, hlen, habs]
  · intro hp
    subst hp
    have : "".length = 0 := rfl
    simp only [Config.validatePath, this, if_true]
    rw [Clean_trailing_slash _ hR]
  · intro hp habs t ht
    have hlen : ¬ p.length = 0 := fun h => hp ((length_eq_zero_iff p).1 h)
    have hval : c.validatePath (some p) =
        some (ofElements (isRooted c.RootDir) (cleanElements c.RootDir ++ t.reverse)) := by
      simp only [Config.validatePath, hlen, if_false, habs, Bool.not_false, if_true]
      rw [Clean_join c.RootDir p t hR ht]
    have hrevne : ∀ e ∈ t.reverse, e ≠ [] := by
      intro e he
      exact appendedElems_nonempty _ [] t ht (by simp) e (List.mem_reverse.1 he)
    have hrootne : ∀ e ∈ cleanElements c.RootDir, e ≠ [] := by
      intro e he
      unfold cleanElements at he
      exact cleanElems_nonempty _ _ [] (by simp) e (List.mem_reverse.1 he)
    refine ⟨hval, ?_, ?_, ?_, ?_⟩
    · intro h0
      rw [hval, h0]
      simp [Clean]
    · intro htne hrne
      have hrev : t.reverse ≠ [] := by simpa using htne
      rw [hval]
      congr 1
      unfold Clean ofElements
      rw [joinSlash_append _ _ hrne hrev]
      cases hroot : isRooted c.RootDir with
      | true =>
        simp only [if_true]
        apply String.ext
        simp [String.data_append]
      | false =>
        have h1 : joinSlash (cleanElements c.RootDir) ≠ [] :=
          joinSlash_ne_nil _ hrne hrootne
        simp only [Bool.false_eq_true, if_false, h1]
        have h2 : joinSlash (cleanElements c.RootDir) ++ '/' :: joinSlash t.reverse ≠ [] := by
          simp
        rw [if_neg h2]
        apply String.ext
        simp [String.data_append]
    · intro htne hre hroot
      constructor
      · simp [Clean, ofElements, hre, hroot, joinSlash]
      · rw [hval, hre, hroot]
        simp only [List.nil_append, ofElements, if_true]
        congr 1
    · intro htne hre hroot
      have hrev : t.reverse ≠ [] := by simpa using htne
      constructor
      · simp [Clean, ofElements, hre, hroot, joinSlash]
      · rw [hval, hre, hroot]
        simp only [List.nil_append, ofElements, Bool.false_eq_true, if_false]
        rw [if_neg (joinSlash_ne_nil _ hrev hrevne)]

/-- Example for `RootDir = "/opt/juno"`: the absolute path `/var/log` is
kept, the empty path becomes `/opt/juno`, and `logs/../state/x` becomes
`/opt/juno/state/x`. -/
theorem validatePath_under_RootDir_example :
    (configAt "/opt/juno").RootDir ≠ "" ∧
    (configAt "/opt/juno").validatePath (some "/var/log") = some "/var/log" ∧
    (configAt "/opt/juno").validatePath (some "") = some (Clean "/opt/juno") ∧
    (configAt "/opt/juno").validatePath (some "logs/../state/x") =
      some (Clean "/opt/juno" ++ "/" ++ "state/x") :=
  ⟨by decide,
    (validatePath_under_RootDir (configAt "/opt/juno") "/var/log" (by decide)).1
      (by decide) (by decide),
    (validatePath_under_RootDir (configAt "/opt/juno") "" (by decide)).2.1 rfl,
    ((validatePath_under_RootDir (configAt "/opt/juno") "logs/../state/x"
      (by decide)).2.2 (by decide) (by decide)
      [['x'], ['s', 't', 'a', 't', 'e']] (by decide)).2.2.1 (by decide) (by decide)⟩

end StorageConfig

namespace StorageConfig

/-- The caller of `validatePath` first replaces an empty `RootDir` by the
directory of the executable, and does not change `RootDir` afterwards. -/
theorem validatePathAndFileNames_RootDir (serverConfig : Config) (exeDir : String) :
    (validatePathAndFileNames serverConfig exeDir).RootDir =
      if serverConfig.RootDir.length = 0 then exeDir else serverConfig.RootDir := by
  unfold validatePathAndFileNames
  by_cases h : serverConfig.RootDir.length = 0
  · simp only [h, if_true]
    split <;> rfl
  · simp only [h, if_false]
    split <;> rfl

end StorageConfig
